import Mathlib

/-!
Verification of the ECCONet-3.0-C99 Matrix CAN-bus application layer.

This file gives a shallow embedding, in Lean 4, of the parts of the C
sources that the specification's quantified claims are about:

* token key classification (matrix_tokens.c, matrix_token_regions.h);
* the message CRC-16 (matrix_crc.c);
* the wrap-aware event index (matrix_event_index.c);
* the token codec (matrix_codec.c);
* the transmitter framing path (matrix_transmitter.c);
* the receiver's per-message dispatch (matrix_receiver.c);
* the CAN self-addressing mechanism (matrix_can_address.c);
* the token-sequencer sync handling (matrix_token_sequencer.c);
* the token routing paths (matrix.c, matrix_time_logic_outputs.c).

Machine integers are modelled as Nat with explicit masks where the C
code truncates; int8 comparisons are made explicit via toInt8.
-/

namespace ECCONet

/-! ### Token keys (matrix_tokens.c / matrix_token_regions.h) -/

/-- Key prefix constants from matrix_tokens.h. -/
def KeyPrefix_Command : Nat := 0x00

def KeyPrefix_OutputStatus : Nat := 0x20

def KeyPrefix_InputStatus : Nat := 0x40

def KeyPrefix_BinaryRepeat : Nat := 0x60

def KeyPrefix_AnalogRepeat : Nat := 0x80

def KeyPrefix_PatternSync : Nat := 0xA0

def KeyPrefix_Mask : Nat := 0xE0

/-- Key_GetPrefix from matrix_tokens.c: the top three bits of the key,
returned as a byte-aligned prefix value. -/
def Key_GetPrefixBits (key : Nat) : Nat :=
  (key >>> 8) &&& KeyPrefix_Mask

/-- Key_WithoutPrefix from matrix_tokens.c. -/
def Key_WithoutPrefix (key : Nat) : Nat :=
  key &&& 0x1FFF

/-- Key_IsInputStatus from matrix_tokens.c. -/
def Key_IsInputStatus (key : Nat) : Bool :=
  key &&& 0xE000 == 0x4000

/-- Key_IsOutputStatus from matrix_tokens.c. -/
def Key_IsOutputStatus (key : Nat) : Bool :=
  key &&& 0xE000 == 0x2000

/-- Key_IsCommand from matrix_tokens.c. -/
def Key_IsCommand (key : Nat) : Bool :=
  key &&& 0xE000 == 0x0000

/-- Key_IsLocalVariable from matrix_tokens.c: region 1..199 after
stripping the prefix. -/
def Key_IsLocalVariable (key : Nat) : Bool :=
  let k := key &&& 0x1FFF
  1 ≤ k && k < 1 + 199

/-- Key_IsFtpRequest from matrix_tokens.c: region 8160..8169. -/
def Key_IsFtpRequest (key : Nat) : Bool :=
  let k := key &&& 0x1FFF
  8160 ≤ k && k < 8160 + 10

/-- Key_IsFtpResponse from matrix_tokens.c: region 8170..8191. -/
def Key_IsFtpResponse (key : Nat) : Bool :=
  let k := key &&& 0x1FFF
  8170 ≤ k && k < 8170 + 22

/-- Key_ValueSize from matrix_tokens.c: the wire width in bytes of a
token value, a pure function of the key's 13-bit region part. -/
def Key_ValueSize (key : Nat) : Nat :=
  let k := key &&& 0x1FFF
  if k = 0 then 0
  else if k < 200 then
    if k < 120 then 1
    else if k < 170 then 2
    else if k < 190 then 4
    else 0
  else if k < 5000 then 1
  else if k < 7000 then 2
  else if k < 8000 then 4
  else if k < 8150 then 0
  else if k < 8160 then 3
  else 0

/-- Named key: KeyNull. -/
def KeyNull : Nat := 0

/-- Named key: KeyRequestAddress (base of the named misc one-byte region). -/
def KeyRequestAddress : Nat := 3000

/-- Named key: KeyResponseAddressInUse. -/
def KeyResponseAddressInUse : Nat := 3001

/-- Named key: KeyTokenSequencerPattern (base of named two-byte region). -/
def KeyTokenSequencerPattern : Nat := 5000

/-- Named key: KeyTokenSequencerSync. -/
def KeyTokenSequencerSync : Nat := 5001

/-- Named key: KeyIndexedSequencer (base of indexed sequencer region). -/
def KeyIndexedSequencer : Nat := 8150

/-! ### CRC-16 (matrix_crc.c) -/

/-- One shift step of the reflected CRC-16 with polynomial 0xA001:
the body of the while loop in Matrix_AddByteToCRC16. -/
def crc16Step (byte crc : Nat) : Nat × Nat :=
  let crc' := if (byte ^^^ crc) &&& 1 ≠ 0 then (crc >>> 1) ^^^ 0xA001 else crc >>> 1
  (byte >>> 1, crc')

/-- Matrix_AddByteToCRC16 from matrix_crc.c: folds the eight bits of a
byte into the CRC accumulator. -/
def Matrix_AddByteToCRC16 (byte crc : Nat) : Nat :=
  let s1 := crc16Step byte crc
  let s2 := crc16Step s1.1 s1.2
  let s3 := crc16Step s2.1 s2.2
  let s4 := crc16Step s3.1 s3.2
  let s5 := crc16Step s4.1 s4.2
  let s6 := crc16Step s5.1 s5.2
  let s7 := crc16Step s6.1 s6.2
  let s8 := crc16Step s7.1 s7.2
  s8.2

/-- Matrix_ComputeCRC16 from matrix_crc.c with init value 0.  The C
function returns 0 for an empty input, which the fold also gives. -/
def Matrix_ComputeCRC16 (bytes : List Nat) : Nat :=
  bytes.foldl (fun crc b => Matrix_AddByteToCRC16 b crc) 0

/-- Matrix_IsMessageChecksumValid from matrix_crc.c: the big-endian
16-bit word formed by the last two bytes must equal the CRC-16 of all
preceding bytes. -/
def Matrix_IsMessageChecksumValid (bytes : List Nat) : Bool :=
  if bytes.length = 0 then false
  else
    let messageCrc := 256 * bytes.getD (bytes.length - 2) 0 + bytes.getD (bytes.length - 1) 0
    messageCrc == Matrix_ComputeCRC16 (bytes.take (bytes.length - 2))

/-! ### Event index (matrix_event_index.c) -/

/-- Interpretation of a byte as a signed 8-bit value, used for the
int8 casts in matrix_event_index.c. -/
def toInt8 (v : Nat) : Int :=
  if v % 256 < 128 then (v % 256 : Int) else (v % 256 : Int) - 256

/-- The int8 difference (int8)(a - b) of two bytes, as computed by the
C expressions in matrix_event_index.c. -/
def int8Diff (a b : Nat) : Int :=
  toInt8 ((256 + a - b) % 256)

/-- Matrix_GetEventIndex from matrix_event_index.c: returns the current
index, bumping a zero index to 1 first.  Returns the value and the new
state. -/
def Matrix_GetEventIndex (eventIndex : Nat) : Nat × Nat :=
  let e := if eventIndex = 0 then 1 else eventIndex
  (e, e)

/-- Matrix_NextEventIndex from matrix_event_index.c: increments the
index modulo 256, skipping zero. -/
def Matrix_NextEventIndex (eventIndex : Nat) : Nat :=
  let e := (eventIndex + 1) % 256
  if e = 0 then 1 else e

/-- Matrix_NewEventIndex from matrix_event_index.c: observing a remote
index.  Zero is ignored; otherwise the local index is updated when it
is zero or the remote index is newer in the int8 wrap-aware order. -/
def Matrix_NewEventIndex (index eventIndex : Nat) : Nat :=
  if index = 0 then eventIndex
  else if eventIndex = 0 ∨ 0 < int8Diff index eventIndex then index
  else eventIndex

/-- Matrix_IsEventIndexExpired from matrix_event_index.c: a remote index
of zero is never expired; otherwise expired means strictly older in the
int8 wrap-aware order. -/
def Matrix_IsEventIndexExpired (index eventIndex : Nat) : Bool :=
  if index = 0 then false
  else decide (int8Diff index eventIndex < 0)

/-! ### Tokens (matrix_tokens.h) -/

/-- The TOKEN structure from matrix_tokens.h.  The 32-bit signed value
is modelled by its bit pattern as a Nat. -/
structure TOKEN where
  flags : Nat := 0
  address : Nat
  key : Nat
  value : Nat
  deriving DecidableEq, Repr

/-! ### Receiver message dispatch (matrix_receiver.c) -/

/-- The destinations to which ProcessMessagesInStream can deliver a
complete message. -/
inductive RxDispatch where
  | patternSync (token : TOKEN)
  | ftpClient (senderAddress key : Nat) (body : List Nat)
  | ftpServer (senderAddress key : Nat) (body : List Nat)
  | decompressor (senderAddress : Nat) (stream : List Nat)
  deriving DecidableEq, Repr

/-- Whether a dispatch goes to the FTP client, the FTP server or the
codec decompressor. -/
def RxDispatch.isDownstreamConsumer : RxDispatch → Bool
  | .ftpClient _ _ _ => true
  | .ftpServer _ _ _ => true
  | .decompressor _ _ => true
  | .patternSync _ => false

/-- The complete-message handling of ProcessMessagesInStream
(matrix_receiver.c, lines 229-307): checksum gate, CRC-size removal,
key extraction and dispatch.  `data` is the concatenation of the frame
payloads, `numMessageFrames` the frame count of the message, `isEvent`
the event flag of the first frame and `eventIndex` the local event
index state.  Returns the dispatch taken, if any. -/
def Receiver_ProcessCompleteMessage (numMessageFrames : Nat) (data : List Nat)
    (senderAddress : Nat) (isEvent : Bool) (eventIndex : Nat) : Option RxDispatch :=
  if numMessageFrames = 1 ∨ Matrix_IsMessageChecksumValid data then
    let numMessageBytes := if 8 < data.length then data.length - 2 else data.length
    if 3 ≤ numMessageBytes then
      let b1 := data.getD 1 0
      let key := ((b1 &&& 0x1F) <<< 8) ||| data.getD 2 0
      if b1 &&& KeyPrefix_Mask = KeyPrefix_PatternSync then
        some (.patternSync ⟨0, senderAddress, KeyTokenSequencerSync, key⟩)
      else if Key_IsFtpResponse key then
        some (.ftpClient senderAddress key ((data.take numMessageBytes).drop 3))
      else if Key_IsFtpRequest key then
        some (.ftpServer senderAddress key ((data.take numMessageBytes).drop 3))
      else
        let eventIndex' := Matrix_NewEventIndex (data.getD 0 0) eventIndex
        let isCommand := b1 &&& KeyPrefix_Mask = 0 ∧ numMessageBytes = 3 + Key_ValueSize key
        if isEvent ∨ isCommand ∨ ¬ Matrix_IsEventIndexExpired (data.getD 0 0) eventIndex' then
          some (.decompressor senderAddress ((data.take numMessageBytes).drop 1))
        else none
    else none
  else none

/-! ### CAN address manager (matrix_can_address.c) -/

/-- The persistent address-manager state: the working address, the
static flag (MATRIX_CAN_ADDRESS_FILE_OBJECT) and the currently proposed
candidate address (0 when none). -/
structure CanAddressState where
  address : Nat
  isStatic : Bool
  proposedAddress : Nat
  deriving DecidableEq, Repr

/-- MatrixCanAddress_CanTokenIn from matrix_can_address.c: checks an
incoming token for the self-address mechanism.  Returns the new state
and the tokens handed to Matrix_PrivateSendCanToken. -/
def MatrixCanAddress_CanTokenIn (st : CanAddressState) (token : TOKEN) :
    CanAddressState × List TOKEN :=
  if (token.key = KeyResponseAddressInUse ∧ token.value = st.proposedAddress)
      ∨ (st.address ≠ 0 ∧ st.address = token.address ∧ ¬ st.isStatic) then
    ({ st with address := 0, proposedAddress := 0 }, [])
  else if token.key = KeyRequestAddress ∧ token.value = st.address then
    (st, [{ token with key := KeyResponseAddressInUse, value := st.address, address := 0 }])
  else
    (st, [])

/-- The rotating-mask xor value computed inside
MatrixCanAddress_GetNextProposedCanAddress, with
DEVICE_ADDRESS_XOR_VALUE = 0x64 and seven address bits. -/
def xorValueOf (xorIndex : Nat) : Nat :=
  (0x64 >>> xorIndex) ||| ((0x64 <<< (7 - xorIndex)) &&& 0x7F)

/-- The generator state of the self-address candidate loop. -/
structure CanAddressGenState where
  xorIndex : Nat
  addressOffset : Nat
  deriving DecidableEq, Repr

/-- One candidate computation of the loop body in
MatrixCanAddress_GetNextProposedCanAddress: the sum of the sixteen GUID
bytes each xor-ed with the rotating mask, plus the address offset,
masked to seven bits. -/
def candidateOf (guid : List Nat) (st : CanAddressGenState) : Nat :=
  (guid.foldl (fun a b => a + (b ^^^ xorValueOf st.xorIndex)) 0 + st.addressOffset) &&& 0x7F

/-- The generator-state update of the loop body: bump the xor index,
and when it rolls over at seven, bump the masked address offset. -/
def bumpGenState (st : CanAddressGenState) : CanAddressGenState :=
  if 7 ≤ st.xorIndex + 1 then ⟨0, (st.addressOffset + 1) &&& 0x7F⟩
  else ⟨st.xorIndex + 1, st.addressOffset⟩

/-- The do-while loop of MatrixCanAddress_GetNextProposedCanAddress
(matrix_can_address.c, lines 227-253), with explicit fuel: candidates
of 0 or above 120 are rejected and the generator state advanced. -/
def MatrixCanAddress_GetNextProposedCanAddress (fuel : Nat) (guid : List Nat)
    (st : CanAddressGenState) : Option (Nat × CanAddressGenState) :=
  match fuel with
  | 0 => none
  | fuel + 1 =>
    if candidateOf guid st = 0 ∨ 120 < candidateOf guid st then
      MatrixCanAddress_GetNextProposedCanAddress fuel guid (bumpGenState st)
    else
      some (candidateOf guid st, bumpGenState st)

/-! ### Transmitter (matrix_transmitter.c) -/

/-- Frame type constants from matrix_config.h (the optimized set). -/
def FrameType_SINGLE : Nat := 0x1C

def FrameType_BODY : Nat := 0x1D

def FrameType_LAST : Nat := 0x1E

/-- A CAN frame as placed in the transmit stream buffer by SendFrame.
The packed 32-bit identifier is kept as its fields. -/
structure TxFrame where
  frameType : Nat
  frameIndex : Nat
  destinationAddress : Nat
  sourceAddress : Nat
  isEvent : Bool
  data : List Nat
  deriving DecidableEq, Repr

/-- The MATRIX_TRANSMITTER state.  The fifo is the byte list
fifo[0..fifoIndex-1]; the transmit ring buffer is modelled as the list
of frames pushed, in order. -/
structure TxState where
  fifo : List Nat
  crc : Nat
  numBytesSent : Nat
  frameIndex : Nat
  frameType : Nat
  destinationAddress : Nat
  sourceAddress : Nat
  isEvent : Bool
  frames : List TxFrame
  deriving DecidableEq, Repr

/-- A reset transmitter about to start a message (MatrixTransmitter_Reset
followed by the fifo-clearing part of StartMessage), with the persistent
frame-index counter. -/
def TxInit (frameIndex : Nat) : TxState :=
  ⟨[], 0, 0, frameIndex, 0, 0, 0, false, []⟩

/-- SendFrame from matrix_transmitter.c: moves up to eight fifo bytes
into the next indexed frame of the transmit buffer.  With an empty fifo
the C function returns -1 without touching the state. -/
def SendFrame (st : TxState) : TxState :=
  if st.fifo.length = 0 then st
  else
    { st with
      frames := st.frames ++
        [⟨st.frameType, st.frameIndex, st.destinationAddress, st.sourceAddress,
          st.isEvent, st.fifo.take 8⟩],
      numBytesSent := st.numBytesSent + min st.fifo.length 8,
      frameIndex := (st.frameIndex + 1) % 32,
      fifo := st.fifo.drop 8 }

/-- MatrixTransmitter_AddByte from matrix_transmitter.c: accumulate the
CRC, append to the fifo, and flush a frame when the fifo reaches
CAN_TX_STREAM_FIFO_SIZE = 16 bytes. -/
def MatrixTransmitter_AddByte (st : TxState) (byte : Nat) : TxState :=
  let st' := { st with crc := Matrix_AddByteToCRC16 byte st.crc,
                       fifo := st.fifo ++ [byte] }
  if 16 ≤ st'.fifo.length then SendFrame st' else st'

/-- Folding a list of bytes into the transmitter. -/
def addBytesList (st : TxState) (bs : List Nat) : TxState :=
  bs.foldl MatrixTransmitter_AddByte st

/-- MatrixTransmitter_StartMessageWithAddressAndKey from
matrix_transmitter.c: reset the fifo and identifier, then append the
first message byte — 0 for the address-negotiation keys, otherwise the
current event index (setting the event flag for status-prefixed keys).
Returns the started state and the possibly-bumped event-index state. -/
def MatrixTransmitter_StartMessageWithAddressAndKey (st : TxState) (eventIndex : Nat)
    (sourceAddress destinationAddress key : Nat) : TxState × Nat :=
  let st' := { st with
    fifo := [], crc := 0, numBytesSent := 0,
    destinationAddress := destinationAddress,
    sourceAddress := sourceAddress,
    isEvent := false,
    frameType := FrameType_BODY }
  if key = KeyRequestAddress ∨ key = KeyResponseAddressInUse then
    (MatrixTransmitter_AddByte st' 0, eventIndex)
  else if Key_GetPrefixBits key = KeyPrefix_InputStatus
      ∨ Key_GetPrefixBits key = KeyPrefix_OutputStatus then
    (MatrixTransmitter_AddByte { st' with isEvent := true }
      (Matrix_GetEventIndex eventIndex).1, (Matrix_GetEventIndex eventIndex).2)
  else
    (MatrixTransmitter_AddByte st' (Matrix_GetEventIndex eventIndex).1,
      (Matrix_GetEventIndex eventIndex).2)

/-- The value-byte loop of MatrixTransmitter_AddToken: big-endian bytes
of the token value, one AddByte per byte. -/
def addTokenValueBytes (st : TxState) (value : Nat) : Nat → TxState
  | 0 => st
  | n + 1 => addTokenValueBytes
      (MatrixTransmitter_AddByte st ((value >>> (8 * n)) % 256)) value n

/-- MatrixTransmitter_AddToken from matrix_transmitter.c: key bytes then
value bytes; a PatternSync-prefixed key carries one value byte. -/
def MatrixTransmitter_AddToken (st : TxState) (token : TOKEN) : TxState :=
  addTokenValueBytes
    (MatrixTransmitter_AddByte
      (MatrixTransmitter_AddByte st ((token.key >>> 8) % 256)) (token.key % 256))
    token.value
    (if Key_GetPrefixBits token.key = KeyPrefix_PatternSync then 1
     else Key_ValueSize token.key)

/-- The last-frame retyping inside the drain loop of
MatrixTransmitter_FinishMessage: when the remaining fifo fits one
frame, the frame type becomes SINGLE or LAST. -/
def markLastFrame (isSingleFrame : Bool) (st : TxState) : TxState :=
  if st.fifo.length ≤ 8 then
    { st with frameType := if isSingleFrame then FrameType_SINGLE else FrameType_LAST }
  else st

/-- Fifo length after SendFrame. -/
theorem SendFrame_fifo_length (st : TxState) :
    (SendFrame st).fifo.length = st.fifo.length - 8 ∨
      ((SendFrame st).fifo.length = st.fifo.length ∧ st.fifo.length = 0) := by
  unfold SendFrame
  split
  · rename_i h
    exact Or.inr ⟨rfl, h⟩
  · left
    simp

/-- markLastFrame does not change the fifo. -/
theorem markLastFrame_fifo (b : Bool) (st : TxState) :
    (markLastFrame b st).fifo = st.fifo := by
  unfold markLastFrame
  split <;> rfl

/-- The while loop of MatrixTransmitter_FinishMessage that drains the
fifo into frames. -/
def drainFifo (isSingleFrame : Bool) (st : TxState) : TxState :=
  if h : st.fifo.length = 0 then st
  else drainFifo isSingleFrame (SendFrame (markLastFrame isSingleFrame st))
termination_by st.fifo.length
decreasing_by
  rcases SendFrame_fifo_length (markLastFrame isSingleFrame st) with h1 | h1
  · rw [h1, markLastFrame_fifo]
    omega
  · rw [markLastFrame_fifo] at h1
    omega

/-- MatrixTransmitter_FinishMessage from matrix_transmitter.c: append
the big-endian CRC when the message exceeds eight bytes, then drain the
fifo into frames, typing the final frame SINGLE or LAST. -/
def MatrixTransmitter_FinishMessage (st : TxState) : TxState :=
  if st.numBytesSent + st.fifo.length ≤ 8 then
    drainFifo true st
  else
    drainFifo false
      (MatrixTransmitter_AddByte
        (MatrixTransmitter_AddByte st ((st.crc >>> 8) % 256)) (st.crc % 256))

/-- The first byte of a message as appended by
MatrixTransmitter_StartMessageWithAddressAndKey. -/
def txFirstByte (key eventIndex : Nat) : Nat :=
  if key = KeyRequestAddress ∨ key = KeyResponseAddressInUse then 0
  else (Matrix_GetEventIndex eventIndex).1

/-- The wire bytes of a token as appended by MatrixTransmitter_AddToken. -/
def tokenValueBytesList (value : Nat) : Nat → List Nat
  | 0 => []
  | n + 1 => ((value >>> (8 * n)) % 256) :: tokenValueBytesList value n

/-- The full wire-byte list of a token: big-endian key then value bytes. -/
def tokenWireBytes (token : TOKEN) : List Nat :=
  (token.key >>> 8) % 256 :: token.key % 256 ::
    tokenValueBytesList token.value
      (if Key_GetPrefixBits token.key = KeyPrefix_PatternSync then 1
       else Key_ValueSize token.key)

/-- The mid-message transmitter invariant: the CRC accumulates the
message bytes so far, the fifo holds the unsent tail (never empty and
shorter than the 16-byte fifo), and the frames flushed since the
message started (after the base frames of earlier messages) are 8-byte
BODY flushes whose payloads concatenate to the sent part of the
message. -/
structure TxMid (base : List TxFrame) (msg : List Nat) (st : TxState) : Prop where
  crc_eq : st.crc = Matrix_ComputeCRC16 msg
  fifo_eq : st.fifo = msg.drop st.numBytesSent
  sent_eq : st.numBytesSent + st.fifo.length = msg.length
  fifo_lt : st.fifo.length < 16
  fifo_ne : st.fifo ≠ []
  ftype : st.frameType = FrameType_BODY
  frames_eq : ∃ nf, st.frames = base ++ nf ∧ st.numBytesSent = 8 * nf.length ∧
    (∀ f ∈ nf, f.frameType = FrameType_BODY) ∧
    (nf.map TxFrame.data).flatten = msg.take st.numBytesSent

/-- A full transmitter message run: start a message on a reset
transmitter, add a list of payload bytes, and finish. -/
def transmitterRun (fi ev src dst key : Nat) (bs : List Nat) : TxState :=
  MatrixTransmitter_FinishMessage (addBytesList
    (MatrixTransmitter_StartMessageWithAddressAndKey (TxInit fi) ev src dst key).1 bs)

/-! ### Core token-send path (matrix.c) -/

/-- The Matrix timing state used by Matrix_DelayStatusUpdate15mS. -/
structure MatrixTimeState where
  systemTime : Nat
  nextStatusTime : Nat
  deriving DecidableEq, Repr

/-- Interpretation of a 32-bit word as a signed value, for the int32
cast in Matrix_DelayStatusUpdate15mS. -/
def toInt32 (v : Nat) : Int :=
  if v % 4294967296 < 2147483648 then (v % 4294967296 : Int)
  else (v % 4294967296 : Int) - 4294967296

/-- Matrix_DelayStatusUpdate15mS from matrix.c. -/
def Matrix_DelayStatusUpdate15mS (m : MatrixTimeState) : MatrixTimeState :=
  if toInt32 ((4294967296 + m.nextStatusTime - m.systemTime % 4294967296) % 4294967296) < 15 then
    { m with nextStatusTime := m.nextStatusTime + 15 }
  else m

/-- One start/add-token/finish round of the send loop in
Matrix_PrivateSendCanToken. -/
def sendTokenOnce (src : Nat) (tx : TxState) (eventIndex : Nat) (token : TOKEN) :
    TxState × Nat :=
  let s := MatrixTransmitter_StartMessageWithAddressAndKey tx eventIndex src
    token.address token.key
  (MatrixTransmitter_FinishMessage (MatrixTransmitter_AddToken s.1 token), s.2)

/-- Iterating the send loop. -/
def sendTokenTimes (src : Nat) (tx : TxState) (eventIndex : Nat) (token : TOKEN) :
    Nat → TxState × Nat
  | 0 => (tx, eventIndex)
  | n + 1 =>
    let s := sendTokenOnce src tx eventIndex token
    sendTokenTimes src s.1 s.2 token n

/-- Matrix_PrivateSendCanToken from matrix.c: input-status tokens bump
the event index, push the status update, and are sent three times; all
other tokens are sent once.  Sending is refused (status -1) when the
device address is invalid, unless the token is a RequestAddress.
Returns the transmitter state, event-index state, timing state and the
C return status. -/
def Matrix_PrivateSendCanToken (addressValid : Bool) (src : Nat) (tx : TxState)
    (eventIndex : Nat) (mt : MatrixTimeState) (token : TOKEN) :
    TxState × Nat × MatrixTimeState × Int :=
  if ¬ addressValid ∧ token.key ≠ KeyRequestAddress then (tx, eventIndex, mt, -1)
  else if Key_GetPrefixBits token.key = KeyPrefix_InputStatus then
    let e := Matrix_NextEventIndex eventIndex
    let m := Matrix_DelayStatusUpdate15mS mt
    let s := sendTokenTimes src tx e token 3
    (s.1, s.2, m, 0)
  else
    let s := sendTokenTimes src tx eventIndex token 1
    (s.1, s.2, mt, 0)

/-! ### Pattern sequencer sync handling (matrix_token_sequencer.c) -/

/-- Sync range constant: ignore all network sync tokens. -/
def SYNC_RANGE_NONE : Nat := 0

/-- Sync range constant: sync only to the running pattern. -/
def SYNC_RANGE_EXACT : Nat := 8192

/-- Internal network address of token sequencer 0. -/
def MATRIX_TOKEN_SEQUENCER_0_NETWORK_ADDRESS : Nat := 133

/-- The root pattern-stack entry of a sequencer, restricted to the
position fields the sync case reads and writes.  Positions are byte
offsets into the pattern file data; a NULL pattern pointer is none. -/
structure PatternEntry where
  patternPosition : Option Nat
  firstStepPosition : Nat
  currentPosition : Nat
  deriving DecidableEq, Repr

/-- A token sequencer's state, restricted to the fields that
the KeyTokenSequencerSync case of MatrixTokenSequencerController_TokenIn
reads and writes.  stack0 is patternStack[0]. -/
structure SeqState where
  patternStackIndex : Int
  stepTime : Nat
  syncRangeBottom : Nat
  syncRangeTop : Nat
  stack0 : PatternEntry
  deriving DecidableEq, Repr

/-- GetRootPatternEnum from matrix_token_sequencer.c: the 13-bit pattern
enumeration at the root pattern position, or Pattern_Stop (0) when not
running or the position is NULL. -/
def GetRootPatternEnum (patternData : List Nat) (ts : SeqState) : Nat :=
  if ts.patternStackIndex < 0 then 0
  else
    match ts.stack0.patternPosition with
    | none => 0
    | some p =>
      ((patternData.getD (p + 1) 0 &&& 0x1F) <<< 8) ||| patternData.getD (p + 2) 0

/-- The root-pattern restart performed by the sync case: stack index to
the root, current position back to the first step, step time to now.
The C code then invokes NextStep to play the first step immediately;
that call is represented here by the restarted state itself. -/
def restartRootPattern (now : Nat) (ts : SeqState) : SeqState :=
  { ts with patternStackIndex := 0,
            stack0 := { ts.stack0 with currentPosition := ts.stack0.firstStepPosition },
            stepTime := now }

/-- The per-sequencer body of the loop in the KeyTokenSequencerSync case
(matrix_token_sequencer.c, lines 234-261): a running sequencer whose
internal address 133+i is above the sender address, with syncing
enabled, restarts its root pattern when the sync value is inside the
sync range, or the range is Exact and the value equals the running root
pattern enumeration. -/
def syncSeqStep (now : Nat) (patternData : List Nat) (v tokenAddress i : Nat)
    (ts : SeqState) : SeqState :=
  if 0 ≤ ts.patternStackIndex ∧
      tokenAddress < MATRIX_TOKEN_SEQUENCER_0_NETWORK_ADDRESS + i then
    if ts.syncRangeTop ≠ SYNC_RANGE_NONE then
      if ((ts.syncRangeBottom : Int) ≤ toInt32 v ∧ toInt32 v ≤ (ts.syncRangeTop : Int))
          ∨ (ts.syncRangeBottom = SYNC_RANGE_EXACT ∧
            toInt32 v = (GetRootPatternEnum patternData ts : Int)) then
        restartRootPattern now ts
      else ts
    else ts
  else ts

/-- The KeyTokenSequencerSync case of MatrixTokenSequencerController_TokenIn
(matrix_token_sequencer.c, lines 225-263): a sync token from a sender
whose address is at most this device's address is skipped; otherwise the
enumeration prefix is stripped from the 32-bit value and every sequencer
is offered the sync.  The fixed six-element sequencer array is modelled
as a list. -/
def MatrixTokenSequencerController_SyncTokenIn (ownAddress now : Nat)
    (patternData : List Nat) (seqs : List SeqState) (token : TOKEN) :
    List SeqState :=
  if token.address ≤ ownAddress then seqs
  else
    seqs.mapIdx fun i ts =>
      syncSeqStep now patternData (token.value &&& 0xFFFF1FFF) token.address i ts

/-! ### Token stream codec (matrix_codec.c) -/

/-- MtlFlagsShouldBroadcast from the MTL_FLAGS enum in matrix_time_logic.h. -/
def MtlFlagsShouldBroadcast : Nat := 0x08

/-- MATRIX_MESSAGE_MAX_TOKEN_REPEATS from matrix_config.h. -/
def MATRIX_MESSAGE_MAX_TOKEN_REPEATS : Nat := 32

/-- The MTL_TOKEN structure from matrix_time_logic.h: a time-logic token
table entry.  The codec reads only the embedded token. -/
structure MTL_TOKEN where
  token : TOKEN
  timestamp : Nat := 0
  mappedTokenKey : Nat := 0
  deriving DecidableEq, Repr

/-- The broadcast-flag test MatrixCodec_Compress applies to a table entry
(token->token.flags & MtlFlagsShouldBroadcast). -/
def shouldBroadcast (t : MTL_TOKEN) : Bool :=
  t.token.flags &&& MtlFlagsShouldBroadcast != 0

/-- The cursor advance used throughout MatrixCodec_Compress: the do/while
loops that increment the token pointer and then skip entries not flagged
for broadcast.  The list models the entries from the cursor (inclusive)
up to lastToken. -/
def advanceF (l : List MTL_TOKEN) : List MTL_TOKEN :=
  match l with
  | [] => []
  | _ :: r => r.dropWhile (fun t => ! shouldBroadcast t)

/-- The token value at the cursor.  The compression loops read it only at
positions where the C cursor is strictly below lastToken. -/
def headTokenValue (l : List MTL_TOKEN) : Nat :=
  match l with
  | [] => 0
  | t :: _ => t.token.value

/-- OutputTokenValue from matrix_codec.c: emits valueSize bytes of the
value, most significant byte first (the byte sink takes uint8_t). -/
def OutputTokenValue (value : Nat) : Nat → List Nat
  | 0 => []
  | n + 1 => (value >>> (8 * n)) % 256 :: OutputTokenValue value n

/-- OutputTokenKey from matrix_codec.c: the 16-bit key, high byte first. -/
def OutputTokenKey (key : Nat) : List Nat :=
  [(key >>> 8) % 256, key % 256]

/-- OutputToken from matrix_codec.c: the key bytes followed by the value
bytes. -/
def OutputToken (t : MTL_TOKEN) : List Nat :=
  OutputTokenKey t.token.key ++ OutputTokenValue t.token.value (Key_ValueSize t.token.key)

/-- The series-scan loop of MatrixCodec_Compress (lines 96-127): starting
from the flagged entry at the cursor, walks the following flagged entries
while they continue the key series, tracking the common non-zero value
and the binary/analog repeat counters.  The arguments mirror the C
locals; the list is the compareToken cursor with its tail.  Returns
(value, numBinaryRepeats, numAnalogRepeats). -/
def seriesScan (valueSize key value numBinaryRepeats numAnalogRepeats : Nat)
    (cmp : List MTL_TOKEN) : Nat × Nat × Nat :=
  if numAnalogRepeats < MATRIX_MESSAGE_MAX_TOKEN_REPEATS - 1 then
    match h : advanceF cmp with
    | [] => (value, numBinaryRepeats, numAnalogRepeats)
    | c :: rest =>
      if c.token.key ≠ key ∨ Key_ValueSize c.token.key ≠ valueSize then
        (value, numBinaryRepeats, numAnalogRepeats)
      else
        seriesScan valueSize (key + 1)
          (if value = 0 ∧ c.token.value ≠ 0 then c.token.value else value)
          (if c.token.value = 0 ∨
              c.token.value = (if value = 0 ∧ c.token.value ≠ 0 then c.token.value else value)
            then numBinaryRepeats + 1 else MATRIX_MESSAGE_MAX_TOKEN_REPEATS)
          (numAnalogRepeats + 1) (c :: rest)
  else (value, numBinaryRepeats, numAnalogRepeats)
termination_by cmp.length
decreasing_by
  cases cmp with
  | nil => exact absurd h (by simp [advanceF])
  | cons x r =>
    have h2 : (c :: rest).length ≤ r.length := by
      have hx : advanceF (x :: r) = List.dropWhile (fun t => ! shouldBroadcast t) r := rfl
      rw [hx] at h
      rw [← h]
      exact (List.dropWhile_sublist _).length_le
    simp only [List.length_cons] at h2 ⊢
    omega

/-- The binary-repeat bitmap loop of MatrixCodec_Compress (lines 137-160):
emits one bit per series member, LSB first, flushing each completed byte
and a final partial byte.  The last argument is the (pre-incremented)
numBinaryRepeats countdown. -/
def binaryBitmap : List MTL_TOKEN → Nat → Nat → Nat → List Nat
  | _, bit, byte, 0 => if bit ≠ 0 then [byte] else []
  | l, bit, byte, count + 1 =>
    if bit + 1 ≥ 8 then
      (if headTokenValue l ≠ 0 then byte ||| (1 <<< bit) else byte) ::
        binaryBitmap (advanceF l) 0 0 count
    else
      binaryBitmap (advanceF l) (bit + 1)
        (if headTokenValue l ≠ 0 then byte ||| (1 <<< bit) else byte) count

/-- The analog-series value loop of MatrixCodec_Compress (lines 173-183):
after the base token, emits the value bytes of each further member. -/
def analogValues : List MTL_TOKEN → Nat → Nat → List Nat
  | _, _, 0 => []
  | l, valueSize, reps + 1 =>
    OutputTokenValue (headTokenValue l) valueSize ++
      analogValues (advanceF l) valueSize reps

/-- Bound used for the compression loop termination: the cursor advance
never lengthens the remaining table. -/
theorem advanceF_length_le (l : List MTL_TOKEN) : (advanceF l).length ≤ l.length := by
  cases l with
  | nil => simp [advanceF]
  | cons x r =>
    exact le_trans (List.dropWhile_sublist _).length_le (by simp)

/-- Iterated cursor advances never lengthen the remaining table. -/
theorem advanceF_iterate_length_le (n : Nat) (l : List MTL_TOKEN) :
    (advanceF^[n] l).length ≤ l.length := by
  induction n generalizing l with
  | zero => simp
  | succ n ih =>
    rw [Function.iterate_succ_apply]
    exact le_trans (ih _) (advanceF_length_le l)

/-- At least one cursor advance from a non-empty table strictly shrinks it. -/
theorem advanceF_iterate_cons_length (t : MTL_TOKEN) (rest : List MTL_TOKEN) (n : Nat) :
    (advanceF^[n + 1] (t :: rest)).length < (t :: rest).length := by
  rw [Function.iterate_succ_apply]
  have h1 := advanceF_iterate_length_le n (advanceF (t :: rest))
  have h2 : (advanceF (t :: rest)).length ≤ rest.length := (List.dropWhile_sublist _).length_le
  simp only [List.length_cons]
  omega

/-- The main loop of MatrixCodec_Compress (lines 77-193): converts the
token table from the cursor onward into the compressed byte stream. -/
def compressLoop : List MTL_TOKEN → List Nat
  | [] => []
  | t :: rest =>
    if ! shouldBroadcast t then compressLoop rest
    else if Key_ValueSize t.token.key = 0 then OutputToken t ++ compressLoop rest
    else
      let scan := seriesScan (Key_ValueSize t.token.key) (t.token.key + 1)
        t.token.value 0 0 (t :: rest)
      if scan.2.1 ≠ 0 ∧ scan.2.1 < MATRIX_MESSAGE_MAX_TOKEN_REPEATS then
        ((scan.2.1 ||| KeyPrefix_BinaryRepeat) ::
          (OutputTokenKey t.token.key ++
            OutputTokenValue scan.1 (Key_ValueSize t.token.key) ++
            binaryBitmap (t :: rest) 0 0 (scan.2.1 + 1))) ++
        compressLoop (advanceF^[scan.2.1 + 1] (t :: rest))
      else if scan.2.2 ≠ 0 then
        ((scan.2.2 ||| KeyPrefix_AnalogRepeat) ::
          (OutputToken t ++
            analogValues (advanceF (t :: rest)) (Key_ValueSize t.token.key) scan.2.2)) ++
        compressLoop (advanceF^[scan.2.2 + 1] (t :: rest))
      else
        OutputToken t ++ compressLoop rest
termination_by l => l.length
decreasing_by
  all_goals first
    | exact advanceF_iterate_cons_length _ _ _
    | (simp only [List.length_cons]; omega)

/-- MatrixCodec_Compress from matrix_codec.c: input validation followed by
the main loop.  Returns the status and the bytes passed to the sink. -/
def MatrixCodec_Compress (tokens : List MTL_TOKEN) : Int × List Nat :=
  if tokens.length = 0 then (-1, [])
  else (0, compressLoop tokens)

/-- The (address, key, value) triple MatrixCodec_Decompress passes to its
token sink.  The decompressor never writes the TOKEN flags field. -/
structure DToken where
  address : Nat
  key : Nat
  value : Nat
  deriving DecidableEq, Repr

/-- The value-reading loop of MatrixCodec_Decompress (value <<= 8;
value |= **byte over valueSize bytes), returning none when the stream is
exhausted (CheckStreamPointer).  Stream bytes are 8-bit quantities, so
the uint16/uint32 truncations in the C are no-ops and are omitted. -/
def readValueBytes : Nat → Nat → List Nat → Option (Nat × List Nat)
  | 0, acc, s => some (acc, s)
  | _ + 1, _, [] => none
  | n + 1, acc, b :: r => readValueBytes n ((acc <<< 8) ||| b) r

/-- The analog-repeat loop of MatrixCodec_Decompress (lines 252-273):
reads valueSize bytes per series member and emits one token per member
with consecutive keys.  Returns (status, emitted tokens, remaining
stream). -/
def decompAnalog (address : Nat) : Nat → Nat → Nat → List Nat → Int × List DToken × List Nat
  | _, _, 0, s => (0, [], s)
  | key, valueSize, reps + 1, s =>
    match readValueBytes valueSize 0 s with
    | none => (-1, [], s)
    | some (v, s1) =>
      let r := decompAnalog address (key + 1) valueSize reps s1
      (r.1, ⟨address, key, v⟩ :: r.2.1, r.2.2)

/-- The binary-repeat loop of MatrixCodec_Decompress (lines 289-308):
per member shifts the bit flags, reloading a fresh stream byte every
eighth member (the initial bitIndex of 8 forces a load on the first),
and emits the common value or zero according to the current flag bit. -/
def decompBinary (address value : Nat) :
    Nat → Nat → Nat → Nat → List Nat → Int × List DToken × List Nat
  | _, 0, _, _, s => (0, [], s)
  | key, reps + 1, bitIndex, bitFlags, s =>
    if bitIndex + 1 ≥ 8 then
      match s with
      | [] => (-1, [], s)
      | b :: r =>
        let res := decompBinary address value (key + 1) reps 0 b r
        (res.1, ⟨address, key, if b &&& 1 ≠ 0 then value else 0⟩ :: res.2.1, res.2.2)
    else
      let res := decompBinary address value (key + 1) reps (bitIndex + 1) (bitFlags >>> 1) s
      (res.1, ⟨address, key, if (bitFlags >>> 1) &&& 1 ≠ 0 then value else 0⟩ :: res.2.1,
        res.2.2)

/-- The main loop of MatrixCodec_Decompress (lines 228-329).  The fuel
argument bounds the number of outer loop iterations; every iteration
consumes at least one stream byte, so a fuel equal to the stream length
(as supplied by MatrixCodec_Decompress) never runs out. -/
def decompLoop (address : Nat) : Nat → List Nat → Int × List DToken
  | _, [] => (0, [])
  | 0, _ :: _ => (-1, [])
  | fuel + 1, b :: s =>
    if KeyPrefix_AnalogRepeat < b &&& KeyPrefix_Mask then (0, [])
    else
      match (if b &&& KeyPrefix_Mask = KeyPrefix_BinaryRepeat ∨
          b &&& KeyPrefix_Mask = KeyPrefix_AnalogRepeat then s else b :: s) with
      | [] => (-1, [])
      | [_] => (-1, [])
      | kh :: kl :: s2 =>
        if b &&& KeyPrefix_Mask = KeyPrefix_AnalogRepeat then
          let r := decompAnalog address ((kh <<< 8) ||| kl) (Key_ValueSize ((kh <<< 8) ||| kl))
            ((b &&& (MATRIX_MESSAGE_MAX_TOKEN_REPEATS - 1)) + 1) s2
          if r.1 ≠ 0 then (r.1, r.2.1)
          else
            let q := decompLoop address fuel r.2.2
            (q.1, r.2.1 ++ q.2)
        else if b &&& KeyPrefix_Mask = KeyPrefix_BinaryRepeat then
          match readValueBytes (Key_ValueSize ((kh <<< 8) ||| kl)) 0 s2 with
          | none => (-1, [])
          | some (v, s3) =>
            let r := decompBinary address v ((kh <<< 8) ||| kl)
              ((b &&& (MATRIX_MESSAGE_MAX_TOKEN_REPEATS - 1)) + 1) 8 0 s3
            if r.1 ≠ 0 then (r.1, r.2.1)
            else
              let q := decompLoop address fuel r.2.2
              (q.1, r.2.1 ++ q.2)
        else
          match readValueBytes (Key_ValueSize ((kh <<< 8) ||| kl)) 0 s2 with
          | none => (-1, [])
          | some (v, s3) =>
            let q := decompLoop address fuel s3
            (q.1, ⟨address, (kh <<< 8) ||| kl, v⟩ :: q.2)

/-- MatrixCodec_Decompress from matrix_codec.c: input validation followed
by the main loop with the stream length as the iteration bound. -/
def MatrixCodec_Decompress (bytes : List Nat) (address : Nat) : Int × List DToken :=
  if bytes.length = 0 then (-1, [])
  else decompLoop address bytes.length bytes

/-- Specification-side description of what decompression of a compressed
table should reconstruct: one (address, key, value) triple per
broadcast-flagged table entry, in table order. -/
def broadcastTriples (address : Nat) (tokens : List MTL_TOKEN) : List DToken :=
  (tokens.filter shouldBroadcast).map
    (fun t => ⟨address, t.token.key, t.token.value⟩)

/-- Numeric value of one bit (proof-side helper). -/
def bitVal (b : Bool) : Nat := if b then 1 else 0

/-- The number packed from a list of bits, least significant first
(proof-side helper for the binary-repeat bitmap). -/
def packNum : List Bool → Nat
  | [] => 0
  | b :: bs => bitVal b + 2 * packNum bs

/-- The non-zero-value bits of a member list (proof-side helper). -/
def memberBits (ms : List MTL_TOKEN) : List Bool :=
  ms.map (fun m => m.token.value != 0)

/-- The token triples a repeat series decodes to: consecutive keys from
the base key, with the member values (proof-side helper). -/
def seriesTriples (address : Nat) : Nat → List MTL_TOKEN → List DToken
  | _, [] => []
  | key, m :: ms => ⟨address, key, m.token.value⟩ :: seriesTriples address (key + 1) ms

/-- The token triples a repeat series decodes to when the decoded member
values are given by an arbitrary function of the member: consecutive
keys from the base key (proof-side helper generalising seriesTriples to
tables whose values need not fit their wire width). -/
def seriesTriplesV (address : Nat) (valueOf : MTL_TOKEN → Nat) :
    Nat → List MTL_TOKEN → List DToken
  | _, [] => []
  | key, m :: ms => ⟨address, key, valueOf m⟩ :: seriesTriplesV address valueOf (key + 1) ms

/-- A key series: consecutive keys sharing one value width (proof-side
helper describing what the series scan accepts). -/
def keyChain (key valueSize : Nat) : List MTL_TOKEN → Prop
  | [] => True
  | m :: ms => m.token.key = key ∧ Key_ValueSize m.token.key = valueSize ∧
      keyChain (key + 1) valueSize ms

/-- Keeping the cursor head and filtering never-broadcast entries from
the tail (proof-side helper relating a table to its flagged part). -/
def cleanse : List MTL_TOKEN → List MTL_TOKEN
  | [] => []
  | x :: r => x :: r.filter shouldBroadcast

/-! ### Host token routing and time-logic emission (matrix.c,
matrix_time_logic_outputs.c, matrix_time_logic_tokens.c) -/

/-- The four places Matrix_TokenIn (matrix.c, lines 124-139) can hand an
application token to. -/
inductive TokenInRoute where
  | timeLogic
  | sequencer
  | canBus
  | dropped
  deriving DecidableEq, Repr

/-- Matrix_TokenIn from matrix.c: routes an application token to the
equation processor (address 132), the token sequencers (addresses
133-138), or — for a public key with a valid device address — the CAN
bus send path; anything else is dropped. -/
def Matrix_TokenIn (addressValid : Bool) (token : TOKEN) : TokenInRoute :=
  if token.address = 132 then .timeLogic
  else if 133 ≤ token.address ∧ token.address ≤ 138 then .sequencer
  else if token.address < 128 ∧ ¬Key_IsLocalVariable token.key ∧ addressValid then .canBus
  else .dropped

/-- The destinations the static SendToken in matrix_time_logic_outputs.c
(lines 339-359) can deliver an equation-output token to. -/
inductive MtlSendDest where
  | sequencer
  | canBus
  | appCallback
  deriving DecidableEq, Repr

/-- SendToken from matrix_time_logic_outputs.c: every equation output
goes to the sequencers; public keys are additionally broadcast to the
CAN bus; and the application callback (when installed) receives every
output as address 132. -/
def MatrixTimeLogic_SendToken (hasAppCallback : Bool) (token : TOKEN) : List MtlSendDest :=
  [MtlSendDest.sequencer] ++
  (if !Key_IsLocalVariable token.key then [MtlSendDest.canBus] else []) ++
  (if hasAppCallback then [MtlSendDest.appCallback] else [])

/-- The condition under which PopulateTokenTable in
matrix_time_logic_tokens.c (lines 166-172) sets MtlFlagsShouldBroadcast
on a table entry: the key is public and is an input or output status. -/
def mtlBroadcastCondition (key : Nat) : Bool :=
  !Key_IsLocalVariable key && (Key_IsInputStatus key || Key_IsOutputStatus key)

/-! ### Theorems for claims C6 and C7 -/

/-- C6, counterexample: the claim quantifies over every remote index r
including 0, but Matrix_NewEventIndex ignores a remote index of zero, so
with local index 200 the post-state violates (int8)(r - l') <= 0. -/
theorem C6_counterexample :
    ¬ int8Diff 0 (Matrix_NewEventIndex 0 200) ≤ 0 := by decide

/-- C6, amended: for every nonzero remote event index r and every local
event-index state l, after Matrix_NewEventIndex the local index l'
satisfies (int8)(r - l') <= 0, i.e. the local index is at least as new
as the observed remote index.  (Observing r = 0 is a no-op.) -/
theorem C6_observe_local_at_least_as_new (r l : Nat)
    (hr : r < 256) (hl : l < 256) (hrz : r ≠ 0) :
    int8Diff r (Matrix_NewEventIndex r l) ≤ 0 := by
  unfold Matrix_NewEventIndex
  rw [if_neg hrz]
  split
  · have h0 : (256 + r - r) % 256 = 0 := by omega
    unfold int8Diff
    rw [h0]
    decide
  · rename_i h
    push_neg at h
    exact h.2

/-- C6, witness: the amended theorem applied at r = 5, l = 3. -/
theorem C6_witness :
    int8Diff 5 (Matrix_NewEventIndex 5 3) ≤ 0 :=
  C6_observe_local_at_least_as_new 5 3 (by decide) (by decide) (by decide)

/-- C7, counterexample: the claim states isExpired(r) is true exactly
when (int8)(r - l) < 0, but for r = 0 the code returns false even when
the difference is negative (here l = 1 gives (int8)(0-1) = -1). -/
theorem C7_counterexample :
    ¬ (Matrix_IsEventIndexExpired 0 1 = true ↔ int8Diff 0 1 < 0) := by decide

/-- C7, amended: for every nonzero remote event index r and local state
l, Matrix_IsEventIndexExpired returns true exactly when
(int8)(r - l) < 0; a remote index of zero is never expired. -/
theorem C7_isExpired_iff (r l : Nat)
    (hr : r < 256) (hl : l < 256) (hrz : r ≠ 0) :
    (Matrix_IsEventIndexExpired r l = true ↔ int8Diff r l < 0) := by
  unfold Matrix_IsEventIndexExpired
  rw [if_neg hrz]
  exact decide_eq_true_iff

/-- C7, witness: the amended theorem applied at r = 3, l = 5, where the
index is expired and the int8 difference is negative. -/
theorem C7_witness :
    Matrix_IsEventIndexExpired 3 5 = true ↔ int8Diff 3 5 < 0 :=
  C7_isExpired_iff 3 5 (by decide) (by decide) (by decide)

/-! ### Theorem for claim C2 -/

/-- C2: whenever the receiver dispatches a complete multi-frame message
(at least two frames) to the FTP client, the FTP server or the codec
decompressor, the big-endian CRC-16 over all message bytes except the
last two equals those last two bytes. -/
theorem C2_multiframe_dispatch_requires_valid_crc
    (numMessageFrames : Nat) (data : List Nat) (senderAddress : Nat)
    (isEvent : Bool) (eventIndex : Nat) (d : RxDispatch)
    (hmulti : 2 ≤ numMessageFrames)
    (hdisp : Receiver_ProcessCompleteMessage numMessageFrames data
      senderAddress isEvent eventIndex = some d)
    (hkind : d.isDownstreamConsumer = true) :
    256 * data.getD (data.length - 2) 0 + data.getD (data.length - 1) 0 =
      Matrix_ComputeCRC16 (data.take (data.length - 2)) := by
  unfold Receiver_ProcessCompleteMessage at hdisp
  split at hdisp
  · rename_i h
    rcases h with h1 | hv
    · omega
    · unfold Matrix_IsMessageChecksumValid at hv
      split at hv
      · simp at hv
      · simpa using hv
  · simp at hdisp

/-- A concrete two-frame message for the C2 witness: event byte, an
input-status token key 0x0064 with five value-stream bytes, and the
correct CRC-16 suffix 0xA332. -/
def C2data : List Nat := [1, 0x40, 0x64, 5, 6, 7, 8, 9, 0xA3, 0x32]

set_option maxRecDepth 8000 in
/-- C2, witness: the theorem applied to a concrete two-frame message
that the receiver dispatches to the decompressor. -/
theorem C2_witness :
    256 * C2data.getD (C2data.length - 2) 0 + C2data.getD (C2data.length - 1) 0 =
      Matrix_ComputeCRC16 (C2data.take (C2data.length - 2)) :=
  C2_multiframe_dispatch_requires_valid_crc 2 C2data 7 true 0
    (.decompressor 7 [0x40, 0x64, 5, 6, 7, 8, 9])
    (by decide) (by decide) (by decide)

/-! ### Theorems for claim C8 -/

/-- C8, counterexample: in the Proposing state (working address 0,
candidate 42), a token whose sender source address equals the candidate
does not discard the candidate: the collision check compares the sender
against the working address, which is 0 while proposing. -/
theorem C8_counterexample :
    (MatrixCanAddress_CanTokenIn ⟨0, false, 42⟩ ⟨0, 42, 1000, 1⟩).1.proposedAddress = 42 ∧
    MatrixCanAddress_CanTokenIn ⟨0, false, 42⟩ ⟨0, 42, 1000, 1⟩ = (⟨0, false, 42⟩, []) := by
  decide

/-- C8, amended: while the address manager is Proposing (working
address 0), the candidate is discarded exactly when an AddressInUse
token carrying the candidate value arrives; in particular a token whose
sender address equals the candidate does not by itself discard it. -/
theorem C8_proposing_discard_iff (st : CanAddressState) (token : TOKEN)
    (hprop : st.address = 0) :
    (MatrixCanAddress_CanTokenIn st token).1.proposedAddress =
      (if token.key = KeyResponseAddressInUse ∧ token.value = st.proposedAddress
       then 0 else st.proposedAddress) := by
  have h2 : ¬ (st.address ≠ 0 ∧ st.address = token.address ∧ ¬ st.isStatic) := by
    simp [hprop]
  unfold MatrixCanAddress_CanTokenIn
  by_cases h1 : token.key = KeyResponseAddressInUse ∧ token.value = st.proposedAddress
  · rw [if_pos (Or.inl h1), if_pos h1]
  · rw [if_neg (by tauto), if_neg h1]
    split <;> rfl

/-- C8, witness: the amended theorem applied in a Proposing state with
candidate 42 receiving an AddressInUse token for value 42. -/
theorem C8_witness :
    (MatrixCanAddress_CanTokenIn ⟨0, false, 42⟩ ⟨0, 9, KeyResponseAddressInUse, 42⟩).1.proposedAddress =
      (if KeyResponseAddressInUse = KeyResponseAddressInUse ∧ (42 : Nat) = 42
       then 0 else 42) :=
  C8_proposing_discard_iff ⟨0, false, 42⟩ ⟨0, 9, KeyResponseAddressInUse, 42⟩ rfl

/-! ### Theorems for claim C10 -/

/-- Success of the candidate generator is monotone in the fuel. -/
theorem gen_fuel_mono (guid : List Nat) :
    ∀ (f : Nat) (st : CanAddressGenState) (r : Nat × CanAddressGenState),
      MatrixCanAddress_GetNextProposedCanAddress f guid st = some r →
      MatrixCanAddress_GetNextProposedCanAddress (f + 1) guid st = some r := by
  intro f
  induction f with
  | zero =>
    intro st r h
    simp [MatrixCanAddress_GetNextProposedCanAddress] at h
  | succ n ih =>
    intro st r h
    rw [MatrixCanAddress_GetNextProposedCanAddress] at h ⊢
    by_cases hb : candidateOf guid st = 0 ∨ 120 < candidateOf guid st
    · rw [if_pos hb] at h ⊢
      exact ih _ _ h
    · rwa [if_neg hb] at h ⊢

/-- Success of the candidate generator at larger fuel. -/
theorem gen_fuel_mono_le (guid : List Nat) {f g : Nat}
    (hfg : f ≤ g) {st : CanAddressGenState} {r : Nat × CanAddressGenState}
    (h : MatrixCanAddress_GetNextProposedCanAddress f guid st = some r) :
    MatrixCanAddress_GetNextProposedCanAddress g guid st = some r := by
  induction g with
  | zero =>
    have hf0 : f = 0 := by omega
    subst hf0
    exact h
  | succ n ih =>
    rcases Nat.lt_or_ge f (n + 1) with h1 | h2
    · exact gen_fuel_mono guid n st r (ih (by omega))
    · have hf : f = n + 1 := by omega
      subst hf
      exact h

/-- A successful candidate is always in the range 1..120. -/
theorem gen_result_range (guid : List Nat) :
    ∀ (f : Nat) (st : CanAddressGenState) (r : Nat × CanAddressGenState),
      MatrixCanAddress_GetNextProposedCanAddress f guid st = some r →
      1 ≤ r.1 ∧ r.1 ≤ 120 := by
  intro f
  induction f with
  | zero =>
    intro st r h
    simp [MatrixCanAddress_GetNextProposedCanAddress] at h
  | succ n ih =>
    intro st r h
    rw [MatrixCanAddress_GetNextProposedCanAddress] at h
    split at h
    · exact ih _ _ h
    · rename_i hb
      push_neg at hb
      injection h with h
      subst h
      simp only
      omega

/-- If the candidate is acceptable after k generator-state bumps, the
loop succeeds within k+1 iterations. -/
theorem gen_succeeds_of_good (guid : List Nat) :
    ∀ (k : Nat) (st : CanAddressGenState),
      1 ≤ candidateOf guid (bumpGenState^[k] st) →
      candidateOf guid (bumpGenState^[k] st) ≤ 120 →
      ∃ r, MatrixCanAddress_GetNextProposedCanAddress (k + 1) guid st = some r := by
  intro k
  induction k with
  | zero =>
    intro st h1 h2
    simp only [Function.iterate_zero, id_eq] at h1 h2
    refine ⟨(candidateOf guid st, bumpGenState st), ?_⟩
    rw [MatrixCanAddress_GetNextProposedCanAddress, if_neg (by omega)]
  | succ k ih =>
    intro st h1 h2
    rw [Function.iterate_succ_apply] at h1 h2
    by_cases hb : candidateOf guid st = 0 ∨ 120 < candidateOf guid st
    · obtain ⟨r, hr⟩ := ih (bumpGenState st) h1 h2
      refine ⟨r, ?_⟩
      rw [MatrixCanAddress_GetNextProposedCanAddress, if_pos hb]
      exact hr
    · refine ⟨(candidateOf guid st, bumpGenState st), ?_⟩
      rw [MatrixCanAddress_GetNextProposedCanAddress, if_neg hb]

/-- Masking with 0x7F is reduction modulo 128. -/
theorem and_127_eq_mod (n : Nat) : n &&& 127 = n % 128 := by
  have h := Nat.and_pow_two_sub_one_eq_mod n 7
  norm_num at h
  exact h

/-- The candidate computation on an explicit generator state. -/
theorem candidateOf_mk (guid : List Nat) (x o : Nat) :
    candidateOf guid ⟨x, o⟩ =
      (guid.foldl (fun a b => a + (b ^^^ xorValueOf x)) 0 + o) % 128 := by
  simp [candidateOf, and_127_eq_mod]

/-- Seven iterations of the generator-state bump. -/
theorem bump_iterate_seven_eq (f : CanAddressGenState → CanAddressGenState)
    (st : CanAddressGenState) :
    f^[7] st = f (f (f (f (f (f (f st)))))) := by
  rw [show (7 : Nat) = 1 + 1 + 1 + 1 + 1 + 1 + 1 by norm_num]
  simp only [Function.iterate_add_apply, Function.iterate_one]

/-- Seven bumps of the generator state advance the masked offset by one
and return the xor index to its starting value below seven. -/
theorem bump_iterate_7 (st : CanAddressGenState) (hx : st.xorIndex < 7) :
    bumpGenState^[7] st = ⟨st.xorIndex, (st.addressOffset + 1) % 128⟩ := by
  obtain ⟨x, o⟩ := st
  simp only at hx ⊢
  rw [bump_iterate_seven_eq bumpGenState]
  interval_cases x <;> simp [bumpGenState, and_127_eq_mod]

/-- Multiples of seven bumps advance the masked offset accordingly. -/
theorem bump_iterate_7_mul (x : Nat) (hx : x < 7) :
    ∀ (d o : Nat), bumpGenState^[7 * (d + 1)] ⟨x, o⟩ =
      ⟨x, (o % 128 + d + 1) % 128⟩ := by
  intro d
  induction d with
  | zero =>
    intro o
    have h7 : 7 * (0 + 1) = 7 := by norm_num
    rw [h7, bump_iterate_7 ⟨x, o⟩ hx]
    have : (o + 1) % 128 = (o % 128 + 0 + 1) % 128 := by omega
    simp only at this ⊢
    rw [this]
  | succ d ih =>
    intro o
    have h7 : 7 * (d + 1 + 1) = 7 * (d + 1) + 7 := by ring
    rw [h7, Function.iterate_add_apply, bump_iterate_7 ⟨x, o⟩ hx]
    simp only
    rw [ih ((o + 1) % 128)]
    have : ((o + 1) % 128 % 128 + d + 1) % 128 = (o % 128 + (d + 1) + 1) % 128 := by
      omega
    rw [this]

/-- After a suitable number of bump super-steps the candidate equals 1. -/
theorem candidate_hits_one (guid : List Nat) (x o : Nat) (hx : x < 7) :
    ∃ d ≤ 127, candidateOf guid (bumpGenState^[7 * (d + 1)] ⟨x, o⟩) = 1 := by
  refine ⟨(128 - (guid.foldl (fun a b => a + (b ^^^ xorValueOf x)) 0 + o + 1) % 128
    + 1) % 128, by omega, ?_⟩
  rw [bump_iterate_7_mul x hx, candidateOf_mk]
  omega

/-- C10: for every GUID and every reachable starting generator state
(xor index below seven, any address offset), the candidate-address loop
of MatrixCanAddress_GetNextProposedCanAddress terminates within 897
iterations and returns an address in the range 1..120, so 0 and
121..127 are never self-assigned. -/
theorem C10_generator_terminates_in_range (guid : List Nat)
    (st : CanAddressGenState) (hx : st.xorIndex < 7) :
    ∃ r, MatrixCanAddress_GetNextProposedCanAddress 897 guid st = some r ∧
      1 ≤ r.1 ∧ r.1 ≤ 120 := by
  obtain ⟨x, o⟩ := st
  simp only at hx
  obtain ⟨d, hd127, hcand⟩ := candidate_hits_one guid x o hx
  obtain ⟨r, hr⟩ := gen_succeeds_of_good guid (7 * (d + 1)) ⟨x, o⟩
    (by simp [hcand]) (by simp [hcand])
  exact ⟨r, gen_fuel_mono_le guid (by omega) hr, gen_result_range guid _ _ _ hr⟩

/-- The default GUID bytes from matrix_can_address.c, little-endian. -/
def C10guid : List Nat :=
  [0x97, 0xAD, 0x4C, 0xEE, 0xEC, 0xE9, 0x1C, 0x33,
   0xBC, 0x7D, 0x95, 0x9E, 0xE5, 0x9F, 0xA6, 0xA4]

/-- C10, witness: the theorem applied to the default GUID from the
freshly reset generator state. -/
theorem C10_witness :
    ∃ r, MatrixCanAddress_GetNextProposedCanAddress 897 C10guid ⟨0, 0⟩ = some r ∧
      1 ≤ r.1 ∧ r.1 ≤ 120 :=
  C10_generator_terminates_in_range C10guid ⟨0, 0⟩ (by decide)

/-! ### Transmitter lemmas for claims C5 and C9 -/

/-- One CRC-16 shift step stays below 2^16. -/
theorem crc16Step_lt (b c : Nat) (h : c < 65536) : (crc16Step b c).2 < 65536 := by
  have h1 : c >>> 1 < 65536 := by
    rw [Nat.shiftRight_eq_div_pow, pow_one]
    omega
  unfold crc16Step
  dsimp only
  split
  · have h2 : (65536 : Nat) = 2 ^ 16 := by norm_num
    rw [h2] at h1 ⊢
    exact Nat.xor_lt_two_pow h1 (by norm_num)
  · exact h1

/-- Adding a byte keeps the CRC-16 below 2^16. -/
theorem Matrix_AddByteToCRC16_lt (b c : Nat) (h : c < 65536) :
    Matrix_AddByteToCRC16 b c < 65536 := by
  simp only [Matrix_AddByteToCRC16]
  exact crc16Step_lt _ _ (crc16Step_lt _ _ (crc16Step_lt _ _ (crc16Step_lt _ _
    (crc16Step_lt _ _ (crc16Step_lt _ _ (crc16Step_lt _ _ (crc16Step_lt _ _ h)))))))

/-- The message CRC-16 is a 16-bit value. -/
theorem Matrix_ComputeCRC16_lt (msg : List Nat) : Matrix_ComputeCRC16 msg < 65536 := by
  suffices h : ∀ c : Nat, c < 65536 →
      msg.foldl (fun crc b => Matrix_AddByteToCRC16 b crc) c < 65536 by
    exact h 0 (by norm_num)
  induction msg with
  | nil =>
    intro c hc
    simpa using hc
  | cons b bs ih =>
    intro c hc
    simp only [List.foldl_cons]
    exact ih _ (Matrix_AddByteToCRC16_lt b c hc)

/-- Appending one byte to the streamed CRC. -/
theorem Matrix_ComputeCRC16_append_byte (msg : List Nat) (b : Nat) :
    Matrix_ComputeCRC16 (msg ++ [b]) = Matrix_AddByteToCRC16 b (Matrix_ComputeCRC16 msg) := by
  simp [Matrix_ComputeCRC16, List.foldl_append]

/-- AddByte preserves the mid-message invariant, extending the message
by the added byte. -/
theorem TxMid_addByte {base : List TxFrame} {msg : List Nat} {st : TxState}
    (h : TxMid base msg st) (b : Nat) :
    TxMid base (msg ++ [b]) (MatrixTransmitter_AddByte st b) := by
  obtain ⟨hcrc, hfifo, hsent, hlt, hne, hft, hframes⟩ := h
  obtain ⟨nf, hnf, hsent8, hty, hdata⟩ := hframes
  have hsle : st.numBytesSent ≤ msg.length := by omega
  have hdropApp : (msg ++ [b]).drop st.numBytesSent = st.fifo ++ [b] := by
    rw [List.drop_append_of_le_length hsle, hfifo]
  have htakeApp : (msg ++ [b]).take st.numBytesSent = msg.take st.numBytesSent :=
    List.take_append_of_le_length hsle
  unfold MatrixTransmitter_AddByte
  dsimp only
  by_cases hflush : 16 ≤ (st.fifo ++ [b]).length
  · have h15 : st.fifo.length = 15 := by
      simp only [List.length_append, List.length_cons, List.length_nil] at hflush
      omega
    rw [if_pos hflush]
    unfold SendFrame
    rw [if_neg (by simp)]
    dsimp only
    have hmin : (st.fifo ++ [b]).length ⊓ 8 = 8 := by
      simp only [List.length_append, List.length_cons, List.length_nil]
      omega
    rw [hmin]
    refine ⟨?_, ?_, ?_, ?_, ?_, ?_, ?_⟩
    · rw [Matrix_ComputeCRC16_append_byte, hcrc]
    · rw [← hdropApp, List.drop_drop, Nat.add_comm]
    · simp only [List.length_drop, List.length_append, List.length_cons,
        List.length_nil]
      omega
    · simp only [List.length_drop, List.length_append, List.length_cons,
        List.length_nil]
      omega
    · have h8 : ((st.fifo ++ [b]).drop 8).length = 8 := by
        simp only [List.length_drop, List.length_append, List.length_cons,
          List.length_nil]
        omega
      intro hnil
      dsimp only at hnil
      rw [hnil] at h8
      simp at h8
    · exact hft
    · refine ⟨nf ++ [⟨st.frameType, st.frameIndex, st.destinationAddress,
        st.sourceAddress, st.isEvent, (st.fifo ++ [b]).take 8⟩], ?_, ?_, ?_, ?_⟩
      · rw [hnf, List.append_assoc]
      · simp only [List.length_append, List.length_cons, List.length_nil]
        omega
      · intro f hf
        simp only [List.mem_append, List.mem_singleton] at hf
        rcases hf with hf | hf
        · exact hty f hf
        · rw [hf]
          exact hft
      · simp only [List.map_append, List.map_cons, List.map_nil,
          List.flatten_append, List.flatten_cons, List.flatten_nil,
          List.append_nil]
        rw [hdata, List.take_add, htakeApp, hdropApp]
  · rw [if_neg hflush]
    refine ⟨?_, ?_, ?_, ?_, ?_, ?_, ?_⟩
    · rw [Matrix_ComputeCRC16_append_byte, hcrc]
    · exact hdropApp.symm
    · simp only [List.length_append, List.length_cons, List.length_nil] at hflush ⊢
      omega
    · simp only [List.length_append, List.length_cons, List.length_nil] at hflush ⊢
      omega
    · simp
    · exact hft
    · exact ⟨nf, hnf, hsent8, hty, by rw [htakeApp, hdata]⟩

/-- Adding a byte list preserves the mid-message invariant. -/
theorem TxMid_addBytesList {base : List TxFrame} {msg : List Nat} {st : TxState}
    (h : TxMid base msg st) (bs : List Nat) :
    TxMid base (msg ++ bs) (addBytesList st bs) := by
  induction bs generalizing msg st with
  | nil => simpa using h
  | cons b bs ih =>
    have hmsg : msg ++ b :: bs = (msg ++ [b]) ++ bs := by simp
    rw [hmsg]
    simp only [addBytesList, List.foldl_cons]
    exact ih (TxMid_addByte h b)

/-- A constant-valued map is a replicate. -/
theorem map_frameType_replicate (c : Nat) :
    ∀ (l : List TxFrame), (∀ f ∈ l, f.frameType = c) →
      l.map TxFrame.frameType = List.replicate l.length c := by
  intro l
  induction l with
  | nil => intro _; rfl
  | cons f fs ih =>
    intro h
    simp only [List.map_cons, List.length_cons, List.replicate_succ, List.cons.injEq]
    exact ⟨h f (by simp), ih fun g hg => h g (by simp [hg])⟩

/-- AddByte on a freshly reset transmitter establishes the invariant
for the one-byte message. -/
theorem TxMid_first_byte (base : List TxFrame) (st : TxState) (b : Nat)
    (hbase : st.frames = base)
    (hfifo : st.fifo = []) (hcrc : st.crc = 0) (hsent : st.numBytesSent = 0)
    (hft : st.frameType = FrameType_BODY) :
    TxMid base [b] (MatrixTransmitter_AddByte st b) := by
  unfold MatrixTransmitter_AddByte
  dsimp only
  rw [if_neg (by simp [hfifo])]
  refine ⟨?_, ?_, ?_, ?_, ?_, ?_, ?_⟩
  · simp [hfifo, hcrc, Matrix_ComputeCRC16]
  · simp [hfifo, hsent]
  · simp [hfifo, hsent]
  · simp [hfifo]
  · simp [hfifo]
  · exact hft
  · exact ⟨[], by simp [hbase], by simp [hsent], by simp, by simp [hsent]⟩

/-- The state after StartMessageWithAddressAndKey satisfies the
invariant for the one-byte message made of the first byte, with the
pre-existing frames as base. -/
theorem TxMid_start (st0 : TxState) (ev src dst key : Nat) :
    TxMid st0.frames [txFirstByte key ev]
      (MatrixTransmitter_StartMessageWithAddressAndKey st0 ev src dst key).1 := by
  unfold MatrixTransmitter_StartMessageWithAddressAndKey txFirstByte
  split
  · dsimp only
    apply TxMid_first_byte <;> rfl
  · split
    · dsimp only
      apply TxMid_first_byte <;> rfl
    · dsimp only
      apply TxMid_first_byte <;> rfl

/-- One unfolding of the fifo drain on a fifo that fits one frame:
a single frame typed SINGLE or LAST is pushed. -/
theorem drainFifo_small (b : Bool) (st : TxState)
    (h1 : st.fifo ≠ []) (h2 : st.fifo.length ≤ 8) :
    (drainFifo b st).frames = st.frames ++
      [⟨if b then FrameType_SINGLE else FrameType_LAST, st.frameIndex,
        st.destinationAddress, st.sourceAddress, st.isEvent, st.fifo⟩] := by
  rw [drainFifo]
  rw [dif_neg (by simpa using h1)]
  unfold markLastFrame
  rw [if_pos h2]
  unfold SendFrame
  dsimp only
  rw [if_neg (by simpa using h1)]
  rw [drainFifo]
  rw [dif_pos (by simp [List.drop_eq_nil_of_le h2])]
  dsimp only
  rw [List.take_of_length_le h2]

/-- One unfolding of the fifo drain on a fifo of nine to fifteen bytes:
a full BODY frame is pushed, then a LAST frame with the remainder. -/
theorem drainFifo_two (st : TxState)
    (h2 : 8 < st.fifo.length) (h3 : st.fifo.length ≤ 15) :
    (drainFifo false st).frames = st.frames ++
      [⟨st.frameType, st.frameIndex, st.destinationAddress, st.sourceAddress,
        st.isEvent, st.fifo.take 8⟩,
       ⟨FrameType_LAST, (st.frameIndex + 1) % 32, st.destinationAddress,
        st.sourceAddress, st.isEvent, st.fifo.drop 8⟩] := by
  rw [drainFifo]
  rw [dif_neg (by omega)]
  unfold markLastFrame
  rw [if_neg (by omega)]
  unfold SendFrame
  rw [if_neg (by omega)]
  rw [drainFifo_small false _ (by simp; omega) (by simp; omega)]
  simp

/-- Draining a mid-message state in the multi-frame case yields the
remaining message as BODY frames ending with a LAST frame. -/
theorem drain_multi_spec (base : List TxFrame) (msg2 : List Nat) (st2 : TxState)
    (h2 : TxMid base msg2 st2) :
    ∃ nf, (drainFifo false st2).frames = base ++ nf ∧ 1 ≤ nf.length ∧
      (nf.map TxFrame.data).flatten = msg2 ∧
      nf.map TxFrame.frameType =
        List.replicate (nf.length - 1) FrameType_BODY ++ [FrameType_LAST] := by
  obtain ⟨hcrc2, hfifo2, hsent2, hlt2, hne2, hft2, nf2, hnf2, hsent82, hty2, hdata2⟩ := h2
  by_cases hle : st2.fifo.length ≤ 8
  · refine ⟨nf2 ++ [⟨FrameType_LAST, st2.frameIndex, st2.destinationAddress,
      st2.sourceAddress, st2.isEvent, st2.fifo⟩], ?_, ?_, ?_, ?_⟩
    · rw [drainFifo_small false st2 hne2 hle, hnf2, List.append_assoc]
      simp
    · simp
    · simp only [List.map_append, List.map_cons, List.map_nil, List.flatten_append,
        List.flatten_cons, List.flatten_nil, List.append_nil]
      rw [hdata2, hfifo2, List.take_append_drop]
    · simp only [List.map_append, List.map_cons, List.map_nil,
        map_frameType_replicate FrameType_BODY nf2 hty2, List.length_append,
        List.length_cons, List.length_nil]
      norm_num
  · refine ⟨nf2 ++ [⟨st2.frameType, st2.frameIndex, st2.destinationAddress,
      st2.sourceAddress, st2.isEvent, st2.fifo.take 8⟩,
      ⟨FrameType_LAST, (st2.frameIndex + 1) % 32, st2.destinationAddress,
      st2.sourceAddress, st2.isEvent, st2.fifo.drop 8⟩], ?_, ?_, ?_, ?_⟩
    · rw [drainFifo_two st2 (by omega) (by omega), hnf2, List.append_assoc]
    · simp
    · simp only [List.map_append, List.map_cons, List.map_nil, List.flatten_append,
        List.flatten_cons, List.flatten_nil, List.append_nil]
      rw [hdata2, List.take_append_drop, hfifo2, List.take_append_drop]
    · simp only [List.map_append, List.map_cons, List.map_nil,
        map_frameType_replicate FrameType_BODY nf2 hty2, List.length_append,
        List.length_cons, List.length_nil, hft2]
      have hlen2 : nf2.length + 2 - 1 = nf2.length + 1 := by omega
      rw [hlen2, List.replicate_succ']
      simp

/-- FinishMessage on a mid-message state: a message of at most eight
bytes becomes one SINGLE frame carrying exactly the message and no CRC;
a longer message is emitted as BODY frames ending with a LAST frame,
with the big-endian CRC-16 of the message appended as the final two
stream bytes. -/
theorem finish_message_spec (base : List TxFrame) (msg : List Nat) (st : TxState)
    (h : TxMid base msg st) :
    (msg.length ≤ 8 →
      (MatrixTransmitter_FinishMessage st).frames = base ++
        [⟨FrameType_SINGLE, st.frameIndex, st.destinationAddress, st.sourceAddress,
          st.isEvent, msg⟩]) ∧
    (8 < msg.length →
      ∃ nf, (MatrixTransmitter_FinishMessage st).frames = base ++ nf ∧ 1 ≤ nf.length ∧
        (nf.map TxFrame.data).flatten = msg ++
          [(Matrix_ComputeCRC16 msg >>> 8) % 256, Matrix_ComputeCRC16 msg % 256] ∧
        nf.map TxFrame.frameType =
          List.replicate (nf.length - 1) FrameType_BODY ++ [FrameType_LAST]) := by
  constructor
  · intro hlen
    obtain ⟨nf, hnf, hsent8, hty, hdata⟩ := h.frames_eq
    have hfne : st.fifo.length ≠ 0 := by
      simpa [← List.length_eq_zero] using h.fifo_ne
    have hs0 : st.numBytesSent = 0 := by
      have hs := h.sent_eq
      omega
    have hnf0 : nf = [] := List.eq_nil_of_length_eq_zero (by omega)
    unfold MatrixTransmitter_FinishMessage
    rw [if_pos (by have hs := h.sent_eq; omega)]
    rw [drainFifo_small true st h.fifo_ne (by have hs := h.sent_eq; omega)]
    rw [hnf, hnf0, List.append_nil]
    have hfm : st.fifo = msg := by
      rw [h.fifo_eq, hs0, List.drop_zero]
    rw [hfm]
    simp
  · intro hlen
    unfold MatrixTransmitter_FinishMessage
    rw [if_neg (by have hs := h.sent_eq; omega)]
    have h2 := TxMid_addByte (TxMid_addByte h ((st.crc >>> 8) % 256)) (st.crc % 256)
    obtain ⟨nf, hfr, hlen1, hdataF, htypes⟩ := drain_multi_spec base _ _ h2
    refine ⟨nf, hfr, hlen1, ?_, htypes⟩
    rw [hdataF, h.crc_eq]
    simp

/-! ### Theorems for claim C5 -/

/-- C5: for every message the transmitter finishes (any key, event
index, addresses and payload bytes): a message of at most eight bytes
is emitted as one SINGLE frame carrying exactly the message bytes with
no CRC suffix; a longer message is emitted as BODY frames ending with a
LAST frame, whose concatenated byte stream B is the message followed by
its big-endian CRC-16, so that the CRC-16 over B[0..len-3] equals the
last two bytes of B. -/
theorem C5_transmitter_framing_and_crc (fi ev src dst key : Nat) (bs : List Nat) :
    ((txFirstByte key ev :: bs).length ≤ 8 →
      (transmitterRun fi ev src dst key bs).frames.map TxFrame.frameType
          = [FrameType_SINGLE] ∧
      ((transmitterRun fi ev src dst key bs).frames.map TxFrame.data).flatten
          = txFirstByte key ev :: bs) ∧
    (8 < (txFirstByte key ev :: bs).length →
      ((transmitterRun fi ev src dst key bs).frames.map TxFrame.data).flatten
          = (txFirstByte key ev :: bs) ++
            [(Matrix_ComputeCRC16 (txFirstByte key ev :: bs) >>> 8) % 256,
             Matrix_ComputeCRC16 (txFirstByte key ev :: bs) % 256] ∧
      (transmitterRun fi ev src dst key bs).frames.map TxFrame.frameType
          = List.replicate ((transmitterRun fi ev src dst key bs).frames.length - 1)
              FrameType_BODY ++ [FrameType_LAST] ∧
      (∀ B, B = ((transmitterRun fi ev src dst key bs).frames.map TxFrame.data).flatten →
        256 * B.getD (B.length - 2) 0 + B.getD (B.length - 1) 0 =
          Matrix_ComputeCRC16 (B.take (B.length - 2)))) := by
  have hmid0 := TxMid_start (TxInit fi) ev src dst key
  have hmid := TxMid_addBytesList hmid0 bs
  have hmid1 : TxMid [] (txFirstByte key ev :: bs)
      (addBytesList (MatrixTransmitter_StartMessageWithAddressAndKey
        (TxInit fi) ev src dst key).1 bs) := by
    simpa using hmid
  have hspec := finish_message_spec [] _ _ hmid1
  constructor
  · intro hlen
    have hfr := hspec.1 hlen
    constructor
    · unfold transmitterRun
      rw [hfr]
      simp
    · unfold transmitterRun
      rw [hfr]
      simp
  · intro hlen
    obtain ⟨nf, hfr, h1, hdata, htypes⟩ := hspec.2 hlen
    have hfr' : (transmitterRun fi ev src dst key bs).frames = nf := by
      unfold transmitterRun
      rw [hfr]
      simp
    refine ⟨?_, ?_, ?_⟩
    · rw [hfr', hdata]
    · rw [hfr', htypes]
    · intro B hB
      rw [hfr'] at hB
      rw [hB, hdata]
      have hc_lt := Matrix_ComputeCRC16_lt (txFirstByte key ev :: bs)
      set msg := txFirstByte key ev :: bs with hmsg
      set c := Matrix_ComputeCRC16 msg with hc
      have hlen2 : (msg ++ [(c >>> 8) % 256, c % 256]).length = msg.length + 2 := by
        simp
      rw [hlen2]
      have e1 : msg.length + 2 - 2 = msg.length := by omega
      have e2 : msg.length + 2 - 1 = msg.length + 1 := by omega
      rw [e1, e2]
      have g1 : (msg ++ [(c >>> 8) % 256, c % 256]).getD msg.length 0
          = (c >>> 8) % 256 := by
        rw [List.getD_append_right _ _ _ _ (le_refl _)]
        simp
      have g2 : (msg ++ [(c >>> 8) % 256, c % 256]).getD (msg.length + 1) 0
          = c % 256 := by
        rw [List.getD_append_right _ _ _ _ (by omega)]
        have e3 : msg.length + 1 - msg.length = 1 := by omega
        rw [e3]
        rfl
      have g3 : (msg ++ [(c >>> 8) % 256, c % 256]).take msg.length = msg :=
        List.take_left msg _
      rw [g1, g2, g3, ← hc]
      have hdiv : c >>> 8 = c / 256 := by
        rw [Nat.shiftRight_eq_div_pow]
      rw [hdiv]
      omega

/-- C5, witness: the theorem's multi-frame conclusion at a concrete
eleven-byte message. -/
theorem C5_witness :
    ((transmitterRun 0 0 5 0 0x4064 [1, 2, 3, 4, 5, 6, 7, 8, 9, 10]).frames.map
        TxFrame.data).flatten
      = (txFirstByte 0x4064 0 :: [1, 2, 3, 4, 5, 6, 7, 8, 9, 10]) ++
        [(Matrix_ComputeCRC16 (txFirstByte 0x4064 0 ::
            [1, 2, 3, 4, 5, 6, 7, 8, 9, 10]) >>> 8) % 256,
         Matrix_ComputeCRC16 (txFirstByte 0x4064 0 ::
            [1, 2, 3, 4, 5, 6, 7, 8, 9, 10]) % 256] :=
  ((C5_transmitter_framing_and_crc 0 0 5 0 0x4064
    [1, 2, 3, 4, 5, 6, 7, 8, 9, 10]).2 (by decide)).1

/-! ### Theorems for claim C9 -/

/-- The value-byte loop equals folding the value-byte list. -/
theorem addTokenValueBytes_eq (v : Nat) :
    ∀ (n : Nat) (st : TxState),
      addTokenValueBytes st v n = addBytesList st (tokenValueBytesList v n) := by
  intro n
  induction n with
  | zero =>
    intro st
    rfl
  | succ n ih =>
    intro st
    simp only [addTokenValueBytes, tokenValueBytesList, addBytesList, List.foldl_cons]
    exact ih _

/-- AddToken equals folding the token's wire bytes. -/
theorem AddToken_eq_addBytes (st : TxState) (token : TOKEN) :
    MatrixTransmitter_AddToken st token = addBytesList st (tokenWireBytes token) := by
  unfold MatrixTransmitter_AddToken tokenWireBytes
  rw [addTokenValueBytes_eq]
  simp only [addBytesList, List.foldl_cons]

/-- The value-byte list has exactly the requested length. -/
theorem tokenValueBytesList_length (v : Nat) :
    ∀ n, (tokenValueBytesList v n).length = n := by
  intro n
  induction n with
  | zero => rfl
  | succ n ih => simp [tokenValueBytesList, ih]

/-- Every key's wire value width is at most four bytes. -/
theorem Key_ValueSize_le_4 (key : Nat) : Key_ValueSize key ≤ 4 := by
  unfold Key_ValueSize
  dsimp only
  split_ifs <;> omega

/-- A token's wire bytes fit a single frame together with the leading
event-index byte. -/
theorem tokenWireBytes_length_le (token : TOKEN) :
    (tokenWireBytes token).length ≤ 6 := by
  unfold tokenWireBytes
  simp only [List.length_cons, tokenValueBytesList_length]
  split
  · omega
  · have := Key_ValueSize_le_4 token.key
    omega

/-- The bumped event index is never zero. -/
theorem nextEventIndex_ne_zero (ev : Nat) : Matrix_NextEventIndex ev ≠ 0 := by
  unfold Matrix_NextEventIndex
  dsimp only
  split
  · omega
  · rename_i h
    omega

/-- One start/add-token/finish round: exactly one SINGLE frame is
pushed, carrying the first byte and the token's wire bytes. -/
theorem sendTokenOnce_spec (src : Nat) (tx : TxState) (ev : Nat) (token : TOKEN) :
    (sendTokenOnce src tx ev token).1.frames.map (fun f => (f.frameType, f.data)) =
      tx.frames.map (fun f => (f.frameType, f.data)) ++
        [(FrameType_SINGLE, txFirstByte token.key ev :: tokenWireBytes token)] ∧
    (sendTokenOnce src tx ev token).2 =
      (if token.key = KeyRequestAddress ∨ token.key = KeyResponseAddressInUse then ev
       else (Matrix_GetEventIndex ev).2) := by
  constructor
  · unfold sendTokenOnce
    dsimp only
    rw [AddToken_eq_addBytes]
    have hmid0 := TxMid_start tx ev src token.address token.key
    have hmid := TxMid_addBytesList hmid0 (tokenWireBytes token)
    have hmid1 : TxMid tx.frames (txFirstByte token.key ev :: tokenWireBytes token)
        (addBytesList (MatrixTransmitter_StartMessageWithAddressAndKey tx ev src
          token.address token.key).1 (tokenWireBytes token)) := by
      simpa using hmid
    have hlen : (txFirstByte token.key ev :: tokenWireBytes token).length ≤ 8 := by
      have := tokenWireBytes_length_le token
      simp only [List.length_cons]
      omega
    have hfr := (finish_message_spec _ _ _ hmid1).1 hlen
    rw [hfr]
    simp
  · unfold sendTokenOnce
    dsimp only
    unfold MatrixTransmitter_StartMessageWithAddressAndKey
    by_cases hk : token.key = KeyRequestAddress ∨ token.key = KeyResponseAddressInUse
    · rw [if_pos hk, if_pos hk]
    · rw [if_neg hk, if_neg hk]
      split <;> rfl

/-- Iterated sends with a nonzero stable event index: n identical
SINGLE frames, event index unchanged. -/
theorem sendTokenTimes_spec (src : Nat) (token : TOKEN) (e : Nat) (he : e ≠ 0) :
    ∀ (n : Nat) (tx : TxState),
      (sendTokenTimes src tx e token n).1.frames.map (fun f => (f.frameType, f.data)) =
        tx.frames.map (fun f => (f.frameType, f.data)) ++
          List.replicate n
            (FrameType_SINGLE, txFirstByte token.key e :: tokenWireBytes token) ∧
      (sendTokenTimes src tx e token n).2 = e := by
  intro n
  induction n with
  | zero =>
    intro tx
    simp [sendTokenTimes]
  | succ n ih =>
    intro tx
    obtain ⟨hf, hs⟩ := sendTokenOnce_spec src tx e token
    have hsnd : (sendTokenOnce src tx e token).2 = e := by
      rw [hs]
      split
      · rfl
      · unfold Matrix_GetEventIndex
        rw [if_neg he]
    unfold sendTokenTimes
    dsimp only
    rw [hsnd]
    obtain ⟨ihf, ihs⟩ := ih (sendTokenOnce src tx e token).1
    refine ⟨?_, ihs⟩
    rw [ihf, hf, List.append_assoc]
    congr 1

/-- C9: every input-status token accepted by the core's CAN token-send
path first bumps the event index and is enqueued as three identical
back-to-back SINGLE-frame messages; every other accepted token is
enqueued exactly once, leaving the event index unchanged. -/
theorem C9_input_status_tokens_sent_three_times (addressValid : Bool) (src : Nat)
    (tx : TxState) (ev : Nat) (mt : MatrixTimeState) (token : TOKEN)
    (hv : addressValid = true ∨ token.key = KeyRequestAddress) :
    (Key_GetPrefixBits token.key = KeyPrefix_InputStatus →
      (Matrix_PrivateSendCanToken addressValid src tx ev mt token).2.1 =
        Matrix_NextEventIndex ev ∧
      (Matrix_PrivateSendCanToken addressValid src tx ev mt token).1.frames.map
          (fun f => (f.frameType, f.data)) =
        tx.frames.map (fun f => (f.frameType, f.data)) ++
          List.replicate 3 (FrameType_SINGLE,
            txFirstByte token.key (Matrix_NextEventIndex ev) ::
              tokenWireBytes token)) ∧
    (Key_GetPrefixBits token.key ≠ KeyPrefix_InputStatus →
      (Matrix_PrivateSendCanToken addressValid src tx ev mt token).2.1 =
        (if token.key = KeyRequestAddress ∨ token.key = KeyResponseAddressInUse
         then ev else (Matrix_GetEventIndex ev).2) ∧
      (Matrix_PrivateSendCanToken addressValid src tx ev mt token).1.frames.map
          (fun f => (f.frameType, f.data)) =
        tx.frames.map (fun f => (f.frameType, f.data)) ++
          [(FrameType_SINGLE, txFirstByte token.key ev :: tokenWireBytes token)]) := by
  have hguard : ¬ (¬ addressValid = true ∧ token.key ≠ KeyRequestAddress) := by
    rcases hv with h | h <;> simp [h]
  constructor
  · intro hpre
    unfold Matrix_PrivateSendCanToken
    rw [if_neg hguard, if_pos hpre]
    dsimp only
    obtain ⟨hf, hs⟩ := sendTokenTimes_spec src token (Matrix_NextEventIndex ev)
      (nextEventIndex_ne_zero ev) 3 tx
    exact ⟨hs, hf⟩
  · intro hpre
    unfold Matrix_PrivateSendCanToken
    rw [if_neg hguard, if_neg hpre]
    dsimp only
    obtain ⟨hf, hs⟩ := sendTokenOnce_spec src tx ev token
    have h1f : (sendTokenTimes src tx ev token 1).1 = (sendTokenOnce src tx ev token).1 := by
      unfold sendTokenTimes sendTokenTimes
      rfl
    have h1s : (sendTokenTimes src tx ev token 1).2 = (sendTokenOnce src tx ev token).2 := by
      unfold sendTokenTimes sendTokenTimes
      rfl
    rw [h1f, h1s, hf, hs]
    exact ⟨rfl, rfl⟩

/-- C9, witness: a concrete input-status token (key 0x4064) is sent
three times with the event index bumped from 7 to 8. -/
theorem C9_witness :
    (Matrix_PrivateSendCanToken true 5 (TxInit 0) 7 ⟨0, 0⟩ ⟨0, 0, 0x4064, 9⟩).2.1 =
      Matrix_NextEventIndex 7 ∧
    (Matrix_PrivateSendCanToken true 5 (TxInit 0) 7 ⟨0, 0⟩ ⟨0, 0, 0x4064, 9⟩).1.frames.map
        (fun f => (f.frameType, f.data)) =
      (TxInit 0).frames.map (fun f => (f.frameType, f.data)) ++
        List.replicate 3 (FrameType_SINGLE,
          txFirstByte (0x4064 : Nat) (Matrix_NextEventIndex 7) ::
            tokenWireBytes ⟨0, 0, 0x4064, 9⟩) :=
  (C9_input_status_tokens_sent_three_times true 5 (TxInit 0) 7 ⟨0, 0⟩
    ⟨0, 0, 0x4064, 9⟩ (Or.inl rfl)).1 (by decide)

/-! ### Theorems for claim C3 -/

/-- C3, counterexample: node B (address 17) runs root pattern 1030 with
sync range Exact and receives node A's (address 5) PatternSync for 1030.
The claim says B restarts its root pattern; the code skips any sync
token whose sender address is at most the device's own address, so B's
sequencer state is unchanged and differs from the restarted state. -/
theorem C3_counterexample :
    MatrixTokenSequencerController_SyncTokenIn 17 5000
        [0, 0, 0, 0, 0, 0, 0xA0, 4, 6]
        [⟨0, 999, 8192, 8192, ⟨some 6, 9, 12⟩⟩]
        ⟨0, 5, KeyTokenSequencerSync, 1030⟩ =
      [⟨0, 999, 8192, 8192, ⟨some 6, 9, 12⟩⟩] ∧
    MatrixTokenSequencerController_SyncTokenIn 17 5000
        [0, 0, 0, 0, 0, 0, 0xA0, 4, 6]
        [⟨0, 999, 8192, 8192, ⟨some 6, 9, 12⟩⟩]
        ⟨0, 5, KeyTokenSequencerSync, 1030⟩ ≠
      [restartRootPattern 5000 ⟨0, 999, 8192, 8192, ⟨some 6, 9, 12⟩⟩] := by
  constructor
  · decide
  · decide

/-- C3, amended: the tie-break runs the other way round: with node A's
address lower than node B's, it is A that restarts its root pattern at
step 0 on receiving B's PatternSync whose enumeration is in A's sync
range (or equals A's running root pattern when the range is Exact),
while B ignores A's PatternSync (lower address yields to higher, so the
higher address dictates phase). -/
theorem C3_sync_yields_to_higher_address (now addrA addrB : Nat)
    (patternData : List Nat) (seqsA seqsB : List SeqState)
    (tokenA tokenB : TOKEN) (i : Nat) (ts : SeqState)
    (hAB : addrA < addrB)
    (hgetA : seqsA[i]? = some ts)
    (htokB : tokenB.address = addrB)
    (htokA : tokenA.address = addrA)
    (hB133 : addrB < MATRIX_TOKEN_SEQUENCER_0_NETWORK_ADDRESS + i)
    (hrun : 0 ≤ ts.patternStackIndex)
    (hsync : ts.syncRangeTop ≠ SYNC_RANGE_NONE)
    (hcond : ((ts.syncRangeBottom : Int) ≤ toInt32 (tokenB.value &&& 0xFFFF1FFF) ∧
        toInt32 (tokenB.value &&& 0xFFFF1FFF) ≤ (ts.syncRangeTop : Int))
      ∨ (ts.syncRangeBottom = SYNC_RANGE_EXACT ∧
        toInt32 (tokenB.value &&& 0xFFFF1FFF) =
          (GetRootPatternEnum patternData ts : Int))) :
    (MatrixTokenSequencerController_SyncTokenIn addrA now patternData seqsA
        tokenB)[i]? = some (restartRootPattern now ts) ∧
    MatrixTokenSequencerController_SyncTokenIn addrB now patternData seqsB
        tokenA = seqsB := by
  constructor
  · unfold MatrixTokenSequencerController_SyncTokenIn
    rw [htokB, if_neg (by omega)]
    rw [List.getElem?_mapIdx, hgetA]
    simp only [Option.map_some']
    unfold syncSeqStep
    rw [if_pos ⟨hrun, hB133⟩, if_pos hsync, if_pos hcond]
  · unfold MatrixTokenSequencerController_SyncTokenIn
    rw [htokA, if_pos hAB.le]

/-- C3, witness: the amended theorem at addresses 5 and 17 with pattern
enumeration 1030 and sync range Exact. -/
theorem C3_witness :
    (MatrixTokenSequencerController_SyncTokenIn 5 5000
        [0, 0, 0, 0, 0, 0, 0xA0, 4, 6]
        [⟨0, 999, 8192, 8192, ⟨some 6, 9, 12⟩⟩]
        ⟨0, 17, KeyTokenSequencerSync, 1030⟩)[0]? =
      some (restartRootPattern 5000 ⟨0, 999, 8192, 8192, ⟨some 6, 9, 12⟩⟩) ∧
    MatrixTokenSequencerController_SyncTokenIn 17 5000
        [0, 0, 0, 0, 0, 0, 0xA0, 4, 6]
        [⟨0, 999, 8192, 8192, ⟨some 6, 9, 12⟩⟩]
        ⟨0, 5, KeyTokenSequencerSync, 1030⟩ =
      [⟨0, 999, 8192, 8192, ⟨some 6, 9, 12⟩⟩] :=
  C3_sync_yields_to_higher_address 5000 5 17
    [0, 0, 0, 0, 0, 0, 0xA0, 4, 6]
    [⟨0, 999, 8192, 8192, ⟨some 6, 9, 12⟩⟩]
    [⟨0, 999, 8192, 8192, ⟨some 6, 9, 12⟩⟩]
    ⟨0, 5, KeyTokenSequencerSync, 1030⟩
    ⟨0, 17, KeyTokenSequencerSync, 1030⟩ 0
    ⟨0, 999, 8192, 8192, ⟨some 6, 9, 12⟩⟩
    (by decide) (by decide) (by decide) (by decide) (by decide) (by decide)
    (by decide) (Or.inr (by decide))

/-! ### Codec lemmas for claims C1 and C4 -/

/-- dropWhile keeps a list whose entries are all broadcast-flagged. -/
theorem dropWhile_flagged {r : List MTL_TOKEN} (h : ∀ m ∈ r, shouldBroadcast m = true) :
    r.dropWhile (fun t => ! shouldBroadcast t) = r := by
  cases r with
  | nil => rfl
  | cons c r =>
    rw [List.dropWhile_cons_of_neg]
    simp [h c (List.mem_cons_self c r)]

/-- On an all-flagged tail the cursor advance is just the tail. -/
theorem advanceF_cons_flagged (x : MTL_TOKEN) {r : List MTL_TOKEN}
    (h : ∀ m ∈ r, shouldBroadcast m = true) : advanceF (x :: r) = r :=
  dropWhile_flagged h

/-- On an all-flagged table iterated cursor advances are list drops. -/
theorem advanceF_iterate_flagged :
    ∀ (n : Nat) (l : List MTL_TOKEN),
      (∀ m ∈ l, shouldBroadcast m = true) → advanceF^[n] l = l.drop n := by
  intro n
  induction n with
  | zero => intro l _; simp
  | succ n ih =>
    intro l h
    rw [Function.iterate_succ_apply]
    cases l with
    | nil =>
      rw [show advanceF [] = [] from rfl, ih [] (by simp)]
      simp
    | cons x r =>
      rw [advanceF_cons_flagged x (fun m hm => h m (List.mem_cons_of_mem x hm))]
      rw [ih r (fun m hm => h m (List.mem_cons_of_mem x hm))]
      simp

/-- A shifted value or-ed with a small value is their sum. -/
theorem shiftLeft_or_eq (a b n : Nat) (hb : b < 2 ^ n) : (a <<< n) ||| b = a * 2 ^ n + b := by
  rw [Nat.shiftLeft_eq, Nat.mul_comm a (2 ^ n)]
  exact (Nat.mul_add_lt_is_or hb a).symm

/-- Setting a bit above an accumulator of lower bits adds its weight. -/
theorem or_one_shl (byte bit : Nat) (h : byte < 2 ^ bit) :
    byte ||| (1 <<< bit) = byte + 2 ^ bit := by
  rw [Nat.lor_comm, shiftLeft_or_eq 1 byte bit h]
  omega

/-- Series triples of an appended list. -/
theorem seriesTriples_append (addr : Nat) :
    ∀ (A B : List MTL_TOKEN) (key : Nat),
      seriesTriples addr key (A ++ B) =
        seriesTriples addr key A ++ seriesTriples addr (key + A.length) B := by
  intro A
  induction A with
  | nil => intro B key; simp [seriesTriples]
  | cons a A ih =>
    intro B key
    simp only [List.cons_append, seriesTriples, List.length_cons, List.append_eq]
    rw [ih B (key + 1), show key + 1 + A.length = key + (A.length + 1) from by omega]

/-- On a key series, the series triples carry the keys of the members
themselves. -/
theorem seriesTriples_eq_map (addr : Nat) :
    ∀ (ms : List MTL_TOKEN) (key vsz : Nat), keyChain key vsz ms →
      seriesTriples addr key ms =
        ms.map (fun m => (⟨addr, m.token.key, m.token.value⟩ : DToken)) := by
  intro ms
  induction ms with
  | nil => intro key vsz _; rfl
  | cons m ms ih =>
    intro key vsz h
    obtain ⟨hk, _, hchain⟩ := h
    simp only [seriesTriples, List.map_cons]
    rw [ih (key + 1) vsz hchain, hk]

/-- Every member of a key series has the common value width. -/
theorem keyChain_vsz :
    ∀ (ms : List MTL_TOKEN) (key vsz : Nat), keyChain key vsz ms →
      ∀ m ∈ ms, Key_ValueSize m.token.key = vsz := by
  intro ms
  induction ms with
  | nil => intro key vsz _ m hm; simp at hm
  | cons c ms ih =>
    intro key vsz h m hm
    obtain ⟨_, hv, hchain⟩ := h
    rcases List.mem_cons.mp hm with heq | hm2
    · rw [heq]; exact hv
    · exact ih (key + 1) vsz hchain m hm2

/-- The series scan stops when the cursor advance reaches the table end. -/
theorem seriesScan_nil_adv (vsz key value nB nA : Nat) (cmp : List MTL_TOKEN)
    (hadv : advanceF cmp = []) :
    seriesScan vsz key value nB nA cmp = (value, nB, nA) := by
  rw [seriesScan]
  split
  · rw [hadv]
  · rfl

/-- One unfolding of the series scan when the cursor advance yields a
next flagged entry. -/
theorem seriesScan_cons_adv (vsz key value nB nA : Nat) (cmp : List MTL_TOKEN)
    (c : MTL_TOKEN) (rest : List MTL_TOKEN) (hadv : advanceF cmp = c :: rest)
    (hnA : nA < 31) :
    seriesScan vsz key value nB nA cmp =
      if c.token.key ≠ key ∨ Key_ValueSize c.token.key ≠ vsz then (value, nB, nA)
      else
        seriesScan vsz (key + 1)
          (if value = 0 ∧ c.token.value ≠ 0 then c.token.value else value)
          (if c.token.value = 0 ∨
              c.token.value = (if value = 0 ∧ c.token.value ≠ 0 then c.token.value else value)
            then nB + 1 else 32)
          (nA + 1) (c :: rest) := by
  rw [seriesScan]
  simp only [MATRIX_MESSAGE_MAX_TOKEN_REPEATS]
  rw [if_pos (by omega : nA < 32 - 1)]
  rw [hadv]

/-- Full characterisation of the series scan on a broadcast-flagged tail. -/
theorem seriesScan_spec (vsz : Nat) :
    ∀ (rest : List MTL_TOKEN) (x : MTL_TOKEN) (key value nB nA : Nat),
      (∀ m ∈ rest, shouldBroadcast m = true) → nA ≤ 31 →
      ∃ k v' nB',
        seriesScan vsz key value nB nA (x :: rest) = (v', nB', nA + k) ∧
        k ≤ rest.length ∧ nA + k ≤ 31 ∧
        keyChain key vsz (rest.take k) ∧
        (value ≠ 0 → v' = value) ∧
        (v' = value ∨ ∃ m ∈ rest.take k, m.token.value = v') ∧
        (nB' < 32 → nB' = nB + k) ∧
        (nB' < 32 → ∀ m ∈ rest.take k, m.token.value = 0 ∨ m.token.value = v') := by
  intro rest
  induction rest with
  | nil =>
    intro x key value nB nA hall hnA
    refine ⟨0, value, nB, ?_, by simp, by omega, by simp [keyChain], fun _ => rfl,
      Or.inl rfl, fun _ => by omega, by simp⟩
    exact seriesScan_nil_adv vsz key value nB nA [x] rfl
  | cons c rest ih =>
    intro x key value nB nA hall hnA
    have hc : shouldBroadcast c = true := hall c (List.mem_cons_self c rest)
    have hrest : ∀ m ∈ rest, shouldBroadcast m = true :=
      fun m hm => hall m (List.mem_cons_of_mem c hm)
    have hadv : advanceF (x :: c :: rest) = c :: rest := by
      rw [advanceF_cons_flagged x hall]
    by_cases hg : nA < 31
    · rw [seriesScan_cons_adv vsz key value nB nA _ c rest hadv hg]
      by_cases hmatch : c.token.key ≠ key ∨ Key_ValueSize c.token.key ≠ vsz
      · rw [if_pos hmatch]
        exact ⟨0, value, nB, rfl, by simp, by omega, by simp [keyChain], fun _ => rfl,
          Or.inl rfl, fun _ => by omega, by simp⟩
      · rw [if_neg hmatch]
        push_neg at hmatch
        obtain ⟨hk, hv⟩ := hmatch
        obtain ⟨k, v', nBf, hscan, hkle, hk31, hchain, hp4, hp5, hp6, hp7⟩ :=
          ih c (key + 1)
            (if value = 0 ∧ c.token.value ≠ 0 then c.token.value else value)
            (if c.token.value = 0 ∨
                c.token.value = (if value = 0 ∧ c.token.value ≠ 0 then c.token.value else value)
              then nB + 1 else 32)
            (nA + 1) hrest (by omega)
        refine ⟨k + 1, v', nBf, ?_, ?_, by omega, ?_, ?_, ?_, ?_, ?_⟩
        · rw [show nA + (k + 1) = nA + 1 + k from by omega]
          exact hscan
        · simp only [List.length_cons]; omega
        · -- keyChain key vsz ((c :: rest).take (k+1))
          rw [List.take_succ_cons]
          exact ⟨hk, hv, hchain⟩
        · -- value ≠ 0 → v' = value
          intro hvz
          have hval' : (if value = 0 ∧ c.token.value ≠ 0 then c.token.value else value)
              = value := by
            rw [if_neg]; rintro ⟨h0, _⟩; exact hvz h0
          rw [hval'] at hp4
          exact hp4 hvz
        · -- v' = value ∨ member
          rcases hp5 with h5 | ⟨m, hm, hmv⟩
          · by_cases hcv : value = 0 ∧ c.token.value ≠ 0
            · rw [if_pos hcv] at h5
              exact Or.inr ⟨c, by simp [List.take_succ_cons], h5.symm ▸ rfl⟩
            · rw [if_neg hcv] at h5
              exact Or.inl h5
          · exact Or.inr ⟨m, by simp [List.take_succ_cons]; exact Or.inr hm, hmv⟩
        · -- nBf < 32 → nBf = nB + (k+1)
          intro h32
          have h6 := hp6 h32
          by_cases hbc : c.token.value = 0 ∨
              c.token.value = (if value = 0 ∧ c.token.value ≠ 0 then c.token.value else value)
          · rw [if_pos hbc] at h6; omega
          · rw [if_neg hbc] at h6; omega
        · -- nBf < 32 → members' values ∈ {0, v'}
          intro h32 m hm
          have h6 := hp6 h32
          have hbc : c.token.value = 0 ∨
              c.token.value = (if value = 0 ∧ c.token.value ≠ 0 then c.token.value else value) := by
            by_contra hcon
            rw [if_neg hcon] at h6
            omega
          rw [List.take_succ_cons] at hm
          rcases List.mem_cons.mp hm with heqm | hm'
          · -- m = c
            rw [heqm]
            rcases hbc with h0 | heq
            · exact Or.inl h0
            · by_cases hcv : value = 0 ∧ c.token.value ≠ 0
              · rw [if_pos hcv] at hp4
                exact Or.inr (hp4 hcv.2).symm
              · rw [if_neg hcv] at heq hp4
                by_cases h0 : value = 0
                · exact Or.inl (heq.trans h0)
                · right
                  rw [heq]
                  exact (hp4 h0).symm
          · exact hp7 h32 m hm'
    · -- nA = 31
      have : nA = 31 := by omega
      refine ⟨0, value, nB, ?_, by simp, by omega, by simp [keyChain], fun _ => rfl,
        Or.inl rfl, fun _ => by omega, by simp⟩
      rw [seriesScan]
      simp only [MATRIX_MESSAGE_MAX_TOKEN_REPEATS]
      rw [if_neg (by omega)]
      norm_num

/-- Emitted byte characterisation of the bitmap loop. -/
theorem binaryBitmap_spec :
    ∀ (ms : List MTL_TOKEN) (bit byte : Nat),
      (∀ m ∈ ms, shouldBroadcast m = true) → bit < 8 → byte < 2 ^ bit →
      0 < ms.length + bit →
      binaryBitmap ms bit byte ms.length =
        (byte + 2 ^ bit * packNum (memberBits (ms.take (8 - bit)))) ::
          (if ms.length + bit ≤ 8 then []
           else binaryBitmap (ms.drop (8 - bit)) 0 0 (ms.length - (8 - bit))) := by
  intro ms
  induction ms with
  | nil =>
    intro bit byte hall hbit hbyte hpos
    simp only [List.length_nil] at hpos ⊢
    have hb : bit ≠ 0 := by omega
    rw [show binaryBitmap [] bit byte 0 = if bit ≠ 0 then [byte] else [] from rfl, if_pos hb]
    rw [if_pos (by omega : 0 + bit ≤ 8)]
    simp [memberBits, packNum]
  | cons m ms ih =>
    intro bit byte hall hbit hbyte hpos
    have hrest : ∀ x ∈ ms, shouldBroadcast x = true :=
      fun x hx => hall x (List.mem_cons_of_mem m hx)
    have hadv : advanceF (m :: ms) = ms := advanceF_cons_flagged m hrest
    have hbyte' : (if headTokenValue (m :: ms) ≠ 0 then byte ||| (1 <<< bit) else byte)
        = byte + 2 ^ bit * bitVal (m.token.value != 0) := by
      rw [show headTokenValue (m :: ms) = m.token.value from rfl]
      by_cases hz : m.token.value = 0
      · rw [if_neg (by omega), hz]
        simp [bitVal]
      · rw [if_pos hz, or_one_shl byte bit hbyte]
        simp [bitVal, hz]
    have htake : (m :: ms).take (8 - bit) = m :: ms.take (7 - bit) := by
      rw [show 8 - bit = (7 - bit) + 1 from by omega, List.take_succ_cons]
    have hpackcons : packNum (memberBits (m :: ms.take (7 - bit)))
        = bitVal (m.token.value != 0) + 2 * packNum (memberBits (ms.take (7 - bit))) := by
      simp [memberBits, packNum]
    simp only [List.length_cons]
    by_cases h7 : bit = 7
    · subst h7
      rw [show binaryBitmap (m :: ms) 7 byte (ms.length + 1) =
          if 7 + 1 ≥ 8 then
            (if headTokenValue (m :: ms) ≠ 0 then byte ||| (1 <<< 7) else byte) ::
              binaryBitmap (advanceF (m :: ms)) 0 0 ms.length
          else
            binaryBitmap (advanceF (m :: ms)) (7 + 1)
              (if headTokenValue (m :: ms) ≠ 0 then byte ||| (1 <<< 7) else byte)
              ms.length from rfl]
      rw [if_pos (by omega)]
      rw [hadv, hbyte', htake]
      rw [show (7:Nat) - 7 = 0 from rfl, List.take_zero]
      congr 1
      · by_cases hlen : ms.length = 0
        · rw [if_pos (by omega)]
          rcases List.length_eq_zero.mp hlen with rfl
          rfl
        · rw [if_neg (by omega)]
          rw [show (8:Nat) - 7 = 1 from rfl]
          rw [List.drop_one, show (m :: ms).tail = ms from rfl]
          norm_num
    · -- bit < 7
      rw [show binaryBitmap (m :: ms) bit byte (ms.length + 1) =
          if bit + 1 ≥ 8 then
            (if headTokenValue (m :: ms) ≠ 0 then byte ||| (1 <<< bit) else byte) ::
              binaryBitmap (advanceF (m :: ms)) 0 0 ms.length
          else
            binaryBitmap (advanceF (m :: ms)) (bit + 1)
              (if headTokenValue (m :: ms) ≠ 0 then byte ||| (1 <<< bit) else byte)
              ms.length from rfl]
      rw [if_neg (by omega)]
      rw [hadv, hbyte']
      rw [ih (bit + 1) _ hrest (by omega)
        (by
          have hb1 : 2 ^ bit * bitVal (m.token.value != 0) ≤ 2 ^ bit := by
            cases hh : (m.token.value != 0) <;> simp [bitVal]
          have h2 : (2:Nat) ^ (bit + 1) = 2 ^ bit * 2 := Nat.pow_succ ..
          omega)
        (by omega)]
      rw [htake, hpackcons]
      have hdrop : ms.drop (8 - (bit + 1)) = (m :: ms).drop (8 - bit) := by
        rw [show 8 - bit = (8 - (bit + 1)) + 1 from by omega, List.drop_succ_cons]
      congr 1
      · have h2 : (2:Nat) ^ (bit + 1) = 2 ^ bit * 2 := Nat.pow_succ ..
        rw [show (7:Nat) - bit = 8 - (bit + 1) from by omega, h2]
        ring
      · rw [hdrop]
        by_cases hcc : ms.length + (bit + 1) ≤ 8
        · rw [if_pos hcc, if_pos (by omega)]
        · rw [if_neg hcc, if_neg (by omega)]
          congr 1
          omega

/-- Splitting the binary-repeat decode loop at a mid-byte position: the
members whose bits sit in the current flag word are emitted, then the
loop continues in the state reached after them. -/
theorem decompBinary_split (addr v : Nat) :
    ∀ (ms : List MTL_TOKEN) (x : Bool) (g j key R : Nat) (s : List Nat)
      (r : Int × List DToken × List Nat),
      ms.length + j ≤ 7 →
      (∀ m ∈ ms, m.token.value = 0 ∨ m.token.value = v) →
      decompBinary addr v (key + ms.length) R (j + ms.length)
          ((bitVal x + 2 * (packNum (memberBits ms) + 2 ^ ms.length * g)) >>> ms.length) s
        = r →
      decompBinary addr v key (ms.length + R) j
          (bitVal x + 2 * (packNum (memberBits ms) + 2 ^ ms.length * g)) s =
        (r.1, seriesTriples addr key ms ++ r.2.1, r.2.2) := by
  intro ms
  induction ms with
  | nil =>
    intro x g j key R s r hj hvals hcont
    simp only [List.length_nil, Nat.add_zero, Nat.zero_add, Nat.shiftRight_zero] at hcont ⊢
    rw [hcont]
    simp [seriesTriples]
  | cons m ms ih =>
    intro x g j key R s r hj hvals hcont
    simp only [List.length_cons] at hj hcont ⊢
    have hf1 : (bitVal x + 2 * (packNum (memberBits (m :: ms)) + 2 ^ (ms.length + 1) * g)) >>> 1
        = bitVal (m.token.value != 0) +
            2 * (packNum (memberBits ms) + 2 ^ ms.length * g) := by
      rw [Nat.shiftRight_one]
      have hpc : packNum (memberBits (m :: ms)) =
          bitVal (m.token.value != 0) + 2 * packNum (memberBits ms) := by
        simp [memberBits, packNum]
      have hdiv : ∀ (y : Bool) (A : Nat), (bitVal y + 2 * A) / 2 = A := by
        intro y A
        cases y <;> simp [bitVal] <;> omega
      rw [hpc, show bitVal x +
          2 * (bitVal (m.token.value != 0) + 2 * packNum (memberBits ms) +
            2 ^ (ms.length + 1) * g) =
          bitVal x + 2 * (bitVal (m.token.value != 0) + 2 * packNum (memberBits ms) +
            2 ^ (ms.length + 1) * g) from rfl]
      rw [hdiv x]
      rw [Nat.pow_succ]
      ring
    rw [show ms.length + 1 + R = (ms.length + R) + 1 from by omega]
    rw [show decompBinary addr v key ((ms.length + R) + 1) j
        (bitVal x + 2 * (packNum (memberBits (m :: ms)) + 2 ^ (ms.length + 1) * g)) s =
        if j + 1 ≥ 8 then
          match s with
          | [] => (-1, [], s)
          | b :: r =>
            ((decompBinary addr v (key + 1) (ms.length + R) 0 b r).1,
             ⟨addr, key, if b &&& 1 ≠ 0 then v else 0⟩ ::
               (decompBinary addr v (key + 1) (ms.length + R) 0 b r).2.1,
             (decompBinary addr v (key + 1) (ms.length + R) 0 b r).2.2)
        else
          ((decompBinary addr v (key + 1) (ms.length + R) (j + 1)
              ((bitVal x + 2 * (packNum (memberBits (m :: ms)) + 2 ^ (ms.length + 1) * g)) >>> 1)
              s).1,
           ⟨addr, key,
             if ((bitVal x + 2 * (packNum (memberBits (m :: ms)) + 2 ^ (ms.length + 1) * g)) >>> 1)
                 &&& 1 ≠ 0 then v else 0⟩ ::
             (decompBinary addr v (key + 1) (ms.length + R) (j + 1)
               ((bitVal x + 2 * (packNum (memberBits (m :: ms)) + 2 ^ (ms.length + 1) * g)) >>> 1)
               s).2.1,
           (decompBinary addr v (key + 1) (ms.length + R) (j + 1)
             ((bitVal x + 2 * (packNum (memberBits (m :: ms)) + 2 ^ (ms.length + 1) * g)) >>> 1)
             s).2.2)
      from rfl]
    rw [if_neg (by omega)]
    rw [hf1]
    have hcont' : decompBinary addr v ((key + 1) + ms.length) R ((j + 1) + ms.length)
        ((bitVal (m.token.value != 0) +
          2 * (packNum (memberBits ms) + 2 ^ ms.length * g)) >>> ms.length) s = r := by
      rw [show (key + 1) + ms.length = key + (ms.length + 1) from by omega]
      rw [show (j + 1) + ms.length = j + (ms.length + 1) from by omega]
      rw [← hf1]
      rw [← Nat.shiftRight_add]
      rw [show 1 + ms.length = ms.length + 1 from by omega]
      exact hcont
    rw [ih (m.token.value != 0) g (j + 1) (key + 1) R s r (by omega)
      (fun mm hmm => hvals mm (List.mem_cons_of_mem m hmm)) hcont']
    have hemit : (if (bitVal (m.token.value != 0) +
        2 * (packNum (memberBits ms) + 2 ^ ms.length * g)) &&& 1 ≠ 0 then v else 0)
        = m.token.value := by
      rw [Nat.and_one_is_mod]
      rcases hvals m (List.mem_cons_self m ms) with h0 | hv'
      · rw [h0]
        simp [h0, bitVal]
      · by_cases hz : m.token.value = 0
        · rw [hz]
          simp [hz, bitVal]
        · rw [if_pos]
          · exact hv'.symm
          · have hb : bitVal (m.token.value != 0) = 1 := by simp [hz, bitVal]
            rw [hb]
            omega
    rw [hemit]
    simp [seriesTriples]

/-- The binary-repeat decode loop inverts the bitmap serialisation: in
any wrap state (bitIndex at least 7) it reconstructs exactly the series
members and leaves the trailing stream untouched. -/
theorem decompBinary_chunk (addr v : Nat) :
    ∀ (n : Nat) (ms : List MTL_TOKEN), ms.length ≤ n →
      (∀ m ∈ ms, shouldBroadcast m = true) →
      (∀ m ∈ ms, m.token.value = 0 ∨ m.token.value = v) →
      ∀ (j f key : Nat) (tail : List Nat), 7 ≤ j →
        decompBinary addr v key ms.length j f (binaryBitmap ms 0 0 ms.length ++ tail) =
          (0, seriesTriples addr key ms, tail) := by
  intro n
  induction n with
  | zero =>
    intro ms hlen hall hvals j f key tail hj
    have h0 : ms.length = 0 := by omega
    rcases List.length_eq_zero.mp h0 with rfl
    rfl
  | succ n ihn =>
    intro ms hlen hall hvals j f key tail hj
    match ms with
    | [] => rfl
    | m :: ms' =>
      have hrest : ∀ x ∈ ms', shouldBroadcast x = true :=
        fun x hx => hall x (List.mem_cons_of_mem m hx)
      have hvrest : ∀ x ∈ ms', x.token.value = 0 ∨ x.token.value = v :=
        fun x hx => hvals x (List.mem_cons_of_mem m hx)
      have hbm := binaryBitmap_spec (m :: ms') 0 0 hall (by omega) (by omega) (by simp)
      simp only [Nat.sub_zero, Nat.add_zero, Nat.pow_zero, Nat.zero_add, Nat.one_mul] at hbm
      simp only [List.length_cons] at hbm hlen ⊢
      rw [hbm]
      rw [show (packNum (memberBits ((m :: ms').take 8)) ::
            (if ms'.length + 1 ≤ 8 then []
             else binaryBitmap ((m :: ms').drop 8) 0 0 (ms'.length + 1 - 8))) ++ tail =
          packNum (memberBits ((m :: ms').take 8)) ::
            ((if ms'.length + 1 ≤ 8 then []
              else binaryBitmap ((m :: ms').drop 8) 0 0 (ms'.length + 1 - 8)) ++ tail)
        from rfl]
      rw [show decompBinary addr v key (ms'.length + 1) j f
            (packNum (memberBits ((m :: ms').take 8)) ::
              ((if ms'.length + 1 ≤ 8 then []
                else binaryBitmap ((m :: ms').drop 8) 0 0 (ms'.length + 1 - 8)) ++ tail)) =
          if j + 1 ≥ 8 then
            ((decompBinary addr v (key + 1) ms'.length 0
                (packNum (memberBits ((m :: ms').take 8)))
                ((if ms'.length + 1 ≤ 8 then []
                  else binaryBitmap ((m :: ms').drop 8) 0 0 (ms'.length + 1 - 8)) ++ tail)).1,
             ⟨addr, key,
               if packNum (memberBits ((m :: ms').take 8)) &&& 1 ≠ 0 then v else 0⟩ ::
               (decompBinary addr v (key + 1) ms'.length 0
                 (packNum (memberBits ((m :: ms').take 8)))
                 ((if ms'.length + 1 ≤ 8 then []
                   else binaryBitmap ((m :: ms').drop 8) 0 0 (ms'.length + 1 - 8)) ++ tail)).2.1,
             (decompBinary addr v (key + 1) ms'.length 0
               (packNum (memberBits ((m :: ms').take 8)))
               ((if ms'.length + 1 ≤ 8 then []
                 else binaryBitmap ((m :: ms').drop 8) 0 0 (ms'.length + 1 - 8)) ++ tail)).2.2)
          else
            ((decompBinary addr v (key + 1) ms'.length (j + 1) (f >>> 1)
                (packNum (memberBits ((m :: ms').take 8)) ::
                  ((if ms'.length + 1 ≤ 8 then []
                    else binaryBitmap ((m :: ms').drop 8) 0 0 (ms'.length + 1 - 8)) ++ tail))).1,
             ⟨addr, key, if (f >>> 1) &&& 1 ≠ 0 then v else 0⟩ ::
               (decompBinary addr v (key + 1) ms'.length (j + 1) (f >>> 1)
                 (packNum (memberBits ((m :: ms').take 8)) ::
                   ((if ms'.length + 1 ≤ 8 then []
                     else binaryBitmap ((m :: ms').drop 8) 0 0 (ms'.length + 1 - 8)) ++ tail))).2.1,
             (decompBinary addr v (key + 1) ms'.length (j + 1) (f >>> 1)
               (packNum (memberBits ((m :: ms').take 8)) ::
                 ((if ms'.length + 1 ≤ 8 then []
                   else binaryBitmap ((m :: ms').drop 8) 0 0 (ms'.length + 1 - 8)) ++ tail))).2.2)
        from rfl]
      rw [if_pos (by omega)]
      have hemit0 : (if packNum (memberBits ((m :: ms').take 8)) &&& 1 ≠ 0 then v else 0)
          = m.token.value := by
        rw [List.take_succ_cons, Nat.and_one_is_mod]
        have hpc : packNum (memberBits (m :: ms'.take 7)) =
            bitVal (m.token.value != 0) + 2 * packNum (memberBits (ms'.take 7)) := by
          simp [memberBits, packNum]
        rw [hpc]
        rcases hvals m (List.mem_cons_self m ms') with h0 | hv'
        · rw [h0]
          simp [h0, bitVal]
        · by_cases hz : m.token.value = 0
          · rw [hz]
            simp [hz, bitVal]
          · rw [if_pos]
            · exact hv'.symm
            · have hb : bitVal (m.token.value != 0) = 1 := by simp [hz, bitVal]
              rw [hb]
              omega
      by_cases hle : ms'.length + 1 ≤ 8
      · -- whole series fits in one bitmap byte
        rw [if_pos hle]
        have htk : (m :: ms').take 8 = m :: ms' := by
          apply List.take_of_length_le
          simp only [List.length_cons]
          omega
        have hpc : packNum (memberBits (m :: ms')) =
            bitVal (m.token.value != 0) +
              2 * (packNum (memberBits ms') + 2 ^ ms'.length * 0) := by
          simp [memberBits, packNum]
        rw [htk, List.nil_append]
        rw [show ms'.length = ms'.length + 0 from rfl, hpc]
        rw [decompBinary_split addr v ms' (m.token.value != 0) 0 0 (key + 1) 0 tail
          (0, [], tail) (by omega) hvrest rfl]
        rw [← hpc]
        have hemit1 : (if packNum (memberBits (m :: ms')) &&& 1 ≠ 0 then v else 0)
            = m.token.value := by
          rw [← htk]
          exact hemit0
        rw [hemit1]
        simp [seriesTriples]
      · -- the series spills into further bitmap bytes
        rw [if_neg hle]
        have h7 : (ms'.take 7).length = 7 := by
          rw [List.length_take]
          omega
        have htk8 : (m :: ms').take 8 = m :: ms'.take 7 := List.take_succ_cons ..
        have hpc : packNum (memberBits (m :: ms'.take 7)) =
            bitVal (m.token.value != 0) +
              2 * (packNum (memberBits (ms'.take 7)) + 2 ^ (7:Nat) * 0) := by
          simp [memberBits, packNum]
        have hdp8 : (m :: ms').drop 8 = ms'.drop 7 := List.drop_succ_cons ..
        have hsplit := decompBinary_split addr v (ms'.take 7) (m.token.value != 0) 0 0
          (key + 1) (ms'.length - 7) (binaryBitmap (ms'.drop 7) 0 0 (ms'.length - 7) ++ tail)
          (0, seriesTriples addr (key + 1 + 7) (ms'.drop 7), tail)
          (by simp [h7]) (fun x hx => hvrest x (List.mem_of_mem_take hx)) ?hcont
        case hcont =>
          have hlen7 : (ms'.drop 7).length = ms'.length - 7 := by
            rw [List.length_drop]
          rw [h7]
          rw [show key + 1 + 7 = key + 8 from by omega]
          have := ihn (ms'.drop 7) (by rw [hlen7]; omega)
            (fun x hx => hrest x (List.mem_of_mem_drop hx))
            (fun x hx => hvrest x (List.mem_of_mem_drop hx))
            7 ((bitVal (m.token.value != 0) +
              2 * (packNum (memberBits (ms'.take 7)) + 2 ^ 7 * 0)) >>> 7)
            (key + 8) tail (by omega)
          rw [hlen7] at this
          rw [show key + 8 = key + 1 + 7 from by omega] at this
          exact this
        rw [h7] at hsplit
        rw [show 7 + (ms'.length - 7) = ms'.length from by omega] at hsplit
        rw [htk8, hpc, hdp8]
        rw [show ms'.length + 1 - 8 = ms'.length - 7 from by omega]
        rw [hsplit]
        rw [← hpc, ← htk8, hemit0]
        have hms := seriesTriples_append addr (ms'.take 7) (ms'.drop 7) (key + 1)
        rw [List.take_append_drop, h7] at hms
        simp only [← hms, seriesTriples]

/-- Reading back an emitted value: the decoder reconstructs the value
modulo the wire width, appending to the running accumulator. -/
theorem readValueBytes_OutputTokenValue :
    ∀ (n acc v : Nat) (s : List Nat),
      readValueBytes n acc (OutputTokenValue v n ++ s) =
        some (acc * 256 ^ n + v % 256 ^ n, s) := by
  intro n
  induction n with
  | zero =>
    intro acc v s
    simp [readValueBytes, OutputTokenValue, Nat.mod_one]
  | succ n ih =>
    intro acc v s
    rw [show OutputTokenValue v (n + 1) = (v >>> (8 * n)) % 256 :: OutputTokenValue v n
      from rfl]
    rw [List.cons_append]
    rw [show readValueBytes (n + 1) acc ((v >>> (8 * n)) % 256 :: (OutputTokenValue v n ++ s)) =
        readValueBytes n ((acc <<< 8) ||| ((v >>> (8 * n)) % 256)) (OutputTokenValue v n ++ s)
      from rfl]
    rw [ih]
    congr 2
    rw [shiftLeft_or_eq acc _ 8 (by omega)]
    have h256 : (256:Nat) ^ n = 2 ^ (8 * n) := by
      rw [show (256:Nat) = 2 ^ 8 from rfl, ← Nat.pow_mul]
    rw [Nat.shiftRight_eq_div_pow, ← h256]
    have hmod : v % 256 ^ (n + 1) = v % 256 ^ n + 256 ^ n * (v / 256 ^ n % 256) := by
      rw [Nat.pow_succ]
      exact Nat.mod_mul
    rw [hmod]
    have h2 : (2:Nat) ^ 8 = 256 := rfl
    rw [h2, Nat.pow_succ]
    ring

theorem readValueBytes_exact (n v : Nat) (s : List Nat) (hv : v < 256 ^ n) :
    readValueBytes n 0 (OutputTokenValue v n ++ s) = some (v, s) := by
  rw [readValueBytes_OutputTokenValue]
  rw [Nat.mod_eq_of_lt hv]
  simp

/-- The analog-series decode loop inverts the analog value serialisation. -/
theorem decompAnalog_spec (addr vsz : Nat) :
    ∀ (ms : List MTL_TOKEN) (key : Nat) (tail : List Nat),
      (∀ m ∈ ms, shouldBroadcast m = true) →
      (∀ m ∈ ms, m.token.value < 256 ^ vsz) →
      decompAnalog addr key vsz ms.length (analogValues ms vsz ms.length ++ tail) =
        (0, seriesTriples addr key ms, tail) := by
  intro ms
  induction ms with
  | nil =>
    intro key tail hall hvals
    rfl
  | cons m ms ih =>
    intro key tail hall hvals
    have hrest : ∀ x ∈ ms, shouldBroadcast x = true :=
      fun x hx => hall x (List.mem_cons_of_mem m hx)
    have hadv : advanceF (m :: ms) = ms := advanceF_cons_flagged m hrest
    simp only [List.length_cons]
    rw [show analogValues (m :: ms) vsz (ms.length + 1) =
        OutputTokenValue (headTokenValue (m :: ms)) vsz ++
          analogValues (advanceF (m :: ms)) vsz ms.length from rfl]
    rw [hadv, show headTokenValue (m :: ms) = m.token.value from rfl]
    rw [show decompAnalog addr key vsz (ms.length + 1)
          ((OutputTokenValue m.token.value vsz ++ analogValues ms vsz ms.length) ++ tail) =
        match readValueBytes vsz 0
            ((OutputTokenValue m.token.value vsz ++ analogValues ms vsz ms.length) ++ tail) with
        | none => (-1, [],
            (OutputTokenValue m.token.value vsz ++ analogValues ms vsz ms.length) ++ tail)
        | some (v, s1) =>
          ((decompAnalog addr (key + 1) vsz ms.length s1).1,
           ⟨addr, key, v⟩ :: (decompAnalog addr (key + 1) vsz ms.length s1).2.1,
           (decompAnalog addr (key + 1) vsz ms.length s1).2.2)
      from rfl]
    rw [List.append_assoc]
    rw [readValueBytes_exact vsz m.token.value _ (hvals m (List.mem_cons_self m ms))]
    dsimp only
    rw [ih (key + 1) tail hrest (fun x hx => hvals x (List.mem_cons_of_mem m hx))]
    simp [seriesTriples]

/-- The bitmap loop only reads as many members as it counts down. -/
theorem binaryBitmap_take :
    ∀ (count : Nat) (l : List MTL_TOKEN) (bit byte : Nat),
      (∀ m ∈ l, shouldBroadcast m = true) → count ≤ l.length →
      binaryBitmap l bit byte count = binaryBitmap (l.take count) bit byte count := by
  intro count
  induction count with
  | zero => intro l bit byte _ _; rfl
  | succ count ih =>
    intro l bit byte h hle
    cases l with
    | nil => simp at hle
    | cons m l2 =>
      rw [List.take_succ_cons]
      have hl2 : ∀ x ∈ l2, shouldBroadcast x = true :=
        fun x hx => h x (List.mem_cons_of_mem m hx)
      have htl2 : ∀ x ∈ l2.take count, shouldBroadcast x = true :=
        fun x hx => hl2 x (List.mem_of_mem_take hx)
      have hlen : count ≤ l2.length := by
        simp only [List.length_cons] at hle
        omega
      rw [show binaryBitmap (m :: l2) bit byte (count + 1) =
          if bit + 1 ≥ 8 then
            (if headTokenValue (m :: l2) ≠ 0 then byte ||| (1 <<< bit) else byte) ::
              binaryBitmap (advanceF (m :: l2)) 0 0 count
          else
            binaryBitmap (advanceF (m :: l2)) (bit + 1)
              (if headTokenValue (m :: l2) ≠ 0 then byte ||| (1 <<< bit) else byte) count
        from rfl]
      rw [show binaryBitmap (m :: l2.take count) bit byte (count + 1) =
          if bit + 1 ≥ 8 then
            (if headTokenValue (m :: l2.take count) ≠ 0 then byte ||| (1 <<< bit) else byte) ::
              binaryBitmap (advanceF (m :: l2.take count)) 0 0 count
          else
            binaryBitmap (advanceF (m :: l2.take count)) (bit + 1)
              (if headTokenValue (m :: l2.take count) ≠ 0 then byte ||| (1 <<< bit) else byte)
              count
        from rfl]
      rw [advanceF_cons_flagged m hl2, advanceF_cons_flagged m htl2]
      rw [show headTokenValue (m :: l2.take count) = headTokenValue (m :: l2) from rfl]
      by_cases h8 : bit + 1 ≥ 8
      · rw [if_pos h8, if_pos h8, ih l2 0 0 hl2 hlen]
      · rw [if_neg h8, if_neg h8, ih l2 (bit + 1) _ hl2 hlen]

/-- The analog value loop only reads as many members as it counts down. -/
theorem analogValues_take :
    ∀ (reps : Nat) (l : List MTL_TOKEN) (vsz : Nat),
      (∀ m ∈ l, shouldBroadcast m = true) → reps ≤ l.length →
      analogValues l vsz reps = analogValues (l.take reps) vsz reps := by
  intro reps
  induction reps with
  | zero => intro l vsz _ _; rfl
  | succ reps ih =>
    intro l vsz h hle
    cases l with
    | nil => simp at hle
    | cons m l2 =>
      rw [List.take_succ_cons]
      have hl2 : ∀ x ∈ l2, shouldBroadcast x = true :=
        fun x hx => h x (List.mem_cons_of_mem m hx)
      have htl2 : ∀ x ∈ l2.take reps, shouldBroadcast x = true :=
        fun x hx => hl2 x (List.mem_of_mem_take hx)
      have hlen : reps ≤ l2.length := by
        simp only [List.length_cons] at hle
        omega
      rw [show analogValues (m :: l2) vsz (reps + 1) =
          OutputTokenValue (headTokenValue (m :: l2)) vsz ++
            analogValues (advanceF (m :: l2)) vsz reps from rfl]
      rw [show analogValues (m :: l2.take reps) vsz (reps + 1) =
          OutputTokenValue (headTokenValue (m :: l2.take reps)) vsz ++
            analogValues (advanceF (m :: l2.take reps)) vsz reps from rfl]
      rw [advanceF_cons_flagged m hl2, advanceF_cons_flagged m htl2]
      rw [show headTokenValue (m :: l2.take reps) = headTokenValue (m :: l2) from rfl]
      rw [ih l2 vsz hl2 hlen]

/-- Prefix facts for a standard-token first byte (below the binary-repeat
prefix). -/
theorem stdPrefix_facts : ∀ b : Nat, b < 96 →
    ¬(128 < b &&& 224) ∧ ¬(b &&& 224 = 96) ∧ ¬(b &&& 224 = 128) := by decide

/-- Prefix facts for repeat header bytes built from a 5-bit count. -/
theorem repeatPrefix_facts : ∀ n : Nat, n < 32 →
    (n ||| 96) &&& 224 = 96 ∧ (n ||| 96) &&& 31 = n ∧
    (n ||| 128) &&& 224 = 128 ∧ (n ||| 128) &&& 31 = n := by decide

/-- The high key byte of a key below the repeat prefixes. -/
theorem key_hi_eq (key : Nat) (h : key < 24576) :
    (key >>> 8) % 256 = key >>> 8 ∧ key >>> 8 < 96 := by
  have h1 : key >>> 8 = key / 256 := by
    rw [Nat.shiftRight_eq_div_pow]
  rw [h1]
  omega

/-- Reassembling a 16-bit key from the two emitted key bytes. -/
theorem key_reconstruct (key : Nat) (h : key < 24576) :
    (((key >>> 8) % 256) <<< 8) ||| (key % 256) = key := by
  have h1 : key >>> 8 = key / 256 := by
    rw [Nat.shiftRight_eq_div_pow]
  rw [(key_hi_eq key h).1, h1]
  rw [shiftLeft_or_eq _ _ 8 (by omega)]
  simp only [show (2:Nat) ^ 8 = 256 from rfl]
  omega

/-- One iteration of the decompression loop on a standard token. -/
theorem decompLoop_std (addr fuel b kl : Nat) (s2 : List Nat)
    (h1 : ¬ (KeyPrefix_AnalogRepeat < b &&& KeyPrefix_Mask))
    (h2 : ¬ (b &&& KeyPrefix_Mask = KeyPrefix_BinaryRepeat))
    (h3 : ¬ (b &&& KeyPrefix_Mask = KeyPrefix_AnalogRepeat)) :
    decompLoop addr (fuel + 1) (b :: kl :: s2) =
      match readValueBytes (Key_ValueSize ((b <<< 8) ||| kl)) 0 s2 with
      | none => (-1, [])
      | some (v, s3) =>
        ((decompLoop addr fuel s3).1,
         (⟨addr, (b <<< 8) ||| kl, v⟩ : DToken) :: (decompLoop addr fuel s3).2) := by
  simp only [decompLoop]
  rw [if_neg h1]
  rw [if_neg (show ¬ (b &&& KeyPrefix_Mask = KeyPrefix_BinaryRepeat ∨
      b &&& KeyPrefix_Mask = KeyPrefix_AnalogRepeat) from not_or.mpr ⟨h2, h3⟩)]
  dsimp only
  rw [if_neg h3, if_neg h2]

/-- One iteration of the decompression loop on a binary-repeat header. -/
theorem decompLoop_binary (addr fuel n kh kl : Nat) (s2 : List Nat) (hn : n < 32) :
    decompLoop addr (fuel + 1) ((n ||| KeyPrefix_BinaryRepeat) :: kh :: kl :: s2) =
      match readValueBytes (Key_ValueSize ((kh <<< 8) ||| kl)) 0 s2 with
      | none => (-1, [])
      | some (v, s3) =>
        if (decompBinary addr v ((kh <<< 8) ||| kl) (n + 1) 8 0 s3).1 ≠ 0 then
          ((decompBinary addr v ((kh <<< 8) ||| kl) (n + 1) 8 0 s3).1,
           (decompBinary addr v ((kh <<< 8) ||| kl) (n + 1) 8 0 s3).2.1)
        else
          ((decompLoop addr fuel
              (decompBinary addr v ((kh <<< 8) ||| kl) (n + 1) 8 0 s3).2.2).1,
           (decompBinary addr v ((kh <<< 8) ||| kl) (n + 1) 8 0 s3).2.1 ++
             (decompLoop addr fuel
               (decompBinary addr v ((kh <<< 8) ||| kl) (n + 1) 8 0 s3).2.2).2) := by
  have hb : (n ||| KeyPrefix_BinaryRepeat) &&& KeyPrefix_Mask = KeyPrefix_BinaryRepeat := by
    simp only [KeyPrefix_BinaryRepeat, KeyPrefix_Mask]
    exact (repeatPrefix_facts n hn).1
  have hrep : (n ||| KeyPrefix_BinaryRepeat) &&& (MATRIX_MESSAGE_MAX_TOKEN_REPEATS - 1)
      = n := by
    simp only [KeyPrefix_BinaryRepeat, MATRIX_MESSAGE_MAX_TOKEN_REPEATS]
    exact (repeatPrefix_facts n hn).2.1
  simp only [decompLoop]
  rw [hb, hrep]
  rw [if_neg (show ¬ (KeyPrefix_AnalogRepeat < KeyPrefix_BinaryRepeat) from by decide)]
  rw [if_pos (Or.inl rfl)]
  dsimp only
  rw [if_neg (show ¬ (KeyPrefix_BinaryRepeat = KeyPrefix_AnalogRepeat) from by decide)]
  rw [if_pos rfl]

/-- One iteration of the decompression loop on an analog-repeat header. -/
theorem decompLoop_analog (addr fuel n kh kl : Nat) (s2 : List Nat) (hn : n < 32) :
    decompLoop addr (fuel + 1) ((n ||| KeyPrefix_AnalogRepeat) :: kh :: kl :: s2) =
      (if (decompAnalog addr ((kh <<< 8) ||| kl) (Key_ValueSize ((kh <<< 8) ||| kl))
          (n + 1) s2).1 ≠ 0 then
        ((decompAnalog addr ((kh <<< 8) ||| kl) (Key_ValueSize ((kh <<< 8) ||| kl))
            (n + 1) s2).1,
         (decompAnalog addr ((kh <<< 8) ||| kl) (Key_ValueSize ((kh <<< 8) ||| kl))
           (n + 1) s2).2.1)
      else
        ((decompLoop addr fuel
            (decompAnalog addr ((kh <<< 8) ||| kl) (Key_ValueSize ((kh <<< 8) ||| kl))
              (n + 1) s2).2.2).1,
         (decompAnalog addr ((kh <<< 8) ||| kl) (Key_ValueSize ((kh <<< 8) ||| kl))
           (n + 1) s2).2.1 ++
           (decompLoop addr fuel
             (decompAnalog addr ((kh <<< 8) ||| kl) (Key_ValueSize ((kh <<< 8) ||| kl))
               (n + 1) s2).2.2).2)) := by
  have hb : (n ||| KeyPrefix_AnalogRepeat) &&& KeyPrefix_Mask = KeyPrefix_AnalogRepeat := by
    simp only [KeyPrefix_AnalogRepeat, KeyPrefix_Mask]
    exact (repeatPrefix_facts n hn).2.2.1
  have hrep : (n ||| KeyPrefix_AnalogRepeat) &&& (MATRIX_MESSAGE_MAX_TOKEN_REPEATS - 1)
      = n := by
    simp only [KeyPrefix_AnalogRepeat, MATRIX_MESSAGE_MAX_TOKEN_REPEATS]
    exact (repeatPrefix_facts n hn).2.2.2
  simp only [decompLoop]
  rw [hb, hrep]
  rw [if_neg (show ¬ (KeyPrefix_AnalogRepeat < KeyPrefix_AnalogRepeat) from by decide)]
  rw [if_pos (Or.inr rfl)]
  dsimp only
  rw [if_pos rfl]

/-- Assembling the decoded series triples with the decoded remainder. -/
theorem triples_assemble (addr vsz : Nat) (t : MTL_TOKEN) (rest : List MTL_TOKEN) (k : Nat)
    (hvszt : Key_ValueSize t.token.key = vsz)
    (hchain : keyChain (t.token.key + 1) vsz (rest.take k)) :
    seriesTriples addr t.token.key (t :: rest.take k) ++
      (rest.drop k).map (fun m => (⟨addr, m.token.key, m.token.value⟩ : DToken)) =
      (t :: rest).map (fun m => (⟨addr, m.token.key, m.token.value⟩ : DToken)) := by
  rw [seriesTriples_eq_map addr (t :: rest.take k) t.token.key vsz ⟨rfl, hvszt, hchain⟩]
  rw [← List.map_append]
  congr 1
  rw [List.cons_append, List.take_append_drop]

/-- The common series value fits the wire width. -/
theorem scan_value_lt (vsz : Nat) (t : MTL_TOKEN) (rest : List MTL_TOKEN) (k : Nat) (v2 : Nat)
    (hvszt : Key_ValueSize t.token.key = vsz)
    (hsafet : t.token.value < 256 ^ Key_ValueSize t.token.key)
    (hsafer : ∀ m ∈ rest, m.token.value < 256 ^ Key_ValueSize m.token.key)
    (hchain : keyChain (t.token.key + 1) vsz (rest.take k))
    (hp5 : v2 = t.token.value ∨ ∃ m ∈ rest.take k, m.token.value = v2) :
    v2 < 256 ^ vsz := by
  rcases hp5 with rfl | ⟨m, hm, rfl⟩
  · rw [← hvszt]
    exact hsafet
  · have hv := keyChain_vsz (rest.take k) (t.token.key + 1) vsz hchain m hm
    rw [← hv]
    exact hsafer m (List.mem_of_mem_take hm)

/-- Main round-trip invariant: on an all-flagged, wire-safe table the
decompression loop run on the compression loop output reconstructs every
token, using at most one fuel unit per stream byte. -/
theorem decompLoop_compressLoop (addr : Nat) :
    ∀ (n : Nat) (F : List MTL_TOKEN), F.length ≤ n →
      (∀ m ∈ F, shouldBroadcast m = true) →
      (∀ m ∈ F, m.token.key < 24576 ∧ m.token.value < 256 ^ Key_ValueSize m.token.key) →
      ∀ fuel : Nat, (compressLoop F).length ≤ fuel →
      decompLoop addr fuel (compressLoop F) =
        (0, F.map (fun m => (⟨addr, m.token.key, m.token.value⟩ : DToken))) := by
  intro n
  induction n with
  | zero =>
    intro F hlen _ _ fuel _
    have h0 : F.length = 0 := by omega
    rcases List.length_eq_zero.mp h0 with rfl
    rw [show compressLoop ([] : List MTL_TOKEN) = [] from by rw [compressLoop]]
    cases fuel <;> rfl
  | succ n ihn =>
    intro F hlen hall hsafe fuel hfuel
    cases F with
    | nil =>
      rw [show compressLoop ([] : List MTL_TOKEN) = [] from by rw [compressLoop]]
      cases fuel <;> rfl
    | cons t rest =>
      have hflag : shouldBroadcast t = true := hall t (List.mem_cons_self t rest)
      have hrest : ∀ m ∈ rest, shouldBroadcast m = true :=
        fun m hm => hall m (List.mem_cons_of_mem t hm)
      have hsafet := hsafe t (List.mem_cons_self t rest)
      have hsafer : ∀ m ∈ rest,
          m.token.key < 24576 ∧ m.token.value < 256 ^ Key_ValueSize m.token.key :=
        fun m hm => hsafe m (List.mem_cons_of_mem t hm)
      have hlen2 : rest.length ≤ n := by
        simp only [List.length_cons] at hlen
        omega
      have hkhi := key_hi_eq t.token.key hsafet.1
      have hstd := stdPrefix_facts (t.token.key >>> 8) hkhi.2
      by_cases hvz : Key_ValueSize t.token.key = 0
      · -- zero-width key: a bare standard token
        have hv0 : t.token.value = 0 := by
          have := hsafet.2
          rw [hvz] at this
          simpa using this
        have hco : compressLoop (t :: rest) =
            ((t.token.key >>> 8) % 256) :: (t.token.key % 256) :: compressLoop rest := by
          rw [compressLoop]
          rw [if_neg (by simp [hflag])]
          rw [if_pos hvz]
          simp [OutputToken, OutputTokenKey, OutputTokenValue, hvz]
        rw [hco] at hfuel ⊢
        cases fuel with
        | zero =>
          simp only [List.length_cons] at hfuel
          omega
        | succ f =>
          rw [decompLoop_std addr f _ _ _
            (by rw [hkhi.1]; exact hstd.1)
            (by rw [hkhi.1]; exact hstd.2.1)
            (by rw [hkhi.1]; exact hstd.2.2)]
          rw [key_reconstruct t.token.key hsafet.1]
          rw [hvz]
          dsimp only [readValueBytes]
          rw [ihn rest hlen2 hrest hsafer f
            (by simp only [List.length_cons] at hfuel; omega)]
          simp [hv0]
      · obtain ⟨k, v2, nB2, hscan, hkle, hk31, hchain, hp4, hp5, hp6, hp7⟩ :=
          seriesScan_spec (Key_ValueSize t.token.key) rest t (t.token.key + 1)
            t.token.value 0 0 hrest (by omega)
        simp only [Nat.zero_add] at hscan
        by_cases hbin : nB2 ≠ 0 ∧ nB2 < 32
        · -- a binary series
          have hkeq : nB2 = k := by
            have := hp6 hbin.2
            omega
          have hkpos : k ≠ 0 := by omega
          have hktake : (rest.take k).length = k := by
            rw [List.length_take]
            omega
          have hvals : ∀ m ∈ t :: rest.take k, m.token.value = 0 ∨ m.token.value = v2 := by
            intro m hm
            rcases List.mem_cons.mp hm with heq | hm2
            · rw [heq]
              by_cases hz : t.token.value = 0
              · exact Or.inl hz
              · exact Or.inr (hp4 hz).symm
            · exact hp7 hbin.2 m hm2
          have hv2lt : v2 < 256 ^ Key_ValueSize t.token.key :=
            scan_value_lt _ t rest k v2 rfl hsafet.2
              (fun m hm => (hsafer m hm).2) hchain hp5
          have hbm : binaryBitmap (t :: rest) 0 0 (k + 1) =
              binaryBitmap (t :: rest.take k) 0 0 (k + 1) := by
            have := binaryBitmap_take (k + 1) (t :: rest) 0 0 hall
              (by simp only [List.length_cons]; omega)
            rw [this, List.take_succ_cons]
          have hco : compressLoop (t :: rest) =
              (k ||| KeyPrefix_BinaryRepeat) ::
                ((t.token.key >>> 8) % 256) :: (t.token.key % 256) ::
                (OutputTokenValue v2 (Key_ValueSize t.token.key) ++
                  (binaryBitmap (t :: rest.take k) 0 0 (k + 1) ++
                    compressLoop (rest.drop k))) := by
            rw [compressLoop]
            rw [if_neg (by simp [hflag])]
            rw [if_neg hvz]
            dsimp only
            rw [hscan]
            dsimp only
            simp only [MATRIX_MESSAGE_MAX_TOKEN_REPEATS]
            rw [if_pos hbin]
            rw [hkeq, hbm]
            rw [show advanceF^[k + 1] (t :: rest) = rest.drop k from by
              rw [advanceF_iterate_flagged (k + 1) (t :: rest) hall, List.drop_succ_cons]]
            simp [OutputTokenKey, List.append_assoc]
          rw [hco] at hfuel ⊢
          cases fuel with
          | zero =>
            simp only [List.length_cons] at hfuel
            omega
          | succ f =>
            rw [decompLoop_binary addr f k _ _ _ (by omega)]
            rw [key_reconstruct t.token.key hsafet.1]
            rw [readValueBytes_exact _ _ _ hv2lt]
            dsimp only
            have hchunk := decompBinary_chunk addr v2 (k + 1) (t :: rest.take k)
              (by simp only [List.length_cons, hktake]; omega)
              (by
                intro m hm
                rcases List.mem_cons.mp hm with heq | hm2
                · rw [heq]; exact hflag
                · exact hrest m (List.mem_of_mem_take hm2))
              hvals 8 0 t.token.key (compressLoop (rest.drop k)) (by omega)
            rw [show (t :: rest.take k).length = k + 1 from by
              simp only [List.length_cons, hktake]] at hchunk
            rw [hchunk]
            rw [if_neg (by simp)]
            rw [ihn (rest.drop k) (by rw [List.length_drop]; omega)
              (fun m hm => hrest m (List.mem_of_mem_drop hm))
              (fun m hm => hsafer m (List.mem_of_mem_drop hm)) f
              (by
                simp only [List.length_cons, List.length_append] at hfuel
                omega)]
            dsimp only
            rw [triples_assemble addr (Key_ValueSize t.token.key) t rest k rfl hchain]
        · -- not a binary series
          by_cases hana : k ≠ 0
          · -- an analog series
            have hktake : (rest.take k).length = k := by
              rw [List.length_take]
              omega
            have hvlt : ∀ m ∈ t :: rest.take k,
                m.token.value < 256 ^ Key_ValueSize t.token.key := by
              intro m hm
              rcases List.mem_cons.mp hm with heq | hm2
              · rw [heq]; exact hsafet.2
              · have hv := keyChain_vsz (rest.take k) (t.token.key + 1) _ hchain m hm2
                rw [← hv]
                exact (hsafer m (List.mem_of_mem_take hm2)).2
            have hco : compressLoop (t :: rest) =
                (k ||| KeyPrefix_AnalogRepeat) ::
                  ((t.token.key >>> 8) % 256) :: (t.token.key % 256) ::
                  (OutputTokenValue t.token.value (Key_ValueSize t.token.key) ++
                    (analogValues (rest.take k) (Key_ValueSize t.token.key) k ++
                      compressLoop (rest.drop k))) := by
              rw [compressLoop]
              rw [if_neg (by simp [hflag])]
              rw [if_neg hvz]
              dsimp only
              rw [hscan]
              dsimp only
              simp only [MATRIX_MESSAGE_MAX_TOKEN_REPEATS]
              rw [if_neg hbin]
              rw [if_pos hana]
              rw [show advanceF (t :: rest) = rest from advanceF_cons_flagged t hrest]
              rw [analogValues_take k rest _ hrest (by omega)]
              rw [show advanceF^[k + 1] (t :: rest) = rest.drop k from by
                rw [advanceF_iterate_flagged (k + 1) (t :: rest) hall, List.drop_succ_cons]]
              simp [OutputToken, OutputTokenKey, List.append_assoc]
            rw [hco] at hfuel ⊢
            cases fuel with
            | zero =>
              simp only [List.length_cons] at hfuel
              omega
            | succ f =>
              rw [decompLoop_analog addr f k _ _ _ (by omega)]
              rw [key_reconstruct t.token.key hsafet.1]
              have hspec := decompAnalog_spec addr (Key_ValueSize t.token.key)
                (t :: rest.take k) t.token.key (compressLoop (rest.drop k))
                (by
                  intro m hm
                  rcases List.mem_cons.mp hm with heq | hm2
                  · rw [heq]; exact hflag
                  · exact hrest m (List.mem_of_mem_take hm2))
                hvlt
              rw [show (t :: rest.take k).length = k + 1 from by
                simp only [List.length_cons, hktake]] at hspec
              rw [show analogValues (t :: rest.take k) (Key_ValueSize t.token.key) (k + 1) =
                  OutputTokenValue t.token.value (Key_ValueSize t.token.key) ++
                    analogValues (rest.take k) (Key_ValueSize t.token.key) k from by
                rw [show analogValues (t :: rest.take k) (Key_ValueSize t.token.key) (k + 1) =
                    OutputTokenValue (headTokenValue (t :: rest.take k))
                      (Key_ValueSize t.token.key) ++
                      analogValues (advanceF (t :: rest.take k)) (Key_ValueSize t.token.key) k
                  from rfl]
                rw [advanceF_cons_flagged t
                  (fun m hm => hrest m (List.mem_of_mem_take hm))]
                rfl] at hspec
              rw [List.append_assoc] at hspec
              rw [hspec]
              rw [if_neg (by simp)]
              rw [ihn (rest.drop k) (by rw [List.length_drop]; omega)
                (fun m hm => hrest m (List.mem_of_mem_drop hm))
                (fun m hm => hsafer m (List.mem_of_mem_drop hm)) f
                (by
                  simp only [List.length_cons, List.length_append] at hfuel
                  omega)]
              dsimp only
              rw [triples_assemble addr (Key_ValueSize t.token.key) t rest k rfl hchain]
          · -- a lone token with a value
            have hco : compressLoop (t :: rest) =
                ((t.token.key >>> 8) % 256) :: (t.token.key % 256) ::
                  (OutputTokenValue t.token.value (Key_ValueSize t.token.key) ++
                    compressLoop rest) := by
              rw [compressLoop]
              rw [if_neg (by simp [hflag])]
              rw [if_neg hvz]
              dsimp only
              rw [hscan]
              dsimp only
              simp only [MATRIX_MESSAGE_MAX_TOKEN_REPEATS]
              rw [if_neg hbin]
              rw [if_neg hana]
              simp [OutputToken, OutputTokenKey]
            rw [hco] at hfuel ⊢
            cases fuel with
            | zero =>
              simp only [List.length_cons] at hfuel
              omega
            | succ f =>
              rw [decompLoop_std addr f _ _ _
                (by rw [hkhi.1]; exact hstd.1)
                (by rw [hkhi.1]; exact hstd.2.1)
                (by rw [hkhi.1]; exact hstd.2.2)]
              rw [key_reconstruct t.token.key hsafet.1]
              rw [readValueBytes_exact _ _ _ hsafet.2]
              dsimp only
              rw [ihn rest hlen2 hrest hsafer f
                (by
                  simp only [List.length_cons, List.length_append] at hfuel
                  omega)]
              rfl

/-- Filtering for flagged entries ignores a leading unflagged run. -/
theorem filter_dropWhile_not :
    ∀ (r : List MTL_TOKEN),
      (r.dropWhile (fun t => ! shouldBroadcast t)).filter shouldBroadcast =
        r.filter shouldBroadcast := by
  intro r
  induction r with
  | nil => rfl
  | cons x r ih =>
    by_cases hx : shouldBroadcast x = true
    · rw [List.dropWhile_cons_of_neg (by simp [hx])]
    · rw [List.dropWhile_cons_of_pos (by simp [hx])]
      rw [ih, List.filter_cons_of_neg (by simp [hx])]

/-- The cursor advance lands on a flagged entry or the table end. -/
theorem advanceF_head_flagged :
    ∀ (l : List MTL_TOKEN), advanceF l = [] ∨
      ∃ c r2, advanceF l = c :: r2 ∧ shouldBroadcast c = true := by
  intro l
  cases l with
  | nil => exact Or.inl rfl
  | cons x r =>
    rw [show advanceF (x :: r) = r.dropWhile (fun t => ! shouldBroadcast t) from rfl]
    induction r with
    | nil => exact Or.inl rfl
    | cons y r ih =>
      by_cases hy : shouldBroadcast y = true
      · right
        exact ⟨y, r, by rw [List.dropWhile_cons_of_neg (by simp [hy])], hy⟩
      · rw [List.dropWhile_cons_of_pos (by simp [hy])]
        exact ih

/-- Cleansing commutes with the cursor advance. -/
theorem cleanse_advanceF (l : List MTL_TOKEN) :
    advanceF (cleanse l) = cleanse (advanceF l) := by
  cases l with
  | nil => rfl
  | cons x r =>
    rw [show cleanse (x :: r) = x :: r.filter shouldBroadcast from rfl]
    rw [advanceF_cons_flagged x (fun m hm => List.of_mem_filter hm)]
    rw [show advanceF (x :: r) = r.dropWhile (fun t => ! shouldBroadcast t) from rfl]
    rcases advanceF_head_flagged (x :: r) with h | ⟨c, r2, h, hc⟩ <;>
      rw [show advanceF (x :: r) = r.dropWhile (fun t => ! shouldBroadcast t) from rfl] at h
    · rw [h]
      have : r.filter shouldBroadcast = [] := by
        rw [← filter_dropWhile_not r, h]
        rfl
      rw [this]
      rfl
    · rw [h]
      rw [show cleanse (c :: r2) = c :: r2.filter shouldBroadcast from rfl]
      rw [← filter_dropWhile_not r, h]
      rw [List.filter_cons_of_pos hc]

/-- Cleansing commutes with iterated cursor advances. -/
theorem cleanse_advanceF_iterate :
    ∀ (n : Nat) (l : List MTL_TOKEN),
      advanceF^[n] (cleanse l) = cleanse (advanceF^[n] l) := by
  intro n
  induction n with
  | zero => intro l; rfl
  | succ n ih =>
    intro l
    rw [Function.iterate_succ_apply, Function.iterate_succ_apply]
    rw [cleanse_advanceF l, ih (advanceF l)]

/-- After at least one advance, cleansing is plain filtering. -/
theorem cleanse_eq_filter_adv (l : List MTL_TOKEN) :
    cleanse (advanceF l) = (advanceF l).filter shouldBroadcast := by
  rcases advanceF_head_flagged l with h | ⟨c, r2, h, hc⟩
  · rw [h]
    rfl
  · rw [h]
    rw [show cleanse (c :: r2) = c :: r2.filter shouldBroadcast from rfl]
    rw [List.filter_cons_of_pos hc]

/-- The cursor head is unchanged by cleansing. -/
theorem headTokenValue_cleanse (l : List MTL_TOKEN) :
    headTokenValue (cleanse l) = headTokenValue l := by
  cases l <;> rfl

/-- The bitmap loop sees the same members on a cleansed table. -/
theorem binaryBitmap_cleanse :
    ∀ (count : Nat) (l : List MTL_TOKEN) (bit byte : Nat),
      binaryBitmap (cleanse l) bit byte count = binaryBitmap l bit byte count := by
  intro count
  induction count with
  | zero => intro l bit byte; rfl
  | succ count ih =>
    intro l bit byte
    rw [show binaryBitmap (cleanse l) bit byte (count + 1) =
        if bit + 1 ≥ 8 then
          (if headTokenValue (cleanse l) ≠ 0 then byte ||| (1 <<< bit) else byte) ::
            binaryBitmap (advanceF (cleanse l)) 0 0 count
        else
          binaryBitmap (advanceF (cleanse l)) (bit + 1)
            (if headTokenValue (cleanse l) ≠ 0 then byte ||| (1 <<< bit) else byte) count
      from rfl]
    rw [show binaryBitmap l bit byte (count + 1) =
        if bit + 1 ≥ 8 then
          (if headTokenValue l ≠ 0 then byte ||| (1 <<< bit) else byte) ::
            binaryBitmap (advanceF l) 0 0 count
        else
          binaryBitmap (advanceF l) (bit + 1)
            (if headTokenValue l ≠ 0 then byte ||| (1 <<< bit) else byte) count
      from rfl]
    rw [headTokenValue_cleanse l, cleanse_advanceF l]
    rw [ih (advanceF l) 0 0]
    rw [ih (advanceF l) (bit + 1) (if headTokenValue l ≠ 0 then byte ||| (1 <<< bit) else byte)]

/-- The analog value loop sees the same members on a cleansed table. -/
theorem analogValues_cleanse :
    ∀ (reps : Nat) (l : List MTL_TOKEN) (vsz : Nat),
      analogValues (cleanse l) vsz reps = analogValues l vsz reps := by
  intro reps
  induction reps with
  | zero => intro l vsz; rfl
  | succ reps ih =>
    intro l vsz
    rw [show analogValues (cleanse l) vsz (reps + 1) =
        OutputTokenValue (headTokenValue (cleanse l)) vsz ++
          analogValues (advanceF (cleanse l)) vsz reps from rfl]
    rw [show analogValues l vsz (reps + 1) =
        OutputTokenValue (headTokenValue l) vsz ++
          analogValues (advanceF l) vsz reps from rfl]
    rw [headTokenValue_cleanse l, cleanse_advanceF l, ih (advanceF l)]

/-- The series scan sees the same members on a cleansed table. -/
theorem seriesScan_cleanse :
    ∀ (N : Nat) (cmp : List MTL_TOKEN), cmp.length ≤ N →
      ∀ (vsz key value nB nA : Nat),
        seriesScan vsz key value nB nA (cleanse cmp) =
          seriesScan vsz key value nB nA cmp := by
  intro N
  induction N with
  | zero =>
    intro cmp hlen vsz key value nB nA
    have h0 : cmp.length = 0 := by omega
    rcases List.length_eq_zero.mp h0 with rfl
    rfl
  | succ N ih =>
    intro cmp hlen vsz key value nB nA
    by_cases hg : nA < 31
    · rcases advanceF_head_flagged cmp with h | ⟨c, r2, h, hc⟩
      · have hcl : advanceF (cleanse cmp) = [] := by
          rw [cleanse_advanceF cmp, h]
          rfl
        rw [seriesScan_nil_adv _ _ _ _ _ _ hcl, seriesScan_nil_adv _ _ _ _ _ _ h]
      · have hcl : advanceF (cleanse cmp) = c :: r2.filter shouldBroadcast := by
          rw [cleanse_advanceF cmp, h]
          rfl
        rw [seriesScan_cons_adv _ _ _ _ _ _ c (r2.filter shouldBroadcast) hcl hg]
        rw [seriesScan_cons_adv _ _ _ _ _ _ c r2 h hg]
        by_cases hmatch : c.token.key ≠ key ∨ Key_ValueSize c.token.key ≠ vsz
        · rw [if_pos hmatch, if_pos hmatch]
        · rw [if_neg hmatch, if_neg hmatch]
          have hlt : (c :: r2).length ≤ N := by
            cases cmp with
            | nil => simp [advanceF] at h
            | cons x r =>
              have : (c :: r2).length ≤ r.length := by
                rw [show advanceF (x :: r) =
                  r.dropWhile (fun t => ! shouldBroadcast t) from rfl] at h
                rw [← h]
                exact (List.dropWhile_sublist _).length_le
              simp only [List.length_cons] at hlen ⊢
              simp only [List.length_cons] at this
              omega
          rw [show c :: r2.filter shouldBroadcast = cleanse (c :: r2) from rfl]
          exact ih (c :: r2) hlt vsz (key + 1) _ _ (nA + 1)
    · rw [seriesScan, seriesScan]
      simp only [MATRIX_MESSAGE_MAX_TOKEN_REPEATS]
      rw [if_neg (by omega), if_neg (by omega)]

/-- The compression loop depends only on the broadcast-flagged entries:
never-broadcast entries are skipped exactly as if they were absent. -/
theorem compressLoop_filter :
    ∀ (N : Nat) (l : List MTL_TOKEN), l.length ≤ N →
      compressLoop l = compressLoop (l.filter shouldBroadcast) := by
  intro N
  induction N with
  | zero =>
    intro l hlen
    have h0 : l.length = 0 := by omega
    rcases List.length_eq_zero.mp h0 with rfl
    rfl
  | succ N ih =>
    intro l hlen
    cases l with
    | nil => rfl
    | cons t rest =>
      simp only [List.length_cons] at hlen
      by_cases hflag : shouldBroadcast t = true
      · rw [List.filter_cons_of_pos hflag]
        have hsc : ∀ vsz key value nB nA : Nat,
            seriesScan vsz key value nB nA (t :: rest.filter shouldBroadcast) =
              seriesScan vsz key value nB nA (t :: rest) := by
          intro vsz key value nB nA
          rw [show t :: rest.filter shouldBroadcast = cleanse (t :: rest) from rfl]
          exact seriesScan_cleanse (N + 1) (t :: rest)
            (by simp only [List.length_cons]; omega) vsz key value nB nA
        conv_lhs => rw [compressLoop]
        conv_rhs => rw [compressLoop]
        rw [if_neg (show ¬((!shouldBroadcast t) = true) from by simp [hflag])]
        rw [if_neg (show ¬((!shouldBroadcast t) = true) from by simp [hflag])]
        by_cases hvz : Key_ValueSize t.token.key = 0
        · rw [if_pos hvz, if_pos hvz]
          rw [ih rest (by omega)]
        · rw [if_neg hvz, if_neg hvz]
          dsimp only
          rw [hsc]
          generalize seriesScan (Key_ValueSize t.token.key) (t.token.key + 1)
            t.token.value 0 0 (t :: rest) = S
          by_cases hbin : S.2.1 ≠ 0 ∧ S.2.1 < MATRIX_MESSAGE_MAX_TOKEN_REPEATS
          · rw [if_pos hbin, if_pos hbin]
            rw [show (t :: rest.filter shouldBroadcast) = cleanse (t :: rest) from rfl]
            rw [binaryBitmap_cleanse (S.2.1 + 1) (t :: rest) 0 0]
            rw [cleanse_advanceF_iterate (S.2.1 + 1) (t :: rest)]
            rw [Function.iterate_succ_apply']
            rw [cleanse_eq_filter_adv (advanceF^[S.2.1] (t :: rest))]
            rw [← ih (advanceF (advanceF^[S.2.1] (t :: rest)))
              (by
                have hlt := advanceF_iterate_cons_length t rest S.2.1
                rw [Function.iterate_succ_apply'] at hlt
                simp only [List.length_cons] at hlt
                omega)]
          · rw [if_neg hbin, if_neg hbin]
            by_cases hana : S.2.2 ≠ 0
            · rw [if_pos hana, if_pos hana]
              rw [show (t :: rest.filter shouldBroadcast) = cleanse (t :: rest) from rfl]
              rw [cleanse_advanceF (t :: rest)]
              rw [analogValues_cleanse S.2.2 (advanceF (t :: rest))]
              rw [cleanse_advanceF_iterate (S.2.2 + 1) (t :: rest)]
              rw [Function.iterate_succ_apply']
              rw [cleanse_eq_filter_adv (advanceF^[S.2.2] (t :: rest))]
              rw [← ih (advanceF (advanceF^[S.2.2] (t :: rest)))
                (by
                  have hlt := advanceF_iterate_cons_length t rest S.2.2
                  rw [Function.iterate_succ_apply'] at hlt
                  simp only [List.length_cons] at hlt
                  omega)]
            · rw [if_neg hana, if_neg hana]
              rw [ih rest (by omega)]
      · rw [List.filter_cons_of_neg (by simp [hflag])]
        conv_lhs => rw [compressLoop]
        rw [if_pos (show (!shouldBroadcast t) = true from by simp [hflag])]
        exact ih rest (by omega)

/-- A broadcast-flagged entry always contributes at least one stream
byte. -/
theorem compressLoop_cons_ne_nil (t : MTL_TOKEN) (rest : List MTL_TOKEN)
    (hflag : shouldBroadcast t = true) : compressLoop (t :: rest) ≠ [] := by
  rw [compressLoop]
  rw [if_neg (by simp [hflag])]
  by_cases hvz : Key_ValueSize t.token.key = 0
  · rw [if_pos hvz]
    simp [OutputToken, OutputTokenKey]
  · rw [if_neg hvz]
    dsimp only
    split
    · simp
    · split
      · simp
      · simp [OutputToken, OutputTokenKey]

/-- Right shifts distribute over bitwise and. -/
theorem shiftRight_and_distrib (x y n : Nat) : (x &&& y) >>> n = (x >>> n) &&& (y >>> n) := by
  apply Nat.eq_of_testBit_eq
  intro i
  simp [Nat.testBit_shiftRight, Nat.testBit_and]

/-- A 16-bit key carrying an input- or output-status prefix lies below
the repeat prefixes. -/
theorem status_key_lt (key : Nat) (h16 : key < 65536) (hc : mtlBroadcastCondition key = true) :
    key < 24576 := by
  have hio : key &&& 57344 = 16384 ∨ key &&& 57344 = 8192 := by
    unfold mtlBroadcastCondition at hc
    simp only [Bool.and_eq_true, Bool.or_eq_true] at hc
    rcases hc with ⟨_, h | h⟩
    · left
      unfold Key_IsInputStatus at h
      simpa using h
    · right
      unfold Key_IsOutputStatus at h
      simpa using h
  have hd : key >>> 13 = key / 8192 := by
    rw [Nat.shiftRight_eq_div_pow]
  have h8 : key / 8192 < 8 := by omega
  have hlow : ∀ c : Nat, key &&& 57344 = c → key / 8192 = c >>> 13 := by
    intro c h
    have h2 := congrArg (fun z => z >>> 13) h
    simp only [shiftRight_and_distrib] at h2
    rw [show (57344 : Nat) >>> 13 = 7 from by decide] at h2
    have h3 : (key >>> 13) &&& 7 = key >>> 13 % 8 := by
      have h4 := Nat.and_pow_two_sub_one_eq_mod (key >>> 13) 3
      norm_num at h4
      exact h4
    rw [h3, hd] at h2
    rw [← h2, Nat.mod_eq_of_lt h8]
  rcases hio with h | h
  · have := hlow 16384 h
    rw [show (16384 : Nat) >>> 13 = 2 from by decide] at this
    omega
  · have := hlow 8192 h
    rw [show (8192 : Nat) >>> 13 = 1 from by decide] at this
    omega

/-- Decompression of a compression-loop stream recovers exactly the
broadcast-flagged triples, for any table whose flagged entries are
wire-safe. -/
theorem codec_decompress_compress (addr : Nat) (tokens : List MTL_TOKEN)
    (hsafe : ∀ m ∈ tokens, shouldBroadcast m = true →
      m.token.key < 24576 ∧ m.token.value < 256 ^ Key_ValueSize m.token.key) :
    (MatrixCodec_Decompress (compressLoop tokens) addr).2 = broadcastTriples addr tokens ∧
    (tokens.filter shouldBroadcast ≠ [] →
      (MatrixCodec_Decompress (compressLoop tokens) addr).1 = 0) := by
  have hffs : ∀ m ∈ tokens.filter shouldBroadcast, shouldBroadcast m = true :=
    fun m hm => List.of_mem_filter hm
  have hfsafe : ∀ m ∈ tokens.filter shouldBroadcast,
      m.token.key < 24576 ∧ m.token.value < 256 ^ Key_ValueSize m.token.key :=
    fun m hm => hsafe m (List.mem_of_mem_filter hm) (List.of_mem_filter hm)
  have hbr := compressLoop_filter tokens.length tokens le_rfl
  unfold MatrixCodec_Decompress
  by_cases hs : (compressLoop tokens).length = 0
  · rw [if_pos hs]
    have hfe : tokens.filter shouldBroadcast = [] := by
      cases hf : tokens.filter shouldBroadcast with
      | nil => rfl
      | cons c r =>
        exfalso
        have hcne : compressLoop (c :: r) ≠ [] :=
          compressLoop_cons_ne_nil c r (hffs c (by rw [hf]; exact List.mem_cons_self c r))
        rw [hf] at hbr
        rw [hbr] at hs
        exact hcne (List.length_eq_zero.mp hs)
    constructor
    · simp [broadcastTriples, hfe]
    · intro hne
      exact absurd hfe hne
  · rw [if_neg hs]
    rw [hbr]
    rw [decompLoop_compressLoop addr (tokens.filter shouldBroadcast).length
      (tokens.filter shouldBroadcast) le_rfl hffs hfsafe
      (compressLoop (tokens.filter shouldBroadcast)).length le_rfl]
    constructor
    · rfl
    · intro _
      rfl

/-- Series triples with a generalised value function, over an appended
list. -/
theorem seriesTriplesV_append (addr : Nat) (vf : MTL_TOKEN → Nat) :
    ∀ (A B : List MTL_TOKEN) (key : Nat),
      seriesTriplesV addr vf key (A ++ B) =
        seriesTriplesV addr vf key A ++ seriesTriplesV addr vf (key + A.length) B := by
  intro A
  induction A with
  | nil => intro B key; simp [seriesTriplesV]
  | cons a A ih =>
    intro B key
    simp only [List.cons_append, seriesTriplesV, List.length_cons, List.append_eq]
    rw [ih B (key + 1), show key + 1 + A.length = key + (A.length + 1) from by omega]

/-- On a key series, the keys of the generalised series triples are the
keys of the members themselves, whatever the decoded values are. -/
theorem seriesTriplesV_keys (addr : Nat) (vf : MTL_TOKEN → Nat) :
    ∀ (ms : List MTL_TOKEN) (key vsz : Nat), keyChain key vsz ms →
      (seriesTriplesV addr vf key ms).map (fun d => d.key) =
        ms.map (fun m => m.token.key) := by
  intro ms
  induction ms with
  | nil => intro key vsz _; rfl
  | cons m ms ih =>
    intro key vsz h
    obtain ⟨hk, _, hchain⟩ := h
    simp only [seriesTriplesV, List.map_cons]
    rw [ih (key + 1) vsz hchain, hk]

/-- Reading back an emitted value with no bound on the value: the
decoder reconstructs it modulo the wire width. -/
theorem readValueBytes_mod (n v : Nat) (s : List Nat) :
    readValueBytes n 0 (OutputTokenValue v n ++ s) = some (v % 256 ^ n, s) := by
  rw [readValueBytes_OutputTokenValue]
  simp

/-- Splitting the binary-repeat decode loop at a mid-byte position,
with no assumption on the member values: the members whose bits sit in
the current flag word are emitted with the transmitted common value or
zero, then the loop continues in the state reached after them. -/
theorem decompBinary_split_gen (addr v : Nat) :
    ∀ (ms : List MTL_TOKEN) (x : Bool) (g j key R : Nat) (s : List Nat)
      (r : Int × List DToken × List Nat),
      ms.length + j ≤ 7 →
      decompBinary addr v (key + ms.length) R (j + ms.length)
          ((bitVal x + 2 * (packNum (memberBits ms) + 2 ^ ms.length * g)) >>> ms.length) s
        = r →
      decompBinary addr v key (ms.length + R) j
          (bitVal x + 2 * (packNum (memberBits ms) + 2 ^ ms.length * g)) s =
        (r.1, seriesTriplesV addr (fun t => if t.token.value ≠ 0 then v else 0) key ms ++ r.2.1, r.2.2) := by
  intro ms
  induction ms with
  | nil =>
    intro x g j key R s r hj hcont
    simp only [List.length_nil, Nat.add_zero, Nat.zero_add, Nat.shiftRight_zero] at hcont ⊢
    rw [hcont]
    simp [seriesTriplesV]
  | cons m ms ih =>
    intro x g j key R s r hj hcont
    simp only [List.length_cons] at hj hcont ⊢
    have hf1 : (bitVal x + 2 * (packNum (memberBits (m :: ms)) + 2 ^ (ms.length + 1) * g)) >>> 1
        = bitVal (m.token.value != 0) +
            2 * (packNum (memberBits ms) + 2 ^ ms.length * g) := by
      rw [Nat.shiftRight_one]
      have hpc : packNum (memberBits (m :: ms)) =
          bitVal (m.token.value != 0) + 2 * packNum (memberBits ms) := by
        simp [memberBits, packNum]
      have hdiv : ∀ (y : Bool) (A : Nat), (bitVal y + 2 * A) / 2 = A := by
        intro y A
        cases y <;> simp [bitVal] <;> omega
      rw [hpc, show bitVal x +
          2 * (bitVal (m.token.value != 0) + 2 * packNum (memberBits ms) +
            2 ^ (ms.length + 1) * g) =
          bitVal x + 2 * (bitVal (m.token.value != 0) + 2 * packNum (memberBits ms) +
            2 ^ (ms.length + 1) * g) from rfl]
      rw [hdiv x]
      rw [Nat.pow_succ]
      ring
    rw [show ms.length + 1 + R = (ms.length + R) + 1 from by omega]
    rw [show decompBinary addr v key ((ms.length + R) + 1) j
        (bitVal x + 2 * (packNum (memberBits (m :: ms)) + 2 ^ (ms.length + 1) * g)) s =
        if j + 1 ≥ 8 then
          match s with
          | [] => (-1, [], s)
          | b :: r =>
            ((decompBinary addr v (key + 1) (ms.length + R) 0 b r).1,
             ⟨addr, key, if b &&& 1 ≠ 0 then v else 0⟩ ::
               (decompBinary addr v (key + 1) (ms.length + R) 0 b r).2.1,
             (decompBinary addr v (key + 1) (ms.length + R) 0 b r).2.2)
        else
          ((decompBinary addr v (key + 1) (ms.length + R) (j + 1)
              ((bitVal x + 2 * (packNum (memberBits (m :: ms)) + 2 ^ (ms.length + 1) * g)) >>> 1)
              s).1,
           ⟨addr, key,
             if ((bitVal x + 2 * (packNum (memberBits (m :: ms)) + 2 ^ (ms.length + 1) * g)) >>> 1)
                 &&& 1 ≠ 0 then v else 0⟩ ::
             (decompBinary addr v (key + 1) (ms.length + R) (j + 1)
               ((bitVal x + 2 * (packNum (memberBits (m :: ms)) + 2 ^ (ms.length + 1) * g)) >>> 1)
               s).2.1,
           (decompBinary addr v (key + 1) (ms.length + R) (j + 1)
             ((bitVal x + 2 * (packNum (memberBits (m :: ms)) + 2 ^ (ms.length + 1) * g)) >>> 1)
             s).2.2)
      from rfl]
    rw [if_neg (by omega)]
    rw [hf1]
    have hcont' : decompBinary addr v ((key + 1) + ms.length) R ((j + 1) + ms.length)
        ((bitVal (m.token.value != 0) +
          2 * (packNum (memberBits ms) + 2 ^ ms.length * g)) >>> ms.length) s = r := by
      rw [show (key + 1) + ms.length = key + (ms.length + 1) from by omega]
      rw [show (j + 1) + ms.length = j + (ms.length + 1) from by omega]
      rw [← hf1]
      rw [← Nat.shiftRight_add]
      rw [show 1 + ms.length = ms.length + 1 from by omega]
      exact hcont
    rw [ih (m.token.value != 0) g (j + 1) (key + 1) R s r (by omega) hcont']
    have hemit : (if (bitVal (m.token.value != 0) +
        2 * (packNum (memberBits ms) + 2 ^ ms.length * g)) &&& 1 ≠ 0 then v else 0)
        = (if m.token.value ≠ 0 then v else 0) := by
      rw [Nat.and_one_is_mod]
      by_cases hz : m.token.value = 0
      · have hb : bitVal (m.token.value != 0) = 0 := by simp [hz, bitVal]
        rw [hb]
        rw [if_neg (by omega), if_neg (by omega)]
      · have hb : bitVal (m.token.value != 0) = 1 := by simp [hz, bitVal]
        rw [hb]
        rw [if_pos (by omega), if_pos hz]
    rw [hemit]
    simp [seriesTriplesV]


/-- The binary-repeat decode loop applied to the bitmap serialisation
of an arbitrary all-flagged member list: each member decodes to the
transmitted common value when its value is non-zero and to zero
otherwise, and the trailing stream is untouched. -/
theorem decompBinary_chunk_gen (addr v : Nat) :
    ∀ (n : Nat) (ms : List MTL_TOKEN), ms.length ≤ n →
      (∀ m ∈ ms, shouldBroadcast m = true) →
      ∀ (j f key : Nat) (tail : List Nat), 7 ≤ j →
        decompBinary addr v key ms.length j f (binaryBitmap ms 0 0 ms.length ++ tail) =
          (0, seriesTriplesV addr (fun t => if t.token.value ≠ 0 then v else 0) key ms, tail) := by
  intro n
  induction n with
  | zero =>
    intro ms hlen hall j f key tail hj
    have h0 : ms.length = 0 := by omega
    rcases List.length_eq_zero.mp h0 with rfl
    rfl
  | succ n ihn =>
    intro ms hlen hall j f key tail hj
    match ms with
    | [] => rfl
    | m :: ms' =>
      have hrest : ∀ x ∈ ms', shouldBroadcast x = true :=
        fun x hx => hall x (List.mem_cons_of_mem m hx)
      have hbm := binaryBitmap_spec (m :: ms') 0 0 hall (by omega) (by omega) (by simp)
      simp only [Nat.sub_zero, Nat.add_zero, Nat.pow_zero, Nat.zero_add, Nat.one_mul] at hbm
      simp only [List.length_cons] at hbm hlen ⊢
      rw [hbm]
      rw [show (packNum (memberBits ((m :: ms').take 8)) ::
            (if ms'.length + 1 ≤ 8 then []
             else binaryBitmap ((m :: ms').drop 8) 0 0 (ms'.length + 1 - 8))) ++ tail =
          packNum (memberBits ((m :: ms').take 8)) ::
            ((if ms'.length + 1 ≤ 8 then []
              else binaryBitmap ((m :: ms').drop 8) 0 0 (ms'.length + 1 - 8)) ++ tail)
        from rfl]
      rw [show decompBinary addr v key (ms'.length + 1) j f
            (packNum (memberBits ((m :: ms').take 8)) ::
              ((if ms'.length + 1 ≤ 8 then []
                else binaryBitmap ((m :: ms').drop 8) 0 0 (ms'.length + 1 - 8)) ++ tail)) =
          if j + 1 ≥ 8 then
            ((decompBinary addr v (key + 1) ms'.length 0
                (packNum (memberBits ((m :: ms').take 8)))
                ((if ms'.length + 1 ≤ 8 then []
                  else binaryBitmap ((m :: ms').drop 8) 0 0 (ms'.length + 1 - 8)) ++ tail)).1,
             ⟨addr, key,
               if packNum (memberBits ((m :: ms').take 8)) &&& 1 ≠ 0 then v else 0⟩ ::
               (decompBinary addr v (key + 1) ms'.length 0
                 (packNum (memberBits ((m :: ms').take 8)))
                 ((if ms'.length + 1 ≤ 8 then []
                   else binaryBitmap ((m :: ms').drop 8) 0 0 (ms'.length + 1 - 8)) ++ tail)).2.1,
             (decompBinary addr v (key + 1) ms'.length 0
               (packNum (memberBits ((m :: ms').take 8)))
               ((if ms'.length + 1 ≤ 8 then []
                 else binaryBitmap ((m :: ms').drop 8) 0 0 (ms'.length + 1 - 8)) ++ tail)).2.2)
          else
            ((decompBinary addr v (key + 1) ms'.length (j + 1) (f >>> 1)
                (packNum (memberBits ((m :: ms').take 8)) ::
                  ((if ms'.length + 1 ≤ 8 then []
                    else binaryBitmap ((m :: ms').drop 8) 0 0 (ms'.length + 1 - 8)) ++ tail))).1,
             ⟨addr, key, if (f >>> 1) &&& 1 ≠ 0 then v else 0⟩ ::
               (decompBinary addr v (key + 1) ms'.length (j + 1) (f >>> 1)
                 (packNum (memberBits ((m :: ms').take 8)) ::
                   ((if ms'.length + 1 ≤ 8 then []
                     else binaryBitmap ((m :: ms').drop 8) 0 0 (ms'.length + 1 - 8)) ++ tail))).2.1,
             (decompBinary addr v (key + 1) ms'.length (j + 1) (f >>> 1)
               (packNum (memberBits ((m :: ms').take 8)) ::
                 ((if ms'.length + 1 ≤ 8 then []
                   else binaryBitmap ((m :: ms').drop 8) 0 0 (ms'.length + 1 - 8)) ++ tail))).2.2)
        from rfl]
      rw [if_pos (by omega)]
      have hemit0 : (if packNum (memberBits ((m :: ms').take 8)) &&& 1 ≠ 0 then v else 0)
          = (if m.token.value ≠ 0 then v else 0) := by
        rw [List.take_succ_cons, Nat.and_one_is_mod]
        have hpc : packNum (memberBits (m :: ms'.take 7)) =
            bitVal (m.token.value != 0) + 2 * packNum (memberBits (ms'.take 7)) := by
          simp [memberBits, packNum]
        rw [hpc]
        by_cases hz : m.token.value = 0
        · have hb : bitVal (m.token.value != 0) = 0 := by simp [hz, bitVal]
          rw [hb]
          rw [if_neg (by omega), if_neg (by omega)]
        · have hb : bitVal (m.token.value != 0) = 1 := by simp [hz, bitVal]
          rw [hb]
          rw [if_pos (by omega), if_pos hz]
      by_cases hle : ms'.length + 1 ≤ 8
      · -- whole series fits in one bitmap byte
        rw [if_pos hle]
        have htk : (m :: ms').take 8 = m :: ms' := by
          apply List.take_of_length_le
          simp only [List.length_cons]
          omega
        have hpc : packNum (memberBits (m :: ms')) =
            bitVal (m.token.value != 0) +
              2 * (packNum (memberBits ms') + 2 ^ ms'.length * 0) := by
          simp [memberBits, packNum]
        rw [htk, List.nil_append]
        rw [show ms'.length = ms'.length + 0 from rfl, hpc]
        rw [decompBinary_split_gen addr v ms' (m.token.value != 0) 0 0 (key + 1) 0 tail
          (0, [], tail) (by omega) rfl]
        rw [← hpc]
        have hemit1 : (if packNum (memberBits (m :: ms')) &&& 1 ≠ 0 then v else 0)
            = (if m.token.value ≠ 0 then v else 0) := by
          rw [← htk]
          exact hemit0
        rw [hemit1]
        simp [seriesTriplesV]
      · -- the series spills into further bitmap bytes
        rw [if_neg hle]
        have h7 : (ms'.take 7).length = 7 := by
          rw [List.length_take]
          omega
        have htk8 : (m :: ms').take 8 = m :: ms'.take 7 := List.take_succ_cons ..
        have hpc : packNum (memberBits (m :: ms'.take 7)) =
            bitVal (m.token.value != 0) +
              2 * (packNum (memberBits (ms'.take 7)) + 2 ^ (7:Nat) * 0) := by
          simp [memberBits, packNum]
        have hdp8 : (m :: ms').drop 8 = ms'.drop 7 := List.drop_succ_cons ..
        have hsplit := decompBinary_split_gen addr v (ms'.take 7) (m.token.value != 0) 0 0
          (key + 1) (ms'.length - 7) (binaryBitmap (ms'.drop 7) 0 0 (ms'.length - 7) ++ tail)
          (0, seriesTriplesV addr (fun t => if t.token.value ≠ 0 then v else 0) (key + 1 + 7) (ms'.drop 7), tail)
          (by simp [h7]) ?hcont
        case hcont =>
          have hlen7 : (ms'.drop 7).length = ms'.length - 7 := by
            rw [List.length_drop]
          rw [h7]
          rw [show key + 1 + 7 = key + 8 from by omega]
          have := ihn (ms'.drop 7) (by rw [hlen7]; omega)
            (fun x hx => hrest x (List.mem_of_mem_drop hx))
            7 ((bitVal (m.token.value != 0) +
              2 * (packNum (memberBits (ms'.take 7)) + 2 ^ 7 * 0)) >>> 7)
            (key + 8) tail (by omega)
          rw [hlen7] at this
          rw [show key + 8 = key + 1 + 7 from by omega] at this
          exact this
        rw [h7] at hsplit
        rw [show 7 + (ms'.length - 7) = ms'.length from by omega] at hsplit
        rw [htk8, hpc, hdp8]
        rw [show ms'.length + 1 - 8 = ms'.length - 7 from by omega]
        rw [hsplit]
        rw [← hpc, ← htk8, hemit0]
        have hms := seriesTriplesV_append addr (fun t => if t.token.value ≠ 0 then v else 0) (ms'.take 7) (ms'.drop 7) (key + 1)
        rw [List.take_append_drop, h7] at hms
        simp only [← hms, seriesTriplesV]


/-- The analog-series decode loop applied to the analog value
serialisation of an arbitrary all-flagged member list: each member
decodes to its value reduced modulo the wire width. -/
theorem decompAnalog_gen (addr vsz : Nat) :
    ∀ (ms : List MTL_TOKEN) (key : Nat) (tail : List Nat),
      (∀ m ∈ ms, shouldBroadcast m = true) →
      decompAnalog addr key vsz ms.length (analogValues ms vsz ms.length ++ tail) =
        (0, seriesTriplesV addr (fun t => t.token.value % 256 ^ vsz) key ms, tail) := by
  intro ms
  induction ms with
  | nil =>
    intro key tail hall
    rfl
  | cons m ms ih =>
    intro key tail hall
    have hrest : ∀ x ∈ ms, shouldBroadcast x = true :=
      fun x hx => hall x (List.mem_cons_of_mem m hx)
    have hadv : advanceF (m :: ms) = ms := advanceF_cons_flagged m hrest
    simp only [List.length_cons]
    rw [show analogValues (m :: ms) vsz (ms.length + 1) =
        OutputTokenValue (headTokenValue (m :: ms)) vsz ++
          analogValues (advanceF (m :: ms)) vsz ms.length from rfl]
    rw [hadv, show headTokenValue (m :: ms) = m.token.value from rfl]
    rw [show decompAnalog addr key vsz (ms.length + 1)
          ((OutputTokenValue m.token.value vsz ++ analogValues ms vsz ms.length) ++ tail) =
        match readValueBytes vsz 0
            ((OutputTokenValue m.token.value vsz ++ analogValues ms vsz ms.length) ++ tail) with
        | none => (-1, [],
            (OutputTokenValue m.token.value vsz ++ analogValues ms vsz ms.length) ++ tail)
        | some (v, s1) =>
          ((decompAnalog addr (key + 1) vsz ms.length s1).1,
           ⟨addr, key, v⟩ :: (decompAnalog addr (key + 1) vsz ms.length s1).2.1,
           (decompAnalog addr (key + 1) vsz ms.length s1).2.2)
      from rfl]
    rw [List.append_assoc]
    rw [readValueBytes_mod vsz m.token.value _]
    dsimp only
    rw [ih (key + 1) tail hrest]
    simp [seriesTriplesV]

/-- Keys-only round-trip invariant: on an all-flagged table whose keys
lie below the repeat prefixes, the decompression loop run on the
compression loop output succeeds and reconstructs exactly the table
keys in order, with no assumption on the stored values. -/
theorem decompLoop_compressLoop_keys (addr : Nat) :
    ∀ (n : Nat) (F : List MTL_TOKEN), F.length ≤ n →
      (∀ m ∈ F, shouldBroadcast m = true) →
      (∀ m ∈ F, m.token.key < 24576) →
      ∀ fuel : Nat, (compressLoop F).length ≤ fuel →
      ∃ ts, decompLoop addr fuel (compressLoop F) = (0, ts) ∧
        ts.map (fun d => d.key) = F.map (fun m => m.token.key) := by
  intro n
  induction n with
  | zero =>
    intro F hlen _ _ fuel _
    have h0 : F.length = 0 := by omega
    rcases List.length_eq_zero.mp h0 with rfl
    refine ⟨[], ?_, rfl⟩
    rw [show compressLoop ([] : List MTL_TOKEN) = [] from by rw [compressLoop]]
    cases fuel <;> rfl
  | succ n ihn =>
    intro F hlen hall hkeys fuel hfuel
    cases F with
    | nil =>
      refine ⟨[], ?_, rfl⟩
      rw [show compressLoop ([] : List MTL_TOKEN) = [] from by rw [compressLoop]]
      cases fuel <;> rfl
    | cons t rest =>
      have hflag : shouldBroadcast t = true := hall t (List.mem_cons_self t rest)
      have hrest : ∀ m ∈ rest, shouldBroadcast m = true :=
        fun m hm => hall m (List.mem_cons_of_mem t hm)
      have hkeyt : t.token.key < 24576 := hkeys t (List.mem_cons_self t rest)
      have hkeyr : ∀ m ∈ rest, m.token.key < 24576 :=
        fun m hm => hkeys m (List.mem_cons_of_mem t hm)
      have hlen2 : rest.length ≤ n := by
        simp only [List.length_cons] at hlen
        omega
      have hkhi := key_hi_eq t.token.key hkeyt
      have hstd := stdPrefix_facts (t.token.key >>> 8) hkhi.2
      by_cases hvz : Key_ValueSize t.token.key = 0
      · -- zero-width key: a bare standard token
        have hco : compressLoop (t :: rest) =
            ((t.token.key >>> 8) % 256) :: (t.token.key % 256) :: compressLoop rest := by
          rw [compressLoop]
          rw [if_neg (by simp [hflag])]
          rw [if_pos hvz]
          simp [OutputToken, OutputTokenKey, OutputTokenValue, hvz]
        rw [hco] at hfuel ⊢
        cases fuel with
        | zero =>
          simp only [List.length_cons] at hfuel
          omega
        | succ f =>
          obtain ⟨ts2, hts2, hk2⟩ := ihn rest hlen2 hrest hkeyr f
            (by simp only [List.length_cons] at hfuel; omega)
          refine ⟨⟨addr, t.token.key, 0⟩ :: ts2, ?_, ?_⟩
          · rw [decompLoop_std addr f _ _ _
              (by rw [hkhi.1]; exact hstd.1)
              (by rw [hkhi.1]; exact hstd.2.1)
              (by rw [hkhi.1]; exact hstd.2.2)]
            rw [key_reconstruct t.token.key hkeyt]
            rw [hvz]
            dsimp only [readValueBytes]
            rw [hts2]
          · simp only [List.map_cons]
            rw [hk2]
      · obtain ⟨k, v2, nB2, hscan, hkle, hk31, hchain, hp4, hp5, hp6, hp7⟩ :=
          seriesScan_spec (Key_ValueSize t.token.key) rest t (t.token.key + 1)
            t.token.value 0 0 hrest (by omega)
        simp only [Nat.zero_add] at hscan
        by_cases hbin : nB2 ≠ 0 ∧ nB2 < 32
        · -- a binary series
          have hkeq : nB2 = k := by
            have := hp6 hbin.2
            omega
          have hktake : (rest.take k).length = k := by
            rw [List.length_take]
            omega
          have hbm : binaryBitmap (t :: rest) 0 0 (k + 1) =
              binaryBitmap (t :: rest.take k) 0 0 (k + 1) := by
            have := binaryBitmap_take (k + 1) (t :: rest) 0 0 hall
              (by simp only [List.length_cons]; omega)
            rw [this, List.take_succ_cons]
          have hco : compressLoop (t :: rest) =
              (k ||| KeyPrefix_BinaryRepeat) ::
                ((t.token.key >>> 8) % 256) :: (t.token.key % 256) ::
                (OutputTokenValue v2 (Key_ValueSize t.token.key) ++
                  (binaryBitmap (t :: rest.take k) 0 0 (k + 1) ++
                    compressLoop (rest.drop k))) := by
            rw [compressLoop]
            rw [if_neg (by simp [hflag])]
            rw [if_neg hvz]
            dsimp only
            rw [hscan]
            dsimp only
            simp only [MATRIX_MESSAGE_MAX_TOKEN_REPEATS]
            rw [if_pos hbin]
            rw [hkeq, hbm]
            rw [show advanceF^[k + 1] (t :: rest) = rest.drop k from by
              rw [advanceF_iterate_flagged (k + 1) (t :: rest) hall, List.drop_succ_cons]]
            simp [OutputTokenKey, List.append_assoc]
          rw [hco] at hfuel ⊢
          cases fuel with
          | zero =>
            simp only [List.length_cons] at hfuel
            omega
          | succ f =>
            have hchunk := decompBinary_chunk_gen addr
              (v2 % 256 ^ Key_ValueSize t.token.key) (k + 1) (t :: rest.take k)
              (by simp only [List.length_cons, hktake]; omega)
              (by
                intro m hm
                rcases List.mem_cons.mp hm with heq | hm2
                · rw [heq]; exact hflag
                · exact hrest m (List.mem_of_mem_take hm2))
              8 0 t.token.key (compressLoop (rest.drop k)) (by omega)
            rw [show (t :: rest.take k).length = k + 1 from by
              simp only [List.length_cons, hktake]] at hchunk
            obtain ⟨ts2, hts2, hk2⟩ := ihn (rest.drop k)
              (by rw [List.length_drop]; omega)
              (fun m hm => hrest m (List.mem_of_mem_drop hm))
              (fun m hm => hkeyr m (List.mem_of_mem_drop hm)) f
              (by
                simp only [List.length_cons, List.length_append] at hfuel
                omega)
            refine ⟨seriesTriplesV addr
              (fun t2 => if t2.token.value ≠ 0 then
                v2 % 256 ^ Key_ValueSize t.token.key else 0)
              t.token.key (t :: rest.take k) ++ ts2, ?_, ?_⟩
            · rw [decompLoop_binary addr f k _ _ _ (by omega)]
              rw [key_reconstruct t.token.key hkeyt]
              rw [readValueBytes_mod]
              dsimp only
              rw [hchunk]
              rw [if_neg (by simp)]
              rw [hts2]
            · rw [List.map_append]
              rw [seriesTriplesV_keys addr _ (t :: rest.take k) t.token.key
                (Key_ValueSize t.token.key) ⟨rfl, rfl, hchain⟩]
              rw [hk2]
              rw [← List.map_append, List.cons_append, List.take_append_drop]
        · -- not a binary series
          by_cases hana : k ≠ 0
          · -- an analog series
            have hktake : (rest.take k).length = k := by
              rw [List.length_take]
              omega
            have hco : compressLoop (t :: rest) =
                (k ||| KeyPrefix_AnalogRepeat) ::
                  ((t.token.key >>> 8) % 256) :: (t.token.key % 256) ::
                  (OutputTokenValue t.token.value (Key_ValueSize t.token.key) ++
                    (analogValues (rest.take k) (Key_ValueSize t.token.key) k ++
                      compressLoop (rest.drop k))) := by
              rw [compressLoop]
              rw [if_neg (by simp [hflag])]
              rw [if_neg hvz]
              dsimp only
              rw [hscan]
              dsimp only
              simp only [MATRIX_MESSAGE_MAX_TOKEN_REPEATS]
              rw [if_neg hbin]
              rw [if_pos hana]
              rw [show advanceF (t :: rest) = rest from advanceF_cons_flagged t hrest]
              rw [analogValues_take k rest _ hrest (by omega)]
              rw [show advanceF^[k + 1] (t :: rest) = rest.drop k from by
                rw [advanceF_iterate_flagged (k + 1) (t :: rest) hall, List.drop_succ_cons]]
              simp [OutputToken, OutputTokenKey, List.append_assoc]
            rw [hco] at hfuel ⊢
            cases fuel with
            | zero =>
              simp only [List.length_cons] at hfuel
              omega
            | succ f =>
              have hspec := decompAnalog_gen addr (Key_ValueSize t.token.key)
                (t :: rest.take k) t.token.key (compressLoop (rest.drop k))
                (by
                  intro m hm
                  rcases List.mem_cons.mp hm with heq | hm2
                  · rw [heq]; exact hflag
                  · exact hrest m (List.mem_of_mem_take hm2))
              rw [show (t :: rest.take k).length = k + 1 from by
                simp only [List.length_cons, hktake]] at hspec
              rw [show analogValues (t :: rest.take k) (Key_ValueSize t.token.key) (k + 1) =
                  OutputTokenValue t.token.value (Key_ValueSize t.token.key) ++
                    analogValues (rest.take k) (Key_ValueSize t.token.key) k from by
                rw [show analogValues (t :: rest.take k) (Key_ValueSize t.token.key) (k + 1) =
                    OutputTokenValue (headTokenValue (t :: rest.take k))
                      (Key_ValueSize t.token.key) ++
                      analogValues (advanceF (t :: rest.take k)) (Key_ValueSize t.token.key) k
                  from rfl]
                rw [advanceF_cons_flagged t
                  (fun m hm => hrest m (List.mem_of_mem_take hm))]
                rfl] at hspec
              rw [List.append_assoc] at hspec
              obtain ⟨ts2, hts2, hk2⟩ := ihn (rest.drop k)
                (by rw [List.length_drop]; omega)
                (fun m hm => hrest m (List.mem_of_mem_drop hm))
                (fun m hm => hkeyr m (List.mem_of_mem_drop hm)) f
                (by
                  simp only [List.length_cons, List.length_append] at hfuel
                  omega)
              refine ⟨seriesTriplesV addr
                (fun t2 => t2.token.value % 256 ^ Key_ValueSize t.token.key)
                t.token.key (t :: rest.take k) ++ ts2, ?_, ?_⟩
              · rw [decompLoop_analog addr f k _ _ _ (by omega)]
                rw [key_reconstruct t.token.key hkeyt]
                rw [hspec]
                rw [if_neg (by simp)]
                rw [hts2]
              · rw [List.map_append]
                rw [seriesTriplesV_keys addr _ (t :: rest.take k) t.token.key
                  (Key_ValueSize t.token.key) ⟨rfl, rfl, hchain⟩]
                rw [hk2]
                rw [← List.map_append, List.cons_append, List.take_append_drop]
          · -- a lone token with a value
            have hco : compressLoop (t :: rest) =
                ((t.token.key >>> 8) % 256) :: (t.token.key % 256) ::
                  (OutputTokenValue t.token.value (Key_ValueSize t.token.key) ++
                    compressLoop rest) := by
              rw [compressLoop]
              rw [if_neg (by simp [hflag])]
              rw [if_neg hvz]
              dsimp only
              rw [hscan]
              dsimp only
              simp only [MATRIX_MESSAGE_MAX_TOKEN_REPEATS]
              rw [if_neg hbin]
              rw [if_neg hana]
              simp [OutputToken, OutputTokenKey]
            rw [hco] at hfuel ⊢
            cases fuel with
            | zero =>
              simp only [List.length_cons] at hfuel
              omega
            | succ f =>
              obtain ⟨ts2, hts2, hk2⟩ := ihn rest hlen2 hrest hkeyr f
                (by
                  simp only [List.length_cons, List.length_append] at hfuel
                  omega)
              refine ⟨⟨addr, t.token.key,
                t.token.value % 256 ^ Key_ValueSize t.token.key⟩ :: ts2, ?_, ?_⟩
              · rw [decompLoop_std addr f _ _ _
                  (by rw [hkhi.1]; exact hstd.1)
                  (by rw [hkhi.1]; exact hstd.2.1)
                  (by rw [hkhi.1]; exact hstd.2.2)]
                rw [key_reconstruct t.token.key hkeyt]
                rw [readValueBytes_mod]
                dsimp only
                rw [hts2]
              · simp only [List.map_cons]
                rw [hk2]

/-- Every token the decompressor reconstructs from a compressed table
stream carries the key of some broadcast-flagged table entry, with no
assumption on the stored values. -/
theorem codec_decompress_keys (addr : Nat) (tokens : List MTL_TOKEN)
    (hflagkeys : ∀ m ∈ tokens, shouldBroadcast m = true → m.token.key < 24576) :
    ∀ d ∈ (MatrixCodec_Decompress (compressLoop tokens) addr).2,
      ∃ m ∈ tokens, shouldBroadcast m = true ∧ m.token.key = d.key := by
  have hffs : ∀ m ∈ tokens.filter shouldBroadcast, shouldBroadcast m = true :=
    fun m hm => List.of_mem_filter hm
  have hfkeys : ∀ m ∈ tokens.filter shouldBroadcast, m.token.key < 24576 :=
    fun m hm => hflagkeys m (List.mem_of_mem_filter hm) (List.of_mem_filter hm)
  have hbr := compressLoop_filter tokens.length tokens le_rfl
  intro d hd
  unfold MatrixCodec_Decompress at hd
  by_cases hs : (compressLoop tokens).length = 0
  · rw [if_pos hs] at hd
    simp at hd
  · rw [if_neg hs] at hd
    rw [hbr] at hd
    obtain ⟨ts, hts, hk⟩ := decompLoop_compressLoop_keys addr
      (tokens.filter shouldBroadcast).length (tokens.filter shouldBroadcast) le_rfl
      hffs hfkeys (compressLoop (tokens.filter shouldBroadcast)).length le_rfl
    rw [hts] at hd
    have hdk : d.key ∈ ts.map (fun d2 => d2.key) := List.mem_map_of_mem _ hd
    rw [hk] at hdk
    obtain ⟨m, hm, hmk⟩ := List.mem_map.mp hdk
    exact ⟨m, List.mem_of_mem_filter hm, List.of_mem_filter hm, hmk⟩

/-! ### Theorems for claims C1 and C4 -/

/-- C1, counterexample to the original claim: a single-entry (hence
key-sorted) table whose flagged token has key 8000 — a key whose region
has wire width zero — and value 1.  Compression emits only the two key
bytes, so decompression reconstructs value 0 instead of 1 and the
round trip is not the identity on the flagged subsequence. -/
theorem C1_counterexample :
    (MatrixCodec_Decompress
        (MatrixCodec_Compress [(⟨⟨8, 0, 8000, 1⟩, 0, 0⟩ : MTL_TOKEN)]).2 9).2 ≠
      broadcastTriples 9 [(⟨⟨8, 0, 8000, 1⟩, 0, 0⟩ : MTL_TOKEN)] := by
  have hc : compressLoop [(⟨⟨8, 0, 8000, 1⟩, 0, 0⟩ : MTL_TOKEN)] = [31, 64] := by
    rw [compressLoop]
    rw [if_neg (by decide)]
    rw [if_pos (by decide)]
    rw [compressLoop]
    decide
  have h2 : (MatrixCodec_Compress [(⟨⟨8, 0, 8000, 1⟩, 0, 0⟩ : MTL_TOKEN)]).2 = [31, 64] := by
    unfold MatrixCodec_Compress
    rw [if_neg (by decide)]
    exact hc
  rw [h2]
  decide

/-- C1, amended: for every nonempty, key-sorted token table whose
broadcast-flagged entries all have keys below 0x6000 (that is, a
Command, OutputStatus or InputStatus prefix) and values that fit the
key's wire width, MatrixCodec_Compress succeeds, MatrixCodec_Decompress
applied to the produced byte stream yields exactly the broadcast-flagged
subsequence of the input as (address, key, value) triples, and also
reports success whenever at least one entry is flagged (an all-unflagged
table compresses to the empty stream, which decompression rejects by
input validation). -/
theorem C1_codec_roundtrip (addr : Nat) (tokens : List MTL_TOKEN)
    (hsorted : tokens.Pairwise (fun a b => a.token.key ≤ b.token.key))
    (hne : tokens ≠ [])
    (hsafe : ∀ m ∈ tokens, shouldBroadcast m = true →
      m.token.key < 0x6000 ∧ m.token.value < 256 ^ Key_ValueSize m.token.key) :
    (MatrixCodec_Compress tokens).1 = 0 ∧
    (MatrixCodec_Decompress (MatrixCodec_Compress tokens).2 addr).2 =
      broadcastTriples addr tokens ∧
    (tokens.filter shouldBroadcast ≠ [] →
      (MatrixCodec_Decompress (MatrixCodec_Compress tokens).2 addr).1 = 0) := by
  have hc2 : (MatrixCodec_Compress tokens).2 = compressLoop tokens := by
    unfold MatrixCodec_Compress
    rw [if_neg (by simp [List.length_eq_zero, hne])]
  have h := codec_decompress_compress addr tokens hsafe
  refine ⟨?_, ?_, ?_⟩
  · unfold MatrixCodec_Compress
    rw [if_neg (by simp [List.length_eq_zero, hne])]
  · rw [hc2]
    exact h.1
  · rw [hc2]
    exact h.2

/-- Witness table for the amended codec round trip: a two-member binary
series, an unflagged entry that compression must skip, and a lone
flagged analog-width token. -/
def C1tokens : List MTL_TOKEN :=
  [⟨⟨8, 0, 0x4005, 1⟩, 0, 0⟩, ⟨⟨8, 0, 0x4006, 0⟩, 0, 0⟩,
   ⟨⟨0, 0, 0x4008, 9⟩, 0, 0⟩, ⟨⟨8, 0, 0x5100, 42⟩, 0, 0⟩]

/-- C1, witness: the amended round trip at a concrete sorted table. -/
theorem C1_witness :
    (MatrixCodec_Compress C1tokens).1 = 0 ∧
    (MatrixCodec_Decompress (MatrixCodec_Compress C1tokens).2 9).2 =
      broadcastTriples 9 C1tokens ∧
    (C1tokens.filter shouldBroadcast ≠ [] →
      (MatrixCodec_Decompress (MatrixCodec_Compress C1tokens).2 9).1 = 0) :=
  C1_codec_roundtrip 9 C1tokens (by decide) (by decide) (by decide)

/-- C4: local-variable keys never reach the CAN bus.  Part one:
Matrix_TokenIn routes a local-key token to the equation processor or a
sequencer and otherwise drops it.  Part two: the time-logic output
SendToken never lists the CAN bus among the destinations of a local-key
token.  Part three: the periodic beacon path — the compressed token
table — decompresses to tokens whose keys all satisfy the broadcast
condition PopulateTokenTable uses when it sets the should-broadcast
flag, and in particular are never local; the table hypotheses say the
keys are 16-bit and flagged entries meet that broadcast condition,
while the stored values are arbitrary: value truncation on the wire
never changes a decoded key. -/
theorem C4_no_local_keys_outbound :
    (∀ (token : TOKEN) (addressValid : Bool), Key_IsLocalVariable token.key = true →
      Matrix_TokenIn addressValid token ≠ TokenInRoute.canBus) ∧
    (∀ (hasAppCallback : Bool) (token : TOKEN), Key_IsLocalVariable token.key = true →
      MtlSendDest.canBus ∉ MatrixTimeLogic_SendToken hasAppCallback token) ∧
    (∀ (tokens : List MTL_TOKEN) (addr : Nat),
      (∀ m ∈ tokens, m.token.key < 65536) →
      (∀ m ∈ tokens, shouldBroadcast m = true → mtlBroadcastCondition m.token.key = true) →
      ∀ d ∈ (MatrixCodec_Decompress (MatrixCodec_Compress tokens).2 addr).2,
        Key_IsLocalVariable d.key = false) := by
  refine ⟨?_, ?_, ?_⟩
  · intro token av hloc
    unfold Matrix_TokenIn
    split_ifs with h1 h2 h3
    · decide
    · decide
    · exact absurd hloc h3.2.1
    · decide
  · intro hasApp token hloc
    unfold MatrixTimeLogic_SendToken
    rw [if_neg (by simp [hloc])]
    cases hasApp <;> decide
  · intro tokens addr hk16 hpop d hd
    by_cases hne : tokens = []
    · subst hne
      simp [MatrixCodec_Compress, MatrixCodec_Decompress] at hd
    · have hflagkeys : ∀ m ∈ tokens, shouldBroadcast m = true → m.token.key < 24576 := by
        intro m hm hf
        exact status_key_lt m.token.key (hk16 m hm) (hpop m hm hf)
      have hc2 : (MatrixCodec_Compress tokens).2 = compressLoop tokens := by
        unfold MatrixCodec_Compress
        rw [if_neg (by simp [List.length_eq_zero, hne])]
      rw [hc2] at hd
      obtain ⟨m, hm, hf, hkey⟩ := codec_decompress_keys addr tokens hflagkeys d hd
      have hcond := hpop m hm hf
      unfold mtlBroadcastCondition at hcond
      simp only [Bool.and_eq_true] at hcond
      rw [← hkey]
      simpa using hcond.1

/-- Witness table for the beacon part of C4: one flagged input-status
token with a public key whose value 300 overflows its one-byte wire
width. -/
def C4tokens : List MTL_TOKEN := [⟨⟨8, 0, 0x40C8, 300⟩, 0, 0⟩]

/-- C4, witness: the three no-local-key guarantees at a local key 0x2005
and the concrete beacon table. -/
theorem C4_witness :
    Matrix_TokenIn true ⟨0, 5, 0x2005, 1⟩ ≠ TokenInRoute.canBus ∧
    MtlSendDest.canBus ∉ MatrixTimeLogic_SendToken true ⟨0, 5, 0x2005, 1⟩ ∧
    (∀ d ∈ (MatrixCodec_Decompress (MatrixCodec_Compress C4tokens).2 9).2,
      Key_IsLocalVariable d.key = false) :=
  ⟨C4_no_local_keys_outbound.1 ⟨0, 5, 0x2005, 1⟩ true (by decide),
   C4_no_local_keys_outbound.2.1 true ⟨0, 5, 0x2005, 1⟩ (by decide),
   C4_no_local_keys_outbound.2.2 C4tokens 9 (by decide) (by decide)⟩

end ECCONet
